import Mathlib

set_option maxRecDepth 100000

/-!
Verification of the arc look-up classes of lemon (`lemon/core.h`):
`ArcLookUp`, `AllArcLookUp` and `DynArcLookUp`.

Node and arc handles are modelled as integers (lemon identifies both by
`int` ids); the distinguished handle `INVALID` is `-1`.  The host digraph
(a template parameter of the classes, external to the repository) is
modelled as a list of nodes and a list of `(id, source, target)` arc
records, matching the interface the classes consume: node and out-arc
enumeration, `source`/`target` accessors and the total order on node ids.

The look-up structures themselves are embedded state-passing style: the
`_head`, `_parent`, `_left`, `_right` and `_next` maps become total
functions `Int → Int`, updated pointwise exactly where the C++ assigns.
Loops of the source (`while (true)`, the splay loop, descent loops) are
given explicit fuel; reading `source`/`target` of a handle that is not an
arc of the graph (undefined behaviour in the source) returns `none`, so
every operation that may perform such a read returns an `Option`.
-/

namespace Lookup

/-- The host digraph: nodes and arcs `(id, source, target)`. -/
structure Digraph where
  nodes : List Int
  arcs : List (Int × Int × Int)

/-- The `INVALID` handle of lemon (`id == -1`). -/
def INVALID : Int := -1

/-- `source(a)`: the source node of arc handle `a`, if `a` is an arc. -/
def srcOf (g : Digraph) (a : Int) : Option Int :=
  (g.arcs.find? (fun x => x.1 = a)).map (fun x => x.2.1)

/-- `target(a)`: the target node of arc handle `a`, if `a` is an arc. -/
def tgtOf (g : Digraph) (a : Int) : Option Int :=
  (g.arcs.find? (fun x => x.1 = a)).map (fun x => x.2.2)

/-- The out-arcs of node `n` (arc ids, in arc-list order), as enumerated
by `OutArcIt`. -/
def outArcs (g : Digraph) (n : Int) : List Int :=
  (g.arcs.filter (fun x => x.2.1 = n)).map (fun x => x.1)

/-- Well-formedness of the host graph: distinct nonnegative arc ids,
arc sources are nodes of the graph. -/
def WFg (g : Digraph) : Prop :=
  (g.arcs.map (fun x => x.1)).Nodup ∧
  (∀ x ∈ g.arcs, 0 ≤ x.1 ∧ x.2.1 ∈ g.nodes) ∧
  g.nodes.Nodup

/-- The state of a look-up structure: the `_head`, `_parent`, `_left`,
`_right` maps (and `_next` for `AllArcLookUp`), all `Int → Int` with
`-1` for `INVALID`.  The static `ArcLookUp` uses only `head`, `left`,
`right`; `AllArcLookUp` adds `next`; `DynArcLookUp` adds `parent`. -/
structure St where
  head : Int → Int
  parent : Int → Int
  left : Int → Int
  right : Int → Int
  next : Int → Int

/-- Pointwise map update. -/
def upd (f : Int → Int) (k v : Int) : Int → Int :=
  fun x => if x = k then v else f x

/-- The state at construction: every map filled with `INVALID`. -/
def st0 : St :=
  ⟨fun _ => -1, fun _ => -1, fun _ => -1, fun _ => -1, fun _ => -1⟩

/-! ### The sort used by `refresh`

`refresh` collects the out-arcs of a node and sorts them with
`std::sort` and the comparator `ArcLess` (`target(a) < target(b)`).  Any
permutation that is nondecreasing in the targets is a legal result of
`std::sort`; we model it by insertion sort on the nondecreasing-target
relation, which produces one such permutation. -/

/-- The target of `a` with default `-1`; on arcs of the graph this is the
real target. -/
def tgtD (g : Digraph) (a : Int) : Int :=
  (tgtOf g a).getD (-1)

/-- Sorted-by-target comparison used to model `std::sort` with `ArcLess`. -/
def leTgt (g : Digraph) (a b : Int) : Prop :=
  tgtD g a ≤ tgtD g b

instance (g : Digraph) (a b : Int) : Decidable (leTgt g a b) := by
  unfold leTgt; infer_instance

instance (g : Digraph) : IsTotal Int (leTgt g) :=
  ⟨fun a b => le_total (tgtD g a) (tgtD g b)⟩

instance (g : Digraph) : IsTrans Int (leTgt g) :=
  ⟨fun _ _ _ h1 h2 => le_trans h1 h2⟩

/-- The sorted vector `v` of `refresh`. -/
def sortArcs (g : Digraph) (l : List Int) : List Int :=
  l.insertionSort (leTgt g)

/-! ### `ArcLookUp` (static index) -/

/-- `ArcLookUp::refreshRec(v,a,b)`: roots the range `[a,b]` of the sorted
vector at its median, recursing on the two halves; writes `_left`/`_right`
and returns the subtree root.  Indexing outside the vector (impossible in
the source for `a ≤ b < v.size()`) yields `none`. -/
def refreshRecS (v : List Int) : Nat → Nat → Nat → St → Option (St × Int)
  | 0, _, _, _ => none
  | f + 1, a, b, s => do
    let m := (a + b) / 2
    let me ← v.get? m
    let s2 ←
      if a < m then do
        let (s1, lres) ← refreshRecS v f a (m - 1) s
        pure { s1 with left := upd s1.left me lres }
      else
        pure { s with left := upd s.left me (-1) }
    let s3 ←
      if m < b then do
        let (s1, rres) ← refreshRecS v f (m + 1) b s2
        pure { s1 with right := upd s1.right me rres }
      else
        pure { s2 with right := upd s2.right me (-1) }
    pure (s3, me)

/-- `ArcLookUp::refresh(Node n)`: collect and sort the out-arcs of `n`,
rebuild its tree. -/
def refreshNodeS (g : Digraph) (n : Int) (s : St) : Option St :=
  let v := sortArcs g (outArcs g n)
  if v.isEmpty then some { s with head := upd s.head n (-1) }
  else do
    let (s1, h) ← refreshRecS v v.length 0 (v.length - 1) s
    pure { s1 with head := upd s1.head n h }

/-- `ArcLookUp::refresh()`: refresh every node. -/
def refreshS (g : Digraph) (s : St) : Option St :=
  g.nodes.foldlM (fun s n => refreshNodeS g n s) s

/-- The descent loop of `ArcLookUp::operator()(s,t)`:
`for(e=_head[s]; e!=INVALID && target(e)!=t; e = t<target(e)?_left[e]:_right[e]);` -/
def lookupLoopS (g : Digraph) (s : St) : Nat → Int → Int → Option Int
  | 0, _, _ => none
  | f + 1, e, t =>
    if e = -1 then some (-1)
    else do
      let te ← tgtOf g e
      if te = t then some e
      else if t < te then lookupLoopS g s f (s.left e) t
      else lookupLoopS g s f (s.right e) t

/-- `ArcLookUp::operator()(s,t)` (also the inherited two-argument
`AllArcLookUp::operator()`). -/
def lookupArc (g : Digraph) (s : St) (n t : Int) (fuel : Nat) : Option Int :=
  lookupLoopS g s fuel (s.head n) t

/-! ### `AllArcLookUp` (parallel-arc extension) -/

/-- `AllArcLookUp::refreshNext(head,next)`: reverse in-order walk that
chains each arc to its in-order successor when that successor has the
same target. -/
def refreshNextRec (g : Digraph) : Nat → Int → Int → St → Option (St × Int)
  | 0, _, _, _ => none
  | f + 1, h, nx, s =>
    if h = -1 then some (s, nx)
    else do
      let (s1, nx1) ← refreshNextRec g f (s.right h) nx s
      let th ← tgtOf g h
      let s2 ←
        if nx1 ≠ -1 then do
          let tn ← tgtOf g nx1
          pure { s1 with next := upd s1.next h (if tn = th then nx1 else -1) }
        else
          pure { s1 with next := upd s1.next h (-1) }
      refreshNextRec g f (s2.left h) h s2

/-- `AllArcLookUp::refreshNext()`: run `refreshNext(_head[n])` for every
node. -/
def refreshNextAll (g : Digraph) (s : St) (fuel : Nat) : Option St :=
  g.nodes.foldlM (fun s n => (refreshNextRec g fuel (s.head n) (-1) s).map (fun x => x.1)) s

/-- The `AllArcLookUp` constructor: the base `ArcLookUp` refresh followed
by `refreshNext()`. -/
def allConstruct (g : Digraph) (s : St) (fuel : Nat) : Option St := do
  let s1 ← refreshS g s
  refreshNextAll g s1 fuel

/-- `AllArcLookUp::refresh(Node n)`. -/
def allRefreshNode (g : Digraph) (n : Int) (s : St) (fuel : Nat) : Option St := do
  let s1 ← refreshNodeS g n s
  (refreshNextRec g fuel (s1.head n) (-1) s1).map (fun x => x.1)

/-- `AllArcLookUp::refresh()`, as written in the source:
`for(NodeIt n(_g); n!=INVALID; ++n) refresh(_head[n]);` — the argument is
`_head[n]`, an *arc* handle, passed where a *node* is required.  lemon
identifies both by integer ids, so the embedding reads it as the node
whose id is that arc id; using a node map at an id that is not a node of
the graph is undefined behaviour and yields `none`. -/
def allRefreshFull (g : Digraph) (s : St) (fuel : Nat) : Option St :=
  g.nodes.foldlM
    (fun s n =>
      if s.head n ∈ g.nodes then allRefreshNode g (s.head n) s fuel else none) s

/-- `AllArcLookUp::operator()(s,t,prev)`:
`return prev==INVALID ? (*this)(s,t) : _next[prev];` -/
def allOp3 (g : Digraph) (s : St) (n t prev : Int) (fuel : Nat) : Option Int :=
  if prev = -1 then lookupArc g s n t fuel else some (s.next prev)

/-! ### `DynArcLookUp` (self-adjusting dynamic index) -/

/-- Write one entry of the `_parent` map. -/
def setP (k x : Int) (s : St) : St := { s with parent := upd s.parent k x }

/-- Write one entry of the `_left` map. -/
def setL (k x : Int) (s : St) : St := { s with left := upd s.left k x }

/-- Write one entry of the `_right` map. -/
def setR (k x : Int) (s : St) : St := { s with right := upd s.right k x }

/-- Write one entry of the `_head` map. -/
def setH (k x : Int) (s : St) : St := { s with head := upd s.head k x }

/-- `DynArcLookUp::zig(v)`: right rotation moving `v` above its parent. -/
def zig (v : Int) (s : St) : St :=
  let w := s.parent v
  let s1 := setP v (s.parent w) s
  let s2 := setP w v s1
  let s3 := setL w (s2.right v) s2
  let s4 := setR v w s3
  let s5 :=
    if s4.parent v ≠ -1 then
      if s4.right (s4.parent v) = w then setR (s4.parent v) v s4
      else setL (s4.parent v) v s4
    else s4
  if s5.left w ≠ -1 then setP (s5.left w) w s5 else s5

/-- `DynArcLookUp::zag(v)`: left rotation moving `v` above its parent. -/
def zag (v : Int) (s : St) : St :=
  let w := s.parent v
  let s1 := setP v (s.parent w) s
  let s2 := setP w v s1
  let s3 := setR w (s2.left v) s2
  let s4 := setL v w s3
  let s5 :=
    if s4.parent v ≠ -1 then
      if s4.left (s4.parent v) = w then setL (s4.parent v) v s4
      else setR (s4.parent v) v s4
    else s4
  if s5.right w ≠ -1 then setP (s5.right w) w s5 else s5

/-- The first four writes of `zig(v)` (before the grandparent fix-up),
named for reasoning; `zig_eq_steps` states that `zig` is this followed by
`zigFix`. -/
def zigStep1 (v : Int) (s : St) : St :=
  setR v (s.parent v)
    (setL (s.parent v) (s.right v) (setP (s.parent v) v (setP v (s.parent (s.parent v)) s)))

/-- The final reattachment write of `zig(v)`. -/
def zigFix2 (w : Int) (s5 : St) : St :=
  if s5.left w ≠ -1 then setP (s5.left w) w s5 else s5

/-- The grandparent fix-up and reattachment of `zig(v)`. -/
def zigFix (v w : Int) (s4 : St) : St :=
  zigFix2 w
    (if s4.parent v ≠ -1 then
      if s4.right (s4.parent v) = w then setR (s4.parent v) v s4
      else setL (s4.parent v) v s4
    else s4)

/-- The first four writes of `zag(v)`. -/
def zagStep1 (v : Int) (s : St) : St :=
  setL v (s.parent v)
    (setR (s.parent v) (s.left v) (setP (s.parent v) v (setP v (s.parent (s.parent v)) s)))

/-- The final reattachment write of `zag(v)`. -/
def zagFix2 (w : Int) (s5 : St) : St :=
  if s5.right w ≠ -1 then setP (s5.right w) w s5 else s5

/-- The grandparent fix-up and reattachment of `zag(v)`. -/
def zagFix (v w : Int) (s4 : St) : St :=
  zagFix2 w
    (if s4.parent v ≠ -1 then
      if s4.left (s4.parent v) = w then setL (s4.parent v) v s4
      else setR (s4.parent v) v s4
    else s4)

/-- The `while (_parent[v] != INVALID)` loop of `DynArcLookUp::splay`. -/
def splayLoop : Nat → Int → St → Option St
  | 0, _, _ => none
  | f + 1, v, s =>
    if s.parent v = -1 then some s
    else
      let s1 :=
        if v = s.left (s.parent v) then
          if s.parent (s.parent v) = -1 then zig v s
          else if s.parent v = s.left (s.parent (s.parent v)) then zig v (zig (s.parent v) s)
          else zag v (zig v s)
        else
          if s.parent (s.parent v) = -1 then zag v s
          else if s.parent v = s.left (s.parent (s.parent v)) then zig v (zag v s)
          else zag v (zag (s.parent v) s)
      splayLoop f v s1

/-- `DynArcLookUp::splay(v)`: rotate `v` to the root, then
`_head[_g.source(v)] = v`. -/
def splay (g : Digraph) (fuel : Nat) (v : Int) (s : St) : Option St := do
  let s1 ← splayLoop fuel v s
  let n ← srcOf g v
  pure { s1 with head := upd s1.head n v }

/-- The descent loop of `DynArcLookUp::insert`. -/
def insLoop (g : Digraph) (sfuel : Nat) (t arc : Int) : Nat → Int → St → Option St
  | 0, _, _ => none
  | f + 1, e, s => do
    let te ← tgtOf g e
    if t < te then
      if s.left e = -1 then
        let s1 := { s with left := upd s.left e arc }
        let s2 := { s1 with parent := upd s1.parent arc e }
        splay g sfuel arc s2
      else insLoop g sfuel t arc f (s.left e) s
    else
      if s.right e = -1 then
        let s1 := { s with right := upd s.right e arc }
        let s2 := { s1 with parent := upd s1.parent arc e }
        splay g sfuel arc s2
      else insLoop g sfuel t arc f (s.right e) s

/-- `DynArcLookUp::insert(arc)` (the `add` notification callback). -/
def insert (g : Digraph) (fuel : Nat) (arc : Int) (s : St) : Option St := do
  let sN ← srcOf g arc
  let t ← tgtOf g arc
  let s1 := { s with left := upd s.left arc (-1) }
  let s2 := { s1 with right := upd s1.right arc (-1) }
  if s2.head sN = -1 then
    some { s2 with head := upd s2.head sN arc, parent := upd s2.parent arc (-1) }
  else insLoop g fuel t arc fuel (s2.head sN) s2

/-- The `while (_right[e] != INVALID)` descent of `DynArcLookUp::remove`. -/
def rightmost (s : St) : Nat → Int → Option Int
  | 0, _ => none
  | f + 1, e => if s.right e = -1 then some e else rightmost s f (s.right e)

/-- `DynArcLookUp::remove(arc)` (the `erase` notification callback),
including, in the two-children case whose predecessor is the left child
itself, the source's omission of any update of `_parent[e]`. -/
def remove (g : Digraph) (fuel : Nat) (arc : Int) (s : St) : Option St :=
  if s.left arc = -1 then
    let s1 :=
      if s.right arc ≠ -1 then { s with parent := upd s.parent (s.right arc) (s.parent arc) }
      else s
    if s1.parent arc ≠ -1 then
      if s1.left (s1.parent arc) = arc then
        some { s1 with left := upd s1.left (s1.parent arc) (s1.right arc) }
      else
        some { s1 with right := upd s1.right (s1.parent arc) (s1.right arc) }
    else do
      let n ← srcOf g arc
      pure { s1 with head := upd s1.head n (s1.right arc) }
  else if s.right arc = -1 then
    let s1 := { s with parent := upd s.parent (s.left arc) (s.parent arc) }
    if s1.parent arc ≠ -1 then
      if s1.left (s1.parent arc) = arc then
        some { s1 with left := upd s1.left (s1.parent arc) (s1.left arc) }
      else
        some { s1 with right := upd s1.right (s1.parent arc) (s1.left arc) }
    else do
      let n ← srcOf g arc
      pure { s1 with head := upd s1.head n (s1.left arc) }
  else
    let e0 := s.left arc
    if s.right e0 ≠ -1 then do
      let e ← rightmost s fuel (s.right e0)
      let sp := s.parent e
      let s1 := { s with right := upd s.right (s.parent e) (s.left e) }
      let s2 :=
        if s1.left e ≠ -1 then { s1 with parent := upd s1.parent (s1.left e) (s1.parent e) }
        else s1
      let s3 := { s2 with left := upd s2.left e (s2.left arc) }
      let s4 := { s3 with parent := upd s3.parent (s3.left arc) e }
      let s5 := { s4 with right := upd s4.right e (s4.right arc) }
      let s6 := { s5 with parent := upd s5.parent (s5.right arc) e }
      let s7 := { s6 with parent := upd s6.parent e (s6.parent arc) }
      let s8 :=
        if s7.parent arc ≠ -1 then
          if s7.left (s7.parent arc) = arc then { s7 with left := upd s7.left (s7.parent arc) e }
          else { s7 with right := upd s7.right (s7.parent arc) e }
        else s7
      splay g fuel sp s8
    else
      let s1 := { s with right := upd s.right e0 (s.right arc) }
      let s2 := { s1 with parent := upd s1.parent (s1.right arc) e0 }
      if s2.parent arc ≠ -1 then
        if s2.left (s2.parent arc) = arc then
          some { s2 with left := upd s2.left (s2.parent arc) e0 }
        else
          some { s2 with right := upd s2.right (s2.parent arc) e0 }
      else do
        let n ← srcOf g arc
        pure { s2 with head := upd s2.head n e0 }

/-- `DynArcLookUp::refreshRec`: as the static one but also wiring
`_parent` of both children. -/
def refreshRecD (v : List Int) : Nat → Nat → Nat → St → Option (St × Int)
  | 0, _, _, _ => none
  | f + 1, a, b, s => do
    let m := (a + b) / 2
    let me ← v.get? m
    let s2 ←
      if a < m then do
        let (s1, lres) ← refreshRecD v f a (m - 1) s
        let sa := { s1 with left := upd s1.left me lres }
        pure { sa with parent := upd sa.parent lres me }
      else
        pure { s with left := upd s.left me (-1) }
    let s3 ←
      if m < b then do
        let (s1, rres) ← refreshRecD v f (m + 1) b s2
        let sa := { s1 with right := upd s1.right me rres }
        pure { sa with parent := upd sa.parent rres me }
      else
        pure { s2 with right := upd s2.right me (-1) }
    pure (s3, me)

/-- One node of `DynArcLookUp::refresh()`. -/
def refreshNodeD (g : Digraph) (n : Int) (s : St) : Option St :=
  let v := sortArcs g (outArcs g n)
  if v.isEmpty then some { s with head := upd s.head n (-1) }
  else do
    let (s1, h) ← refreshRecD v v.length 0 (v.length - 1) s
    let sa := { s1 with head := upd s1.head n h }
    pure { sa with parent := upd sa.parent h (-1) }

/-- `DynArcLookUp::refresh()` (also run by the constructor and the
`build` notification). -/
def refreshD (g : Digraph) (s : St) : Option St :=
  g.nodes.foldlM (fun s n => refreshNodeD g n s) s

/-- The `while (true)` descent of `DynArcLookUp::operator()(s,t)`.  Note
that the loop reads `_g.target(a)` before any `INVALID` test, so an
`INVALID` head is dereferenced. -/
def dynLookupLoop (g : Digraph) (sfuel : Nat) : Nat → Int → Int → St → Option (St × Int)
  | 0, _, _, _ => none
  | f + 1, a, t, s => do
    let ta ← tgtOf g a
    if ta = t then do
      let s1 ← splay g sfuel a s
      pure (s1, a)
    else if t < ta then
      if s.left a = -1 then do
        let s1 ← splay g sfuel a s
        pure (s1, -1)
      else dynLookupLoop g sfuel f (s.left a) t s
    else
      if s.right a = -1 then do
        let s1 ← splay g sfuel a s
        pure (s1, -1)
      else dynLookupLoop g sfuel f (s.right a) t s

/-- `DynArcLookUp::operator()(s,t)`. -/
def dynLookup (g : Digraph) (s : St) (n t : Int) (fuel : Nat) : Option (St × Int) :=
  dynLookupLoop g fuel fuel (s.head n) t s

/-- The `while (true)` loop of `DynArcLookUp::findFirst(s,t)`; like the
look-up it dereferences an `INVALID` head. -/
def findFirstLoop (g : Digraph) (sfuel : Nat) : Nat → Int → Int → Int → St → Option (St × Int)
  | 0, _, _, _, _ => none
  | f + 1, a, t, r, s => do
    let ta ← tgtOf g a
    if ta < t then
      if s.right a = -1 then do
        let s1 ← splay g sfuel a s
        pure (s1, r)
      else findFirstLoop g sfuel f (s.right a) t r s
    else
      let r1 := if ta = t then a else r
      if s.left a = -1 then do
        let s1 ← splay g sfuel a s
        pure (s1, r1)
      else findFirstLoop g sfuel f (s.left a) t r1 s

/-- `DynArcLookUp::findFirst(s,t)`. -/
def findFirst (g : Digraph) (s : St) (n t : Int) (fuel : Nat) : Option (St × Int) :=
  findFirstLoop g fuel fuel (s.head n) t (-1) s

/-- The `clear` notification callback of `DynArcLookUp`. -/
def clearD (g : Digraph) (s : St) : St :=
  g.nodes.foldl (fun s n => { s with head := upd s.head n (-1) }) s

/-! ### Graph mutations driving the dynamic index

The graph mutates its own arc set and synchronously notifies the
attached `DynArcLookUp`: an added arc is in the graph when `add` fires,
an erased arc is still in the graph when `erase` fires. -/

/-- A graph-driven notification. -/
inductive GOp
  | add (a sN t : Int)
  | erase (a : Int)

/-- Apply one mutation to the graph and deliver its notification. -/
def applyOp (fuel : Nat) : Digraph × St → GOp → Option (Digraph × St)
  | (g, s), .add a sN t =>
    let g2 : Digraph := ⟨g.nodes, g.arcs ++ [(a, sN, t)]⟩
    (insert g2 fuel a s).map (fun s2 => (g2, s2))
  | (g, s), .erase a => do
    let s2 ← remove g fuel a s
    pure (⟨g.nodes, g.arcs.filter (fun x => x.1 ≠ a)⟩, s2)

/-- Run a finite interleaving of add/erase notifications. -/
def runOps (fuel : Nat) (g : Digraph) (s : St) (ops : List GOp) : Option (Digraph × St) :=
  ops.foldlM (applyOp fuel) (g, s)

/-- In-order reading of the arcs in the tree below handle `h`; `none`
when the child maps do not describe a finite tree within `fuel`. -/
def inord (s : St) : Nat → Int → Option (List Int)
  | 0, _ => none
  | f + 1, h =>
    if h = -1 then some []
    else do
      let l ← inord s f (s.left h)
      let r ← inord s f (s.right h)
      pure (l ++ [h] ++ r)

/-! ### The index over an arbitrary node order

The classes are templates over the digraph `G`; the order on node
identities used by `ArcLess` and by every descent (`t < _g.target(e)`) is
whatever `operator<` the instantiating node type supplies.  The
definitions below are the static index with that order abstracted as
`lt`; the main definitions above are their instance at the standard
total order of the integer ids. -/

/-- `std::sort` with comparator `lt` on targets, modelled as insertion
sort on the derived "not after" relation (a legal `std::sort` result for
every strict weak order). -/
def sortArcsOrd (lt : Int → Int → Bool) (g : Digraph) (l : List Int) : List Int :=
  l.insertionSort (fun a b => !(lt (tgtD g b) (tgtD g a)))

/-- `ArcLookUp::refresh(Node n)` over the node order `lt`. -/
def refreshNodeOrd (lt : Int → Int → Bool) (g : Digraph) (n : Int) (s : St) : Option St :=
  let v := sortArcsOrd lt g (outArcs g n)
  if v.isEmpty then some { s with head := upd s.head n (-1) }
  else do
    let (s1, h) ← refreshRecS v v.length 0 (v.length - 1) s
    pure { s1 with head := upd s1.head n h }

/-- `ArcLookUp::refresh()` over the node order `lt`. -/
def refreshOrd (lt : Int → Int → Bool) (g : Digraph) (s : St) : Option St :=
  g.nodes.foldlM (fun s n => refreshNodeOrd lt g n s) s

/-- The descent loop of `ArcLookUp::operator()` over the node order `lt`. -/
def lookupLoopOrd (lt : Int → Int → Bool) (g : Digraph) (s : St) :
    Nat → Int → Int → Option Int
  | 0, _, _ => none
  | f + 1, e, t =>
    if e = -1 then some (-1)
    else do
      let te ← tgtOf g e
      if te = t then some e
      else if lt t te then lookupLoopOrd lt g s f (s.left e) t
      else lookupLoopOrd lt g s f (s.right e) t

/-- `ArcLookUp::operator()(s,t)` over the node order `lt`. -/
def lookupArcOrd (lt : Int → Int → Bool) (g : Digraph) (s : St) (n t : Int) (fuel : Nat) :
    Option Int :=
  lookupLoopOrd lt g s fuel (s.head n) t

/-! ### Concrete instances used to exercise the code -/

/-- Two nodes, no arcs. -/
def gEmpty : Digraph := ⟨[0, 1], []⟩

/-- One node, no arcs: `_head[0]` is `INVALID` after construction. -/
def gOne : Digraph := ⟨[0], []⟩

/-- A single node `5` with no outgoing arcs. -/
def gIso : Digraph := ⟨[5], []⟩

/-- Three nodes, one arc `1 → 2`; node `0` has no outgoing arcs. -/
def gA : Digraph := ⟨[0, 1, 2], [(0, 1, 2)]⟩

/-- Three parallel arcs `0 → 1` (arc ids 0, 1, 2). -/
def gPar : Digraph := ⟨[0, 1], [(0, 0, 1), (1, 0, 1), (2, 0, 1)]⟩

/-- Seven arcs out of node `0`, targets `1..7`: `refresh` builds the
complete binary tree rooted at arc 3. -/
def gSeven : Digraph :=
  ⟨[0, 1, 2, 3, 4, 5, 6, 7],
   [(0, 0, 1), (1, 0, 2), (2, 0, 3), (3, 0, 4), (4, 0, 5), (5, 0, 6), (6, 0, 7)]⟩

/-- Three arcs out of node `0` with distinct targets `1, 2, 3`. -/
def gThree : Digraph := ⟨[0, 1, 2, 3], [(0, 0, 1), (1, 0, 2), (2, 0, 3)]⟩

/-- A node order that is not a (strict) total order: every comparison
answers `true`. -/
def ltBad : Int → Int → Bool := fun _ _ => true

/-! ### Abstraction: the maps as algebraic binary trees

The relation maps of a node's search tree are read back into an
inductive binary tree; the correctness statements are phrased through
this abstraction. -/

/-- A binary tree of arc handles. -/
inductive Tr
  | leaf
  | node (l : Tr) (a : Int) (r : Tr)

/-- In-order list of the arcs of a tree. -/
def keys : Tr → List Int
  | .leaf => []
  | .node l a r => keys l ++ a :: keys r

/-- `enc s p h T`: the `_parent`/`_left`/`_right` maps of `s` store the
tree `T` at handle `h`, whose root has parent `p` (the `DynArcLookUp`
representation). -/
def enc (s : St) : Int → Int → Tr → Bool
  | _, h, .leaf => h == -1
  | p, h, .node l a r =>
    h == a && decide (0 ≤ a) && s.parent a == p &&
    enc s a (s.left a) l && enc s a (s.right a) r

/-- `encR s h T`: as `enc` but with the parent of the root
unconstrained. -/
def encR (s : St) : Int → Tr → Bool
  | h, .leaf => h == -1
  | h, .node l a r =>
    h == a && decide (0 ≤ a) &&
    enc s a (s.left a) l && enc s a (s.right a) r

/-- `encS s h T`: the `_left`/`_right` maps store `T` at `h` (the static
`ArcLookUp` representation, which has no parent map). -/
def encS (s : St) : Int → Tr → Bool
  | h, .leaf => h == -1
  | h, .node l a r =>
    h == a && decide (0 ≤ a) &&
    encS s (s.left a) l && encS s (s.right a) r

/-- A splay context: the path from a subtree position up to the root.
An entry `(side, w, sib)` says the position is the left (`side = true`)
or right child of arc `w`, whose other child subtree is `sib`. -/
def Ctx : Type := List (Bool × Int × Tr)

/-- Plug a subtree into a context, rebuilding the whole tree. -/
def plug : List (Bool × Int × Tr) → Tr → Tr
  | [], t => t
  | (side, w, sib) :: rest, t =>
    plug rest (if side then .node t w sib else .node sib w t)

/-- The parent handle a context assigns to the subtree in its hole. -/
def ctxPar : List (Bool × Int × Tr) → Int
  | [] => -1
  | (_, w, _) :: _ => w

/-- The arcs stored along a context: the path arcs and their sibling
subtrees. -/
def ctxKeys : List (Bool × Int × Tr) → List Int
  | [] => []
  | (_, w, sib) :: rest => w :: (keys sib ++ ctxKeys rest)

/-- `encCtx s ctx h`: the maps of `s` store the context `ctx` around a
hole currently occupied by handle `h`. -/
def encCtx (s : St) : List (Bool × Int × Tr) → Int → Bool
  | [], _ => true
  | (side, w, sib) :: rest, h =>
    decide (0 ≤ w) && s.parent w == ctxPar rest &&
    (if side then s.left w == h && enc s w (s.right w) sib
     else s.right w == h && enc s w (s.left w) sib) &&
    encCtx s rest w

/-- The root handle of a stored tree: `-1` for the empty tree. -/
def rootH : Tr → Int
  | .leaf => -1
  | .node _ a _ => a

/-- The slice `v[a..b]` of the vector, as used by `refreshRec`. -/
def slice (v : List Int) (a b : Nat) : List Int :=
  (v.drop a).take (b + 1 - a)

/-- The invariant of the dynamic index: every node's head stores a tree
holding exactly its out-arcs, in target-sorted in-order. -/
def InvD (g : Digraph) (s : St) : Prop :=
  ∀ n ∈ g.nodes, ∃ T : Tr,
    enc s (-1) (s.head n) T = true ∧
    (keys T).Perm (outArcs g n) ∧
    List.Sorted (leTgt g) (keys T)

/-- The post-`refresh` state of the static index: every node's head
stores a tree holding exactly its out-arcs, in target-sorted in-order. -/
def InvS (g : Digraph) (s : St) : Prop :=
  ∀ n ∈ g.nodes, ∃ T : Tr,
    encS s (s.head n) T = true ∧
    (keys T).Perm (outArcs g n) ∧
    List.Sorted (leTgt g) (keys T)

/-- The arcs of a context that precede the hole in the in-order reading
of the rebuilt tree. -/
def ctxPre : List (Bool × Int × Tr) → List Int
  | [] => []
  | (side, w, sib) :: rest =>
    if side then ctxPre rest else ctxPre rest ++ (keys sib ++ [w])

/-- The arcs of a context that follow the hole in the in-order reading
of the rebuilt tree. -/
def ctxPost : List (Bool × Int × Tr) → List Int
  | [] => []
  | (side, w, sib) :: rest =>
    if side then (w :: keys sib) ++ ctxPost rest else ctxPost rest

/-- The binary-search-tree property of the claim, by target identity, in
its amended weak form: every arc in a left subtree has target less than
or equal to its subtree root target, every arc in a right subtree has
target greater than or equal to it. -/
def bstTgt (g : Digraph) : Tr → Prop
  | .leaf => True
  | .node l a r =>
    (∀ k ∈ keys l, tgtD g k ≤ tgtD g a) ∧ (∀ k ∈ keys r, tgtD g a ≤ tgtD g k) ∧
    bstTgt g l ∧ bstTgt g r

end Lookup

/-! ## Theorems -/

namespace Lookup

theorem upd_same (f : Int → Int) (k v : Int) : upd f k v k = v := by
  simp [upd]

theorem upd_other (f : Int → Int) {k x : Int} (v : Int) (h : x ≠ k) :
    upd f k v x = f x := by
  simp [upd, h]

/-! ### Facts about `slice` -/

theorem slice_nil (v : List Int) {a b : Nat} (h : b < a) : slice v a b = [] := by
  unfold slice
  have h0 : b + 1 - a = 0 := by omega
  rw [h0, List.take_zero]

theorem slice_full (v : List Int) (hv : v ≠ []) : slice v 0 (v.length - 1) = v := by
  unfold slice
  have hl : 0 < v.length := List.length_pos.mpr hv
  have h0 : v.length - 1 + 1 - 0 = v.length := by omega
  rw [h0, List.drop_zero, List.take_length]

theorem slice_sublist (v : List Int) (a b : Nat) : (slice v a b).Sublist v :=
  ((v.drop a).take_sublist _).trans (v.drop_sublist a)

theorem slice_nodup {v : List Int} (hnd : v.Nodup) (a b : Nat) :
    (slice v a b).Nodup :=
  hnd.sublist (slice_sublist v a b)

theorem slice_mem {v : List Int} {a b : Nat} {x : Int} (h : x ∈ slice v a b) :
    x ∈ v :=
  (slice_sublist v a b).mem h

theorem slice_left (v : List Int) {a m : Nat} (h : a < m) :
    (v.drop a).take (m - a) = slice v a (m - 1) := by
  unfold slice
  congr 1
  omega

theorem slice_split (v : List Int) {a b m : Nat} (ham : a ≤ m) (hmb : m ≤ b)
    (hb : b < v.length) {me : Int} (hme : v.get? m = some me) :
    slice v a b = (v.drop a).take (m - a) ++ me :: slice v (m + 1) b := by
  unfold slice
  have h1 : b + 1 - a = (m - a) + (1 + (b - m)) := by omega
  rw [h1, List.take_add]
  congr 1
  rw [List.drop_drop]
  have h2 : a + (m - a) = m := by omega
  rw [h2]
  have hm : m < v.length := by omega
  have hd : v.drop m = me :: v.drop (m + 1) := by
    have := List.drop_eq_get_cons (l := v) hm
    rw [this]
    have : v.get ⟨m, hm⟩ = me := by
      have hg : v.get? m = some (v.get ⟨m, hm⟩) := List.get?_eq_get hm
      rw [hg] at hme
      exact (Option.some_inj.mp hme).symm ▸ rfl
    rw [this]
  rw [hd]
  have h3 : 1 + (b - m) = (b - m) + 1 := by omega
  rw [h3, List.take_succ_cons]
  have h4 : b + 1 - (m + 1) = b - m := by omega
  rw [h4]

/-! ### Frame lemmas for the encodings -/

theorem encS_frame {s s' : St} {T : Tr} :
    ∀ {hd : Int}, encS s hd T = true →
    (∀ k ∈ keys T, s'.left k = s.left k ∧ s'.right k = s.right k) →
    encS s' hd T = true := by
  induction T with
  | leaf => intro hd he _; exact he
  | node l a r ihl ihr =>
    intro hd he h
    have ha : a ∈ keys (Tr.node l a r) := by simp [keys]
    simp only [encS, Bool.and_eq_true] at he ⊢
    refine ⟨⟨⟨he.1.1.1, he.1.1.2⟩, ?_⟩, ?_⟩
    · rw [(h a ha).1]
      exact ihl he.1.2 (fun k hk => h k (by simp [keys, hk]))
    · rw [(h a ha).2]
      exact ihr he.2 (fun k hk => h k (by simp [keys, hk]))

/-! ### Pointwise characterization of the rotations -/

theorem setP_parent (k x : Int) (s : St) : (setP k x s).parent = upd s.parent k x := rfl

theorem setP_left (k x : Int) (s : St) : (setP k x s).left = s.left := rfl

theorem setP_right (k x : Int) (s : St) : (setP k x s).right = s.right := rfl

theorem setP_head (k x : Int) (s : St) : (setP k x s).head = s.head := rfl

theorem setP_next (k x : Int) (s : St) : (setP k x s).next = s.next := rfl

theorem setL_parent (k x : Int) (s : St) : (setL k x s).parent = s.parent := rfl

theorem setL_left (k x : Int) (s : St) : (setL k x s).left = upd s.left k x := rfl

theorem setL_right (k x : Int) (s : St) : (setL k x s).right = s.right := rfl

theorem setL_head (k x : Int) (s : St) : (setL k x s).head = s.head := rfl

theorem setL_next (k x : Int) (s : St) : (setL k x s).next = s.next := rfl

theorem setR_parent (k x : Int) (s : St) : (setR k x s).parent = s.parent := rfl

theorem setR_left (k x : Int) (s : St) : (setR k x s).left = s.left := rfl

theorem setR_right (k x : Int) (s : St) : (setR k x s).right = upd s.right k x := rfl

theorem setR_head (k x : Int) (s : St) : (setR k x s).head = s.head := rfl

theorem setR_next (k x : Int) (s : St) : (setR k x s).next = s.next := rfl

theorem zig_eq_steps (v : Int) (s : St) : zig v s = zigFix v (s.parent v) (zigStep1 v s) := rfl

theorem zag_eq_steps (v : Int) (s : St) : zag v s = zagFix v (s.parent v) (zagStep1 v s) := rfl

theorem zig_head (v : Int) (s : St) : (zig v s).head = s.head := by
  rw [zig_eq_steps]
  unfold zigFix zigFix2
  split_ifs <;> rfl

theorem zig_next (v : Int) (s : St) : (zig v s).next = s.next := by
  rw [zig_eq_steps]
  unfold zigFix zigFix2
  split_ifs <;> rfl

theorem zag_head (v : Int) (s : St) : (zag v s).head = s.head := by
  rw [zag_eq_steps]
  unfold zagFix zagFix2
  split_ifs <;> rfl

theorem zag_next (v : Int) (s : St) : (zag v s).next = s.next := by
  rw [zag_eq_steps]
  unfold zagFix zagFix2
  split_ifs <;> rfl

theorem zig_parent (s : St) {v w bL : Int} (hpv : s.parent v = w) (hbL : s.right v = bL)
    (hvw : v ≠ w) (hbLv : bL ≠ v) (hbLw : bL ≠ w) (huw : s.parent w ≠ w)
    (huv : s.parent w ≠ v) (k : Int) :
    (zig v s).parent k =
      (if bL ≠ -1 ∧ k = bL then w
       else if k = w then v
       else if k = v then s.parent w
       else s.parent k) := by
  rw [zig_eq_steps, hpv]
  have hs4p : (zigStep1 v s).parent = upd (upd s.parent v (s.parent w)) w v := by
    rw [← hpv]; rfl
  have hs4l : (zigStep1 v s).left = upd s.left w bL := by
    rw [← hpv, ← hbL]; rfl
  have hs4r : (zigStep1 v s).right = upd s.right v w := by
    rw [← hpv]; rfl
  have hu : (zigStep1 v s).parent v = s.parent w := by
    rw [hs4p, upd_other _ _ hvw, upd_same]
  unfold zigFix
  by_cases hc1 : s.parent w = -1
  · rw [hu, if_neg (not_not_intro hc1)]
    unfold zigFix2
    rw [hs4l, upd_same]
    by_cases hb : bL = -1
    · rw [if_neg (not_not_intro hb), hs4p]
      by_cases hkb : k = bL <;> by_cases hkw : k = w <;> by_cases hkv : k = v <;>
        simp_all [upd]
    · rw [if_pos hb, setP_parent, hs4p]
      by_cases hkb : k = bL <;> by_cases hkw : k = w <;> by_cases hkv : k = v <;>
        simp_all [upd]
  · rw [hu, if_pos hc1, hs4r, upd_other _ _ huv]
    by_cases hc2 : s.right (s.parent w) = w
    · rw [if_pos hc2]
      unfold zigFix2
      rw [setR_left, hs4l, upd_same]
      by_cases hb : bL = -1
      · rw [if_neg (not_not_intro hb), setR_parent, hs4p]
        by_cases hkb : k = bL <;> by_cases hkw : k = w <;> by_cases hkv : k = v <;>
          simp_all [upd]
      · rw [if_pos hb, setP_parent, setR_parent, hs4p]
        by_cases hkb : k = bL <;> by_cases hkw : k = w <;> by_cases hkv : k = v <;>
          simp_all [upd]
    · rw [if_neg hc2]
      unfold zigFix2
      rw [setL_left, hs4l, upd_other _ _ (Ne.symm huw), upd_same]
      by_cases hb : bL = -1
      · rw [if_neg (not_not_intro hb), setL_parent, hs4p]
        by_cases hkb : k = bL <;> by_cases hkw : k = w <;> by_cases hkv : k = v <;>
          simp_all [upd]
      · rw [if_pos hb, setP_parent, setL_parent, hs4p]
        by_cases hkb : k = bL <;> by_cases hkw : k = w <;> by_cases hkv : k = v <;>
          simp_all [upd]

theorem zig_left (s : St) {v w bL : Int} (hpv : s.parent v = w) (hbL : s.right v = bL)
    (hvw : v ≠ w) (hbLv : bL ≠ v) (hbLw : bL ≠ w) (huw : s.parent w ≠ w)
    (huv : s.parent w ≠ v) (k : Int) :
    (zig v s).left k =
      (if s.parent w ≠ -1 ∧ s.right (s.parent w) ≠ w ∧ k = s.parent w then v
       else if k = w then bL
       else s.left k) := by
  rw [zig_eq_steps, hpv]
  have hs4p : (zigStep1 v s).parent = upd (upd s.parent v (s.parent w)) w v := by
    rw [← hpv]; rfl
  have hs4l : (zigStep1 v s).left = upd s.left w bL := by
    rw [← hpv, ← hbL]; rfl
  have hs4r : (zigStep1 v s).right = upd s.right v w := by
    rw [← hpv]; rfl
  have hu : (zigStep1 v s).parent v = s.parent w := by
    rw [hs4p, upd_other _ _ hvw, upd_same]
  unfold zigFix
  by_cases hc1 : s.parent w = -1
  · rw [hu, if_neg (not_not_intro hc1)]
    unfold zigFix2
    rw [hs4l, upd_same]
    by_cases hb : bL = -1
    · rw [if_neg (not_not_intro hb), hs4l]
      by_cases hkw : k = w <;> simp [upd, hc1, hkw]
    · rw [if_pos hb, setP_left, hs4l]
      by_cases hkw : k = w <;> simp [upd, hc1, hkw]
  · rw [hu, if_pos hc1, hs4r, upd_other _ _ huv]
    by_cases hc2 : s.right (s.parent w) = w
    · rw [if_pos hc2]
      unfold zigFix2
      rw [setR_left, hs4l, upd_same]
      by_cases hb : bL = -1
      · rw [if_neg (not_not_intro hb), setR_left, hs4l]
        by_cases hkw : k = w <;> simp [upd, hc1, hc2, hkw]
      · rw [if_pos hb, setP_left, setR_left, hs4l]
        by_cases hkw : k = w <;> simp [upd, hc1, hc2, hkw]
    · rw [if_neg hc2]
      unfold zigFix2
      rw [setL_left, hs4l, upd_other _ _ (Ne.symm huw), upd_same]
      by_cases hb : bL = -1
      · rw [if_neg (not_not_intro hb), setL_left, hs4l]
        by_cases hku : k = s.parent w <;> by_cases hkw : k = w <;>
          simp [upd, hc1, hc2, hku, hkw, Ne.symm huw, huw]
      · rw [if_pos hb, setP_left, setL_left, hs4l]
        by_cases hku : k = s.parent w <;> by_cases hkw : k = w <;>
          simp [upd, hc1, hc2, hku, hkw, Ne.symm huw, huw]

theorem zig_right (s : St) {v w bL : Int} (hpv : s.parent v = w) (hbL : s.right v = bL)
    (hvw : v ≠ w) (hbLv : bL ≠ v) (hbLw : bL ≠ w) (huw : s.parent w ≠ w)
    (huv : s.parent w ≠ v) (k : Int) :
    (zig v s).right k =
      (if s.parent w ≠ -1 ∧ s.right (s.parent w) = w ∧ k = s.parent w then v
       else if k = v then w
       else s.right k) := by
  rw [zig_eq_steps, hpv]
  have hs4p : (zigStep1 v s).parent = upd (upd s.parent v (s.parent w)) w v := by
    rw [← hpv]; rfl
  have hs4l : (zigStep1 v s).left = upd s.left w bL := by
    rw [← hpv, ← hbL]; rfl
  have hs4r : (zigStep1 v s).right = upd s.right v w := by
    rw [← hpv]; rfl
  have hu : (zigStep1 v s).parent v = s.parent w := by
    rw [hs4p, upd_other _ _ hvw, upd_same]
  unfold zigFix
  by_cases hc1 : s.parent w = -1
  · rw [hu, if_neg (not_not_intro hc1)]
    unfold zigFix2
    rw [hs4l, upd_same]
    by_cases hb : bL = -1
    · rw [if_neg (not_not_intro hb), hs4r]
      by_cases hkv : k = v <;> simp [upd, hc1, hkv]
    · rw [if_pos hb, setP_right, hs4r]
      by_cases hkv : k = v <;> simp [upd, hc1, hkv]
  · rw [hu, if_pos hc1, hs4r, upd_other _ _ huv]
    by_cases hc2 : s.right (s.parent w) = w
    · rw [if_pos hc2]
      unfold zigFix2
      rw [setR_left, hs4l, upd_same]
      by_cases hb : bL = -1
      · rw [if_neg (not_not_intro hb), setR_right, hs4r]
        by_cases hku : k = s.parent w <;> by_cases hkv : k = v <;>
          simp [upd, hc1, hc2, hku, hkv, Ne.symm huv, huv]
      · rw [if_pos hb, setP_right, setR_right, hs4r]
        by_cases hku : k = s.parent w <;> by_cases hkv : k = v <;>
          simp [upd, hc1, hc2, hku, hkv, Ne.symm huv, huv]
    · rw [if_neg hc2]
      unfold zigFix2
      rw [setL_left, hs4l, upd_other _ _ (Ne.symm huw), upd_same]
      by_cases hb : bL = -1
      · rw [if_neg (not_not_intro hb), setL_right, hs4r]
        by_cases hku : k = s.parent w <;> by_cases hkv : k = v <;>
          simp [upd, hc1, hc2, hku, hkv]
      · rw [if_pos hb, setP_right, setL_right, hs4r]
        by_cases hku : k = s.parent w <;> by_cases hkv : k = v <;>
          simp [upd, hc1, hc2, hku, hkv]

theorem zag_parent (s : St) {v w bR : Int} (hpv : s.parent v = w) (hbR : s.left v = bR)
    (hvw : v ≠ w) (hbRv : bR ≠ v) (hbRw : bR ≠ w) (huw : s.parent w ≠ w)
    (huv : s.parent w ≠ v) (k : Int) :
    (zag v s).parent k =
      (if bR ≠ -1 ∧ k = bR then w
       else if k = w then v
       else if k = v then s.parent w
       else s.parent k) := by
  rw [zag_eq_steps, hpv]
  have hs4p : (zagStep1 v s).parent = upd (upd s.parent v (s.parent w)) w v := by
    rw [← hpv]; rfl
  have hs4r : (zagStep1 v s).right = upd s.right w bR := by
    rw [← hpv, ← hbR]; rfl
  have hs4l : (zagStep1 v s).left = upd s.left v w := by
    rw [← hpv]; rfl
  have hu : (zagStep1 v s).parent v = s.parent w := by
    rw [hs4p, upd_other _ _ hvw, upd_same]
  unfold zagFix
  by_cases hc1 : s.parent w = -1
  · rw [hu, if_neg (not_not_intro hc1)]
    unfold zagFix2
    rw [hs4r, upd_same]
    by_cases hb : bR = -1
    · rw [if_neg (not_not_intro hb), hs4p]
      by_cases hkb : k = bR <;> by_cases hkw : k = w <;> by_cases hkv : k = v <;>
        simp_all [upd]
    · rw [if_pos hb, setP_parent, hs4p]
      by_cases hkb : k = bR <;> by_cases hkw : k = w <;> by_cases hkv : k = v <;>
        simp_all [upd]
  · rw [hu, if_pos hc1, hs4l, upd_other _ _ huv]
    by_cases hc2 : s.left (s.parent w) = w
    · rw [if_pos hc2]
      unfold zagFix2
      rw [setL_right, hs4r, upd_same]
      by_cases hb : bR = -1
      · rw [if_neg (not_not_intro hb), setL_parent, hs4p]
        by_cases hkb : k = bR <;> by_cases hkw : k = w <;> by_cases hkv : k = v <;>
          simp_all [upd]
      · rw [if_pos hb, setP_parent, setL_parent, hs4p]
        by_cases hkb : k = bR <;> by_cases hkw : k = w <;> by_cases hkv : k = v <;>
          simp_all [upd]
    · rw [if_neg hc2]
      unfold zagFix2
      rw [setR_right, hs4r, upd_other _ _ (Ne.symm huw), upd_same]
      by_cases hb : bR = -1
      · rw [if_neg (not_not_intro hb), setR_parent, hs4p]
        by_cases hkb : k = bR <;> by_cases hkw : k = w <;> by_cases hkv : k = v <;>
          simp_all [upd]
      · rw [if_pos hb, setP_parent, setR_parent, hs4p]
        by_cases hkb : k = bR <;> by_cases hkw : k = w <;> by_cases hkv : k = v <;>
          simp_all [upd]

theorem zag_right (s : St) {v w bR : Int} (hpv : s.parent v = w) (hbR : s.left v = bR)
    (hvw : v ≠ w) (hbRv : bR ≠ v) (hbRw : bR ≠ w) (huw : s.parent w ≠ w)
    (huv : s.parent w ≠ v) (k : Int) :
    (zag v s).right k =
      (if s.parent w ≠ -1 ∧ s.left (s.parent w) ≠ w ∧ k = s.parent w then v
       else if k = w then bR
       else s.right k) := by
  rw [zag_eq_steps, hpv]
  have hs4p : (zagStep1 v s).parent = upd (upd s.parent v (s.parent w)) w v := by
    rw [← hpv]; rfl
  have hs4r : (zagStep1 v s).right = upd s.right w bR := by
    rw [← hpv, ← hbR]; rfl
  have hs4l : (zagStep1 v s).left = upd s.left v w := by
    rw [← hpv]; rfl
  have hu : (zagStep1 v s).parent v = s.parent w := by
    rw [hs4p, upd_other _ _ hvw, upd_same]
  unfold zagFix
  by_cases hc1 : s.parent w = -1
  · rw [hu, if_neg (not_not_intro hc1)]
    unfold zagFix2
    rw [hs4r, upd_same]
    by_cases hb : bR = -1
    · rw [if_neg (not_not_intro hb), hs4r]
      by_cases hkw : k = w <;> simp [upd, hc1, hkw]
    · rw [if_pos hb, setP_right, hs4r]
      by_cases hkw : k = w <;> simp [upd, hc1, hkw]
  · rw [hu, if_pos hc1, hs4l, upd_other _ _ huv]
    by_cases hc2 : s.left (s.parent w) = w
    · rw [if_pos hc2]
      unfold zagFix2
      rw [setL_right, hs4r, upd_same]
      by_cases hb : bR = -1
      · rw [if_neg (not_not_intro hb), setL_right, hs4r]
        by_cases hkw : k = w <;> simp [upd, hc1, hc2, hkw]
      · rw [if_pos hb, setP_right, setL_right, hs4r]
        by_cases hkw : k = w <;> simp [upd, hc1, hc2, hkw]
    · rw [if_neg hc2]
      unfold zagFix2
      rw [setR_right, hs4r, upd_other _ _ (Ne.symm huw), upd_same]
      by_cases hb : bR = -1
      · rw [if_neg (not_not_intro hb), setR_right, hs4r]
        by_cases hku : k = s.parent w <;> by_cases hkw : k = w <;>
          simp [upd, hc1, hc2, hku, hkw, Ne.symm huw, huw]
      · rw [if_pos hb, setP_right, setR_right, hs4r]
        by_cases hku : k = s.parent w <;> by_cases hkw : k = w <;>
          simp [upd, hc1, hc2, hku, hkw, Ne.symm huw, huw]

theorem zag_left (s : St) {v w bR : Int} (hpv : s.parent v = w) (hbR : s.left v = bR)
    (hvw : v ≠ w) (hbRv : bR ≠ v) (hbRw : bR ≠ w) (huw : s.parent w ≠ w)
    (huv : s.parent w ≠ v) (k : Int) :
    (zag v s).left k =
      (if s.parent w ≠ -1 ∧ s.left (s.parent w) = w ∧ k = s.parent w then v
       else if k = v then w
       else s.left k) := by
  rw [zag_eq_steps, hpv]
  have hs4p : (zagStep1 v s).parent = upd (upd s.parent v (s.parent w)) w v := by
    rw [← hpv]; rfl
  have hs4r : (zagStep1 v s).right = upd s.right w bR := by
    rw [← hpv, ← hbR]; rfl
  have hs4l : (zagStep1 v s).left = upd s.left v w := by
    rw [← hpv]; rfl
  have hu : (zagStep1 v s).parent v = s.parent w := by
    rw [hs4p, upd_other _ _ hvw, upd_same]
  unfold zagFix
  by_cases hc1 : s.parent w = -1
  · rw [hu, if_neg (not_not_intro hc1)]
    unfold zagFix2
    rw [hs4r, upd_same]
    by_cases hb : bR = -1
    · rw [if_neg (not_not_intro hb), hs4l]
      by_cases hkv : k = v <;> simp [upd, hc1, hkv]
    · rw [if_pos hb, setP_left, hs4l]
      by_cases hkv : k = v <;> simp [upd, hc1, hkv]
  · rw [hu, if_pos hc1, hs4l, upd_other _ _ huv]
    by_cases hc2 : s.left (s.parent w) = w
    · rw [if_pos hc2]
      unfold zagFix2
      rw [setL_right, hs4r, upd_same]
      by_cases hb : bR = -1
      · rw [if_neg (not_not_intro hb), setL_left, hs4l]
        by_cases hku : k = s.parent w <;> by_cases hkv : k = v <;>
          simp [upd, hc1, hc2, hku, hkv, Ne.symm huv, huv]
      · rw [if_pos hb, setP_left, setL_left, hs4l]
        by_cases hku : k = s.parent w <;> by_cases hkv : k = v <;>
          simp [upd, hc1, hc2, hku, hkv, Ne.symm huv, huv]
    · rw [if_neg hc2]
      unfold zagFix2
      rw [setR_right, hs4r, upd_other _ _ (Ne.symm huw), upd_same]
      by_cases hb : bR = -1
      · rw [if_neg (not_not_intro hb), setR_left, hs4l]
        by_cases hku : k = s.parent w <;> by_cases hkv : k = v <;>
          simp [upd, hc1, hc2, hku, hkv]
      · rw [if_pos hb, setP_left, setR_left, hs4l]
        by_cases hku : k = s.parent w <;> by_cases hkv : k = v <;>
          simp [upd, hc1, hc2, hku, hkv]

/-! ### Frame and bridge lemmas for the dynamic encoding -/

theorem enc_keys_nonneg {s : St} : ∀ {T : Tr} {p h : Int}, enc s p h T = true →
    ∀ k ∈ keys T, 0 ≤ k := by
  intro T
  induction T with
  | leaf => intro p h _ k hk; simp [keys] at hk
  | node l a r ihl ihr =>
    intro p h he k hk
    simp only [enc, Bool.and_eq_true, beq_iff_eq, decide_eq_true_eq] at he
    rcases (by simpa [keys] using hk : k ∈ keys l ∨ k = a ∨ k ∈ keys r) with h1 | h2 | h3
    · exact ihl he.1.2 k h1
    · exact h2 ▸ he.1.1.1.2
    · exact ihr he.2 k h3

theorem enc_frame {s s' : St} {T : Tr} :
    ∀ {p h : Int}, enc s p h T = true →
    (∀ k ∈ keys T, s'.parent k = s.parent k ∧ s'.left k = s.left k ∧ s'.right k = s.right k) →
    enc s' p h T = true := by
  induction T with
  | leaf => intro p h he _; exact he
  | node l a r ihl ihr =>
    intro p h he hfr
    have ha : a ∈ keys (Tr.node l a r) := by simp [keys]
    simp only [enc, Bool.and_eq_true] at he ⊢
    refine ⟨⟨⟨⟨he.1.1.1.1, he.1.1.1.2⟩, ?_⟩, ?_⟩, ?_⟩
    · rw [show s'.parent a = s.parent a from (hfr a ha).1]
      exact he.1.1.2
    · rw [(hfr a ha).2.1]
      exact ihl he.1.2 (fun k hk => hfr k (by simp [keys, hk]))
    · rw [(hfr a ha).2.2]
      exact ihr he.2 (fun k hk => hfr k (by simp [keys, hk]))

theorem enc_to_encR {s : St} : ∀ {T : Tr} {p h : Int}, enc s p h T = true →
    encR s h T = true := by
  intro T
  cases T with
  | leaf => intro p h he; exact he
  | node l a r =>
    intro p h he
    simp only [enc, Bool.and_eq_true] at he
    simp only [encR, Bool.and_eq_true]
    exact ⟨⟨he.1.1.1, he.1.2⟩, he.2⟩

theorem encR_to_enc {s : St} : ∀ {T : Tr} {p h : Int}, encR s h T = true →
    s.parent h = p → enc s p h T = true := by
  intro T
  cases T with
  | leaf => intro p h he _; exact he
  | node l a r =>
    intro p h he hp
    simp only [encR, Bool.and_eq_true] at he
    simp only [enc, Bool.and_eq_true]
    have hha : h = a := by simpa using he.1.1.1
    refine ⟨⟨⟨he.1.1, by simp [← hha, hp]⟩, he.1.2⟩, he.2⟩

theorem encR_frame {s s' : St} {T : Tr} {h : Int} (he : encR s h T = true)
    (hlr : ∀ k ∈ keys T, s'.left k = s.left k ∧ s'.right k = s.right k)
    (hpp : ∀ k ∈ keys T, k ≠ h → s'.parent k = s.parent k)
    (hnd : (keys T).Nodup) :
    encR s' h T = true := by
  cases T with
  | leaf => exact he
  | node l a r =>
    simp only [encR, Bool.and_eq_true] at he ⊢
    have hha : h = a := by simpa using he.1.1.1
    have ha : a ∈ keys (Tr.node l a r) := by simp [keys]
    have hal : a ∉ keys l := by
      intro hmem
      have := List.nodup_append.mp (by simpa [keys] using hnd)
      exact this.2.2 hmem (List.mem_cons_self a _)
    have har : a ∉ keys r := by
      have := List.nodup_append.mp (by simpa [keys] using hnd)
      have h2 := this.2.1
      rw [List.nodup_cons] at h2
      exact h2.1
    refine ⟨⟨he.1.1, ?_⟩, ?_⟩
    · rw [(hlr a ha).1]
      refine enc_frame he.1.2 (fun k hk => ⟨?_, (hlr k (by simp [keys, hk])).1,
        (hlr k (by simp [keys, hk])).2⟩)
      exact hpp k (by simp [keys, hk]) (fun hke => hal (by rw [← hha, ← hke]; exact hk))
    · rw [(hlr a ha).2]
      refine enc_frame he.2 (fun k hk => ⟨?_, (hlr k (by simp [keys, hk])).1,
        (hlr k (by simp [keys, hk])).2⟩)
      exact hpp k (by simp [keys, hk]) (fun hke => har (by rw [← hha, ← hke]; exact hk))

theorem encCtx_frame {s s' : St} :
    ∀ {ctx : List (Bool × Int × Tr)} {h : Int}, encCtx s ctx h = true →
    (∀ k ∈ ctxKeys ctx, s'.parent k = s.parent k ∧ s'.left k = s.left k ∧
      s'.right k = s.right k) →
    encCtx s' ctx h = true := by
  intro ctx
  induction ctx with
  | nil => intro h _ _; rfl
  | cons e rest ih =>
    obtain ⟨side, w, sib⟩ := e
    intro h he hfr
    have hw : w ∈ ctxKeys ((side, w, sib) :: rest) := by simp [ctxKeys]
    simp only [encCtx, Bool.and_eq_true] at he ⊢
    refine ⟨⟨⟨he.1.1.1, ?_⟩, ?_⟩, ?_⟩
    · rw [show s'.parent w = s.parent w from (hfr w hw).1]
      exact he.1.1.2
    · rcases side with _ | _
      · simp only [Bool.false_eq_true, if_false, Bool.and_eq_true] at he ⊢
        refine ⟨?_, ?_⟩
        · rw [(hfr w hw).2.2]
          exact he.1.2.1
        · rw [(hfr w hw).2.1]
          exact enc_frame he.1.2.2 (fun k hk => hfr k (by simp [ctxKeys, hk]))
      · simp only [if_true, Bool.and_eq_true] at he ⊢
        refine ⟨?_, ?_⟩
        · rw [(hfr w hw).2.1]
          exact he.1.2.1
        · rw [(hfr w hw).2.2]
          exact enc_frame he.1.2.2 (fun k hk => hfr k (by simp [ctxKeys, hk]))
    · exact ih he.2 (fun k hk => hfr k (by simp [ctxKeys, hk]))

theorem keys_plug : ∀ (ctx : List (Bool × Int × Tr)) (T : Tr),
    (keys (plug ctx T)).Perm (keys T ++ ctxKeys ctx) := by
  intro ctx
  induction ctx with
  | nil => intro T; simp [plug, ctxKeys]
  | cons e rest ih =>
    obtain ⟨side, w, sib⟩ := e
    intro T
    rcases side with _ | _
    · simp only [plug, Bool.false_eq_true, if_false]
      refine (ih _).trans ?_
      simp only [keys, ctxKeys]
      rw [List.perm_iff_count]
      intro x
      by_cases hxw : w = x <;>
        simp [List.count_append, List.count_cons, hxw] <;> omega
    · simp only [plug, if_true]
      refine (ih _).trans ?_
      simp only [keys, ctxKeys]
      rw [List.perm_iff_count]
      intro x
      by_cases hxw : w = x <;>
        simp [List.count_append, List.count_cons, hxw] <;> omega

theorem enc_rootH {s : St} {T : Tr} {p h : Int} (he : enc s p h T = true) : h = rootH T := by
  cases T with
  | leaf => simpa [enc, rootH] using he
  | node l a r =>
    simp only [enc, Bool.and_eq_true, beq_iff_eq] at he
    exact he.1.1.1.1.trans rfl

theorem rootH_cases (T : Tr) : rootH T = -1 ∨ rootH T ∈ keys T := by
  cases T with
  | leaf => exact Or.inl rfl
  | node l a r => right; simp [rootH, keys]

theorem ctxPar_cases (ctx : List (Bool × Int × Tr)) :
    ctxPar ctx = -1 ∨ ctxPar ctx ∈ ctxKeys ctx := by
  cases ctx with
  | nil => exact Or.inl rfl
  | cons e rest =>
    obtain ⟨s2, u2, S2⟩ := e
    right
    simp [ctxPar, ctxKeys]

theorem refreshRecS_ok (v : List Int) (hnd : v.Nodup) (hpos : ∀ x ∈ v, 0 ≤ x) :
    ∀ (f a b : Nat) (s : St), a ≤ b → b < v.length → b + 1 - a ≤ f →
    ∃ (s' : St) (me : Int) (T : Tr),
      refreshRecS v f a b s = some (s', me) ∧
      v.get? ((a + b) / 2) = some me ∧
      encS s' me T = true ∧
      keys T = slice v a b ∧
      s'.head = s.head ∧ s'.parent = s.parent ∧ s'.next = s.next ∧
      (∀ k, k ∉ slice v a b → s'.left k = s.left k ∧ s'.right k = s.right k) := by
  intro f
  induction f with
  | zero => intro a b s hab hb hf; omega
  | succ f ih =>
    intro a b s hab hb hf
    have hm1 : a ≤ (a + b) / 2 := by omega
    have hm2 : (a + b) / 2 ≤ b := by omega
    have hmlen : (a + b) / 2 < v.length := by omega
    obtain ⟨me, hme⟩ : ∃ me, v.get? ((a + b) / 2) = some me := by
      rw [List.get?_eq_get hmlen]
      exact ⟨_, rfl⟩
    have hme0 : 0 ≤ me := hpos me (List.get?_mem hme)
    have hsplit := slice_split v hm1 hm2 hb hme
    have hndab : (slice v a b).Nodup := slice_nodup hnd a b
    rw [hsplit, List.nodup_append] at hndab
    obtain ⟨hndL, hndR0, hdisj⟩ := hndab
    rw [List.nodup_cons] at hndR0
    obtain ⟨hmeR, hndR⟩ := hndR0
    have hmeL : me ∉ (v.drop a).take ((a + b) / 2 - a) :=
      fun h => hdisj h (List.mem_cons_self _ _)
    have hLR : ∀ k ∈ (v.drop a).take ((a + b) / 2 - a), k ∉ slice v ((a + b) / 2 + 1) b :=
      fun k hk hk2 => hdisj hk (List.mem_cons_of_mem _ hk2)
    by_cases ham : a < (a + b) / 2
    · have hkL := slice_left v ham
      obtain ⟨s1, me1, T1, heq1, _, henc1, hkeys1, hh1, hp1, hn1, hfr1⟩ :=
        ih a ((a + b) / 2 - 1) s (by omega) (by omega) (by omega)
      have hkeys1' : keys T1 = (v.drop a).take ((a + b) / 2 - a) := by rw [hkeys1, hkL]
      have hT1me : me ∉ keys T1 := by rw [hkeys1']; exact hmeL
      have hT1R : ∀ k ∈ keys T1, k ∉ slice v ((a + b) / 2 + 1) b := by
        rw [hkeys1']; exact hLR
      have henc1b : encS { s1 with left := upd s1.left me me1 } me1 T1 = true := by
        refine encS_frame henc1 (fun k hk => ⟨?_, rfl⟩)
        exact upd_other _ _ (fun he => hT1me (show me ∈ keys T1 from he ▸ hk))
      by_cases hmb : (a + b) / 2 < b
      · obtain ⟨s3, me2, T2, heq2, _, henc2, hkeys2, hh2, hp2, hn2, hfr2⟩ :=
          ih ((a + b) / 2 + 1) b { s1 with left := upd s1.left me me1 }
            (by omega) (by omega) (by omega)
        refine ⟨{ s3 with right := upd s3.right me me2 }, me, .node T1 me T2, ?_, hme, ?_, ?_,
          hh2.trans hh1, hp2.trans hp1, hn2.trans hn1, ?_⟩
        · simp only [refreshRecS, hme, Option.bind_eq_bind, Option.some_bind, Option.pure_def,
            if_pos ham, if_pos hmb, heq1, heq2]
        · have hleft : s3.left me = me1 := by
            rw [(hfr2 me hmeR).1]
            exact upd_same _ _ _
          have henc1c : encS s3 me1 T1 = true := by
            refine encS_frame henc1b (fun k hk => ⟨?_, ?_⟩)
            · exact (hfr2 k (hT1R k hk)).1
            · exact (hfr2 k (hT1R k hk)).2
          have henc1d : encS { s3 with right := upd s3.right me me2 } me1 T1 = true := by
            refine encS_frame henc1c (fun k hk => ⟨rfl, ?_⟩)
            exact upd_other _ _ (fun he => hT1me (show me ∈ keys T1 from he ▸ hk))
          have hT2me : me ∉ keys T2 := by rw [hkeys2]; exact hmeR
          have henc2b : encS { s3 with right := upd s3.right me me2 } me2 T2 = true := by
            refine encS_frame henc2 (fun k hk => ⟨rfl, ?_⟩)
            exact upd_other _ _ (fun he => hT2me (show me ∈ keys T2 from he ▸ hk))
          simp only [encS, Bool.and_eq_true, beq_iff_eq, decide_eq_true_eq]
          refine ⟨⟨⟨by simp, hme0⟩, ?_⟩, ?_⟩
          · show encS _ (s3.left me) T1 = true
            rw [hleft]
            exact henc1d
          · show encS _ (upd s3.right me me2 me) T2 = true
            rw [upd_same]
            exact henc2b
        · simp only [keys]
          rw [hkeys1', hkeys2, hsplit]
        · intro k hk
          rw [hsplit] at hk
          simp only [List.mem_append, List.mem_cons, not_or] at hk
          obtain ⟨hk1, hk2, hk3⟩ := hk
          have e1 := hfr1 k (by rw [← hkL]; exact hk1)
          have e2 := hfr2 k hk3
          constructor
          · show s3.left k = s.left k
            rw [e2.1]
            show upd s1.left me me1 k = s.left k
            rw [upd_other _ _ hk2, e1.1]
          · show upd s3.right me me2 k = s.right k
            rw [upd_other _ _ hk2, e2.2]
            show s1.right k = s.right k
            exact e1.2
      · have hm2b : (a + b) / 2 = b := by omega
        have hRnil : slice v ((a + b) / 2 + 1) b = [] := slice_nil v (by omega)
        refine ⟨{ { s1 with left := upd s1.left me me1 } with
            right := upd { s1 with left := upd s1.left me me1 }.right me (-1) }, me,
            .node T1 me .leaf, ?_, hme, ?_, ?_, hh1, hp1, hn1, ?_⟩
        · simp only [refreshRecS, hme, Option.bind_eq_bind, Option.some_bind, Option.pure_def,
            if_pos ham, if_neg hmb, heq1]
        · have henc1d : encS { { s1 with left := upd s1.left me me1 } with
              right := upd s1.right me (-1) } me1 T1 = true := by
            refine encS_frame henc1b (fun k hk => ⟨rfl, ?_⟩)
            exact upd_other _ _ (fun he => hT1me (show me ∈ keys T1 from he ▸ hk))
          simp only [encS, Bool.and_eq_true, beq_iff_eq, decide_eq_true_eq]
          refine ⟨⟨⟨by simp, hme0⟩, ?_⟩, ?_⟩
          · show encS _ (upd s1.left me me1 me) T1 = true
            rw [upd_same]
            exact henc1d
          · show upd s1.right me (-1) me = -1
            exact upd_same _ _ _
        · simp only [keys]
          rw [hkeys1', hsplit, hRnil]
        · intro k hk
          rw [hsplit] at hk
          simp only [List.mem_append, List.mem_cons, not_or] at hk
          obtain ⟨hk1, hk2, _⟩ := hk
          have e1 := hfr1 k (by rw [← hkL]; exact hk1)
          constructor
          · show upd s1.left me me1 k = s.left k
            rw [upd_other _ _ hk2, e1.1]
          · show upd s1.right me (-1) k = s.right k
            rw [upd_other _ _ hk2, e1.2]
    · have hma : (a + b) / 2 = a := by omega
      have hLnil : (v.drop a).take ((a + b) / 2 - a) = [] := by
        rw [show (a + b) / 2 - a = 0 from by omega]
        exact List.take_zero _
      by_cases hmb : (a + b) / 2 < b
      · obtain ⟨s3, me2, T2, heq2, _, henc2, hkeys2, hh2, hp2, hn2, hfr2⟩ :=
          ih ((a + b) / 2 + 1) b { s with left := upd s.left me (-1) }
            (by omega) (by omega) (by omega)
        refine ⟨{ s3 with right := upd s3.right me me2 }, me, .node .leaf me T2, ?_, hme, ?_, ?_,
          hh2, hp2, hn2, ?_⟩
        · simp only [refreshRecS, hme, Option.bind_eq_bind, Option.some_bind, Option.pure_def,
            if_neg ham, if_pos hmb, heq2]
        · have hT2me : me ∉ keys T2 := by rw [hkeys2]; exact hmeR
          have henc2b : encS { s3 with right := upd s3.right me me2 } me2 T2 = true := by
            refine encS_frame henc2 (fun k hk => ⟨rfl, ?_⟩)
            exact upd_other _ _ (fun he => hT2me (show me ∈ keys T2 from he ▸ hk))
          simp only [encS, Bool.and_eq_true, beq_iff_eq, decide_eq_true_eq]
          refine ⟨⟨⟨by simp, hme0⟩, ?_⟩, ?_⟩
          · show s3.left me = -1
            rw [(hfr2 me hmeR).1]
            show upd s.left me (-1) me = -1
            exact upd_same _ _ _
          · show encS _ (upd s3.right me me2 me) T2 = true
            rw [upd_same]
            exact henc2b
        · simp only [keys]
          rw [hkeys2, hsplit, hLnil]
        · intro k hk
          rw [hsplit] at hk
          simp only [List.mem_append, List.mem_cons, not_or] at hk
          obtain ⟨_, hk2, hk3⟩ := hk
          have e2 := hfr2 k hk3
          constructor
          · show s3.left k = s.left k
            rw [e2.1]
            show upd s.left me (-1) k = s.left k
            rw [upd_other _ _ hk2]
          · show upd s3.right me me2 k = s.right k
            rw [upd_other _ _ hk2, e2.2]
      · have hRnil : slice v ((a + b) / 2 + 1) b = [] := slice_nil v (by omega)
        refine ⟨{ { s with left := upd s.left me (-1) } with
            right := upd { s with left := upd s.left me (-1) }.right me (-1) }, me,
            .node .leaf me .leaf, ?_, hme, ?_, ?_, rfl, rfl, rfl, ?_⟩
        · simp only [refreshRecS, hme, Option.bind_eq_bind, Option.some_bind, Option.pure_def,
            if_neg ham, if_neg hmb]
        · simp only [encS, Bool.and_eq_true, beq_iff_eq, decide_eq_true_eq]
          refine ⟨⟨⟨by simp, hme0⟩, ?_⟩, ?_⟩
          · show upd s.left me (-1) me = -1
            exact upd_same _ _ _
          · show upd s.right me (-1) me = -1
            exact upd_same _ _ _
        · simp only [keys]
          rw [hsplit, hLnil, hRnil]
        · intro k hk
          rw [hsplit] at hk
          simp only [List.mem_append, List.mem_cons, not_or] at hk
          obtain ⟨_, hk2, _⟩ := hk
          constructor
          · show upd s.left me (-1) k = s.left k
            rw [upd_other _ _ hk2]
          · show upd s.right me (-1) k = s.right k
            rw [upd_other _ _ hk2]

/-! ### Graph-level facts -/

theorem mem_outArcs {g : Digraph} {a n : Int} :
    a ∈ outArcs g n ↔ ∃ t, (a, n, t) ∈ g.arcs := by
  simp only [outArcs, List.mem_map, List.mem_filter, decide_eq_true_eq]
  constructor
  · rintro ⟨⟨a1, s1, t1⟩, ⟨hm, hs⟩, ha⟩
    subst ha
    subst hs
    exact ⟨t1, hm⟩
  · rintro ⟨t, hm⟩
    exact ⟨(a, n, t), ⟨hm, rfl⟩, rfl⟩

theorem arc_facts {g : Digraph} (hg : WFg g) {x : Int × Int × Int} (hx : x ∈ g.arcs) :
    srcOf g x.1 = some x.2.1 ∧ tgtOf g x.1 = some x.2.2 := by
  obtain ⟨y, hy, hfind⟩ : ∃ y, g.arcs.find? (fun z => z.1 = x.1) = some y ∧ y ∈ g.arcs := by
    have : ∃ y, g.arcs.find? (fun z => z.1 = x.1) = some y := by
      rcases hf : g.arcs.find? (fun z => z.1 = x.1) with _ | y
      · exact absurd (List.find?_eq_none.mp hf x hx (by simp)) (by simp)
      · exact ⟨y, hf⟩
    obtain ⟨y, hy⟩ := this
    exact ⟨y, hy, List.mem_of_find?_eq_some hy⟩
  have hyx : y.1 = x.1 := by
    have := List.find?_some hy
    simpa using this
  have : y = x := List.inj_on_of_nodup_map hg.1 hfind hx hyx
  subst this
  simp [srcOf, tgtOf, hy]

theorem outArcs_src {g : Digraph} (hg : WFg g) {a n : Int} (h : a ∈ outArcs g n) :
    srcOf g a = some n := by
  obtain ⟨t, hm⟩ := mem_outArcs.mp h
  exact (arc_facts hg hm).1

theorem outArcs_tgt {g : Digraph} (hg : WFg g) {a n : Int} (h : a ∈ outArcs g n) :
    ∃ t, tgtOf g a = some t := by
  obtain ⟨t, hm⟩ := mem_outArcs.mp h
  exact ⟨t, (arc_facts hg hm).2⟩

theorem outArcs_nodup {g : Digraph} (hg : WFg g) (n : Int) : (outArcs g n).Nodup := by
  have hsub : (outArcs g n).Sublist (g.arcs.map (fun x => x.1)) :=
    (g.arcs.filter_sublist).map _
  exact hg.1.sublist hsub

theorem outArcs_nonneg {g : Digraph} (hg : WFg g) {a n : Int} (h : a ∈ outArcs g n) :
    0 ≤ a := by
  obtain ⟨t, hm⟩ := mem_outArcs.mp h
  exact (hg.2.1 _ hm).1

theorem outArcs_disjoint {g : Digraph} (hg : WFg g) {n n' a : Int} (hne : n ≠ n')
    (h : a ∈ outArcs g n) (h' : a ∈ outArcs g n') : False := by
  obtain ⟨t, hm⟩ := mem_outArcs.mp h
  obtain ⟨t', hm'⟩ := mem_outArcs.mp h'
  have := List.inj_on_of_nodup_map hg.1 hm hm' rfl
  exact hne (congrArg (fun z => z.2.1) this)

theorem sortArcs_perm (g : Digraph) (l : List Int) : (sortArcs g l).Perm l :=
  List.perm_insertionSort _ l

theorem sortArcs_sorted (g : Digraph) (l : List Int) :
    List.Sorted (leTgt g) (sortArcs g l) :=
  List.sorted_insertionSort _ l

/-- Correctness of `ArcLookUp::refresh(Node n)`. -/
theorem refreshNodeS_ok (g : Digraph) (hg : WFg g) (n : Int) (s : St) :
    ∃ s', refreshNodeS g n s = some s' ∧
      (∃ T, encS s' (s'.head n) T = true ∧ (keys T).Perm (outArcs g n) ∧
        List.Sorted (leTgt g) (keys T)) ∧
      (∀ k, k ≠ n → s'.head k = s.head k) ∧
      s'.parent = s.parent ∧ s'.next = s.next ∧
      (∀ k, k ∉ outArcs g n → s'.left k = s.left k ∧ s'.right k = s.right k) := by
  by_cases hv : (sortArcs g (outArcs g n)).isEmpty
  · refine ⟨{ s with head := upd s.head n (-1) }, ?_, ?_, ?_, rfl, rfl, ?_⟩
    · simp only [refreshNodeS, hv, if_pos]
    · refine ⟨.leaf, ?_, ?_, show List.Sorted (leTgt g) [] from List.sorted_nil⟩
      · show (upd s.head n (-1) n == -1) = true
        rw [upd_same]
        rfl
      · show List.Perm [] (outArcs g n)
        have : sortArcs g (outArcs g n) = [] := List.isEmpty_iff.mp hv
        have hp := sortArcs_perm g (outArcs g n)
        rw [this] at hp
        exact hp
    · intro k hk
      exact upd_other _ _ hk
    · intro k _
      exact ⟨rfl, rfl⟩
  · have hvne : sortArcs g (outArcs g n) ≠ [] := fun h => hv (by simp [h, List.isEmpty])
    have hlen : 0 < (sortArcs g (outArcs g n)).length := List.length_pos.mpr hvne
    have hnd : (sortArcs g (outArcs g n)).Nodup :=
      ((sortArcs_perm g (outArcs g n)).nodup_iff).mpr (outArcs_nodup hg n)
    have hpos : ∀ x ∈ sortArcs g (outArcs g n), 0 ≤ x := fun x hx =>
      outArcs_nonneg hg ((sortArcs_perm g (outArcs g n)).mem_iff.mp hx)
    obtain ⟨s1, me, T, heq, _, henc, hkeys, hh, hp, hn, hfr⟩ :=
      refreshRecS_ok (sortArcs g (outArcs g n)) hnd hpos
        (sortArcs g (outArcs g n)).length 0 ((sortArcs g (outArcs g n)).length - 1) s
        (by omega) (by omega) (by omega)
    have hkv : keys T = sortArcs g (outArcs g n) := by
      rw [hkeys]
      exact slice_full _ hvne
    refine ⟨{ s1 with head := upd s1.head n me }, ?_, ?_, ?_, hp, hn, ?_⟩
    · simp only [refreshNodeS, hv, if_neg, Bool.false_eq_true, not_false_iff,
        Option.bind_eq_bind, Option.some_bind, Option.pure_def, heq]
    · refine ⟨T, ?_, ?_, ?_⟩
      · have : encS { s1 with head := upd s1.head n me } me T = true :=
          encS_frame henc (fun k _ => ⟨rfl, rfl⟩)
        show encS _ (upd s1.head n me n) T = true
        rw [upd_same]
        exact this
      · rw [hkv]
        exact sortArcs_perm g (outArcs g n)
      · rw [hkv]
        exact sortArcs_sorted g (outArcs g n)
    · intro k hk
      show upd s1.head n me k = s.head k
      rw [upd_other _ _ hk]
      rw [hh]
    · intro k hk
      have : k ∉ slice (sortArcs g (outArcs g n)) 0 ((sortArcs g (outArcs g n)).length - 1) := by
        rw [slice_full _ hvne]
        intro hmem
        exact hk ((sortArcs_perm g (outArcs g n)).mem_iff.mp hmem)
      exact hfr k this

/-- Correctness of `ArcLookUp::refresh()` run over any node list. -/
theorem refreshS_go (g : Digraph) (hg : WFg g) :
    ∀ (ns : List Int) (s : St), ∃ s',
      ns.foldlM (fun s n => refreshNodeS g n s) s = some s' ∧
      (∀ n ∈ ns, ∃ T, encS s' (s'.head n) T = true ∧ (keys T).Perm (outArcs g n) ∧
        List.Sorted (leTgt g) (keys T)) ∧
      (∀ k, k ∉ ns → s'.head k = s.head k) ∧
      s'.parent = s.parent ∧ s'.next = s.next ∧
      (∀ k, (∀ n ∈ ns, k ∉ outArcs g n) → s'.left k = s.left k ∧ s'.right k = s.right k) := by
  intro ns
  induction ns with
  | nil =>
    intro s
    exact ⟨s, rfl, by simp, fun k _ => rfl, rfl, rfl, fun k _ => ⟨rfl, rfl⟩⟩
  | cons n rest ih =>
    intro s
    obtain ⟨s1, heq1, ⟨T1, henc1, hperm1, hsort1⟩, hh1, hp1, hn1, hfr1⟩ :=
      refreshNodeS_ok g hg n s
    obtain ⟨s', heq2, hall2, hh2, hp2, hn2, hfr2⟩ := ih s1
    refine ⟨s', ?_, ?_, ?_, hp2.trans hp1, hn2.trans hn1, ?_⟩
    · simp only [List.foldlM_cons, Option.bind_eq_bind, heq1, Option.some_bind]
      exact heq2
    · intro n' hn'
      rcases List.mem_cons.mp hn' with he | hmem
      · subst he
        by_cases hrest : n' ∈ rest
        · exact hall2 n' hrest
        · refine ⟨T1, ?_, hperm1, hsort1⟩
          rw [hh2 n' hrest]
          refine encS_frame henc1 (fun k hk => ?_)
          have hkout : k ∈ outArcs g n' := hperm1.mem_iff.mp hk
          refine hfr2 k (fun n2 hn2mem => ?_)
          intro hk2
          by_cases he2 : n' = n2
          · subst he2
            exact hrest hn2mem
          · exact outArcs_disjoint hg he2 hkout hk2
      · exact hall2 n' hmem
    · intro k hk
      have hkn : k ≠ n := fun he => hk (he ▸ List.mem_cons_self n rest)
      have hkrest : k ∉ rest := fun hmem => hk (List.mem_cons_of_mem n hmem)
      rw [hh2 k hkrest, hh1 k hkn]
    · intro k hk
      have h1 := hfr1 k (hk n (List.mem_cons_self n rest))
      have h2 := hfr2 k (fun n2 hn2mem => hk n2 (List.mem_cons_of_mem n hn2mem))
      exact ⟨h2.1.trans h1.1, h2.2.trans h1.2⟩

/-- Correctness of the descent loop of `ArcLookUp::operator()` on an
encoded, target-sorted tree. -/
theorem lookupLoopS_ok (g : Digraph) (s : St) (t : Int) :
    ∀ (T : Tr) (h : Int) (f : Nat),
      encS s h T = true →
      List.Sorted (leTgt g) (keys T) →
      (∀ a ∈ keys T, ∃ ta, tgtOf g a = some ta) →
      (keys T).length < f →
      ∃ r, lookupLoopS g s f h t = some r ∧
        (r = -1 ∨ (r ∈ keys T ∧ tgtD g r = t)) ∧
        (r = -1 → ∀ a ∈ keys T, tgtD g a ≠ t) := by
  intro T
  induction T with
  | leaf =>
    intro h f henc _ _ hf
    have hh : h = -1 := by simpa [encS] using henc
    cases f with
    | zero => omega
    | succ f =>
      refine ⟨-1, by simp [lookupLoopS, hh], Or.inl rfl, ?_⟩
      intro _ a ha
      simp [keys] at ha
  | node L a R ihl ihr =>
    intro h f henc hsort hval hf
    simp only [encS, Bool.and_eq_true, beq_iff_eq, decide_eq_true_eq] at henc
    obtain ⟨⟨⟨hha, ha0⟩, hencL⟩, hencR⟩ := henc
    subst hha
    obtain ⟨ta, hta⟩ := hval h (by simp [keys])
    have htaD : tgtD g h = ta := by simp [tgtD, hta]
    have hsortLR := hsort
    rw [show keys (Tr.node L h R) = keys L ++ h :: keys R from rfl,
      List.Sorted, List.pairwise_append] at hsortLR
    obtain ⟨hsL, hsAR, hLAR⟩ := hsortLR
    rw [List.pairwise_cons] at hsAR
    obtain ⟨hAR, hsR⟩ := hsAR
    have hlen : (keys (Tr.node L h R)).length = (keys L).length + 1 + (keys R).length := by
      simp [keys]
      omega
    cases f with
    | zero => omega
    | succ f =>
      have hne : ¬(h = -1) := by omega
      by_cases hcase : ta = t
      · refine ⟨h, ?_, Or.inr ⟨by simp [keys], htaD.trans hcase⟩, fun hr => absurd hr hne⟩
        simp [lookupLoopS, hne, hta, hcase]
      · by_cases hlt : t < ta
        · obtain ⟨r, hr, hmem, hnf⟩ := ihl (s.left h) f hencL hsL
            (fun x hx => hval x (by simp [keys, hx])) (by omega)
          refine ⟨r, ?_, ?_, ?_⟩
          · simpa [lookupLoopS, hne, hta, hcase, hlt] using hr
          · rcases hmem with hm1 | ⟨hm2, hm3⟩
            · exact Or.inl hm1
            · exact Or.inr ⟨by simp [keys, hm2], hm3⟩
          · intro hr1 x hx
            rcases (by simpa [keys] using hx :
                x ∈ keys L ∨ x = h ∨ x ∈ keys R) with h1 | h2 | h3
            · exact hnf hr1 x h1
            · subst h2
              rw [htaD]
              exact hcase
            · have := hAR x h3
              rw [leTgt, htaD] at this
              omega
        · obtain ⟨r, hr, hmem, hnf⟩ := ihr (s.right h) f hencR hsR
            (fun x hx => hval x (by simp [keys, hx])) (by omega)
          refine ⟨r, ?_, ?_, ?_⟩
          · simpa [lookupLoopS, hne, hta, hcase, hlt] using hr
          · rcases hmem with hm1 | ⟨hm2, hm3⟩
            · exact Or.inl hm1
            · exact Or.inr ⟨by simp [keys, hm2], hm3⟩
          · intro hr1 x hx
            rcases (by simpa [keys] using hx :
                x ∈ keys L ∨ x = h ∨ x ∈ keys R) with h1 | h2 | h3
            · have := hLAR x h1 h (by simp)
              rw [leTgt, htaD] at this
              omega
            · subst h2
              rw [htaD]
              exact hcase
            · exact hnf hr1 x h3

theorem outArcs_length_le (g : Digraph) (n : Int) :
    (outArcs g n).length ≤ g.arcs.length := by
  unfold outArcs
  rw [List.length_map]
  exact List.length_filter_le _ _

/-- Correctness of the static look-up after a full refresh: packaged form
shared by the claims about `ArcLookUp` and `AllArcLookUp`. -/
theorem staticLookup_ok (g : Digraph) (hg : WFg g) (s0 : St) :
    ∃ s, refreshS g s0 = some s ∧
      ∀ n ∈ g.nodes, ∀ t, ∃ r,
        lookupArc g s n t (g.arcs.length + 1) = some r ∧
        (r ≠ -1 ↔ ∃ a ∈ outArcs g n, tgtD g a = t) ∧
        (r ≠ -1 → r ∈ outArcs g n ∧ srcOf g r = some n ∧ tgtOf g r = some t) := by
  obtain ⟨s, heq, hall, _, _, _, _⟩ := refreshS_go g hg g.nodes s0
  refine ⟨s, heq, ?_⟩
  intro n hn t
  obtain ⟨T, henc, hperm, hsort⟩ := hall n hn
  have hval : ∀ a ∈ keys T, ∃ ta, tgtOf g a = some ta := fun a ha =>
    outArcs_tgt hg (hperm.mem_iff.mp ha)
  have hlen : (keys T).length < g.arcs.length + 1 := by
    have h1 := hperm.length_eq
    have h2 := outArcs_length_le g n
    omega
  obtain ⟨r, hr, hmem, hnf⟩ := lookupLoopS_ok g s t T (s.head n) (g.arcs.length + 1)
    henc hsort hval hlen
  refine ⟨r, hr, ?_, ?_⟩
  · constructor
    · intro hrne
      rcases hmem with h1 | ⟨h2, h3⟩
      · exact absurd h1 hrne
      · exact ⟨r, hperm.mem_iff.mp h2, h3⟩
    · rintro ⟨a, hmem2, hta⟩ hr1
      exact hnf hr1 a (hperm.mem_iff.mpr hmem2) hta
  · intro hrne
    rcases hmem with h1 | ⟨h2, h3⟩
    · exact absurd h1 hrne
    · have hout : r ∈ outArcs g n := hperm.mem_iff.mp h2
      obtain ⟨ta, hta⟩ := outArcs_tgt hg hout
      have : ta = t := by
        rw [tgtD, hta] at h3
        simpa using h3
      exact ⟨hout, outArcs_src hg hout, this ▸ hta⟩

/-! ### The build never signals an error, for any node order -/

theorem refreshNodeOrd_ok (lt : Int → Int → Bool) (g : Digraph) (hg : WFg g)
    (n : Int) (s : St) : ∃ s', refreshNodeOrd lt g n s = some s' := by
  by_cases hv : (sortArcsOrd lt g (outArcs g n)).isEmpty
  · refine ⟨{ s with head := upd s.head n (-1) }, ?_⟩
    simp only [refreshNodeOrd, hv, if_pos]
  · have hvne : sortArcsOrd lt g (outArcs g n) ≠ [] := fun h =>
      hv (by simp [h, List.isEmpty])
    have hlen : 0 < (sortArcsOrd lt g (outArcs g n)).length := List.length_pos.mpr hvne
    have hperm : (sortArcsOrd lt g (outArcs g n)).Perm (outArcs g n) :=
      List.perm_insertionSort _ _
    have hnd : (sortArcsOrd lt g (outArcs g n)).Nodup :=
      (hperm.nodup_iff).mpr (outArcs_nodup hg n)
    have hpos : ∀ x ∈ sortArcsOrd lt g (outArcs g n), 0 ≤ x := fun x hx =>
      outArcs_nonneg hg (hperm.mem_iff.mp hx)
    obtain ⟨s1, me, T, heq, _, _, _, _, _, _, _⟩ :=
      refreshRecS_ok (sortArcsOrd lt g (outArcs g n)) hnd hpos
        (sortArcsOrd lt g (outArcs g n)).length 0
        ((sortArcsOrd lt g (outArcs g n)).length - 1) s (by omega) (by omega) (by omega)
    refine ⟨{ s1 with head := upd s1.head n me }, ?_⟩
    simp only [refreshNodeOrd, hv, if_neg, Bool.false_eq_true, not_false_iff,
      Option.bind_eq_bind, Option.some_bind, Option.pure_def, heq]

/-- C9 (amended): the index performs no validation of the supplied node
order — `refresh()`/build completes normally (never signals a
configuration error) for every comparison, including non-total ones; as
`C9_cex_no_failfast_on_bad_order` shows, a non-total comparison can
silently produce a tree on which look-ups miss existing arcs. -/
theorem C9_build_never_fails (lt : Int → Int → Bool) (g : Digraph) (hg : WFg g) :
    ∀ (ns : List Int) (s : St),
      ∃ s', ns.foldlM (fun s n => refreshNodeOrd lt g n s) s = some s' := by
  intro ns
  induction ns with
  | nil => intro s; exact ⟨s, rfl⟩
  | cons n rest ih =>
    intro s
    obtain ⟨s1, heq1⟩ := refreshNodeOrd_ok lt g hg n s
    obtain ⟨s', heq2⟩ := ih s1
    refine ⟨s', ?_⟩
    simp only [List.foldlM_cons, Option.bind_eq_bind, heq1, Option.some_bind]
    exact heq2

/-- C9 witness: the build over the non-order `ltBad` completes on
`gThree`. -/
theorem C9_witness :
    ∃ s', refreshOrd ltBad gThree st0 = some s' :=
  C9_build_never_fails ltBad gThree ⟨by decide, by decide, by decide⟩ gThree.nodes st0

/-- C2: the per-node tree of the dynamic index does not always equal the
node's current out-arcs.  On `gSeven`, after the erase notification for
arc 1 (two children, predecessor is the left child: the source omits the
update of `_parent[e]`) followed by the add notification for arc 7, the
splay of the insertion walks through the stale parent pointer into the
erased arc and corrupts the structure: node 0's child maps contain the
two-cycle `left 7 = 3`, `left 3 = 7`, no in-order reading of the tree at
`head 0` exists, while the graph's out-arcs of node 0 are
`[0, 2, 3, 4, 5, 6, 7]`. -/
theorem C2_erase_add_breaks_tree :
    ((refreshD gSeven st0).bind
        (fun s => runOps 60 gSeven s [.erase 1, .add 7 0 1])).map
      (fun x => (x.2.head 0, x.2.left 7, x.2.left 3,
                 inord x.2 100 (x.2.head 0), outArcs x.1 0))
      = some (7, 3, 7, none, [0, 2, 3, 4, 5, 6, 7]) := by
  rfl

/-- C3: with the three parallel arcs 0→1 of `gPar` (arc ids 0, 1, 2),
after full construction the enumeration protocol of `AllArcLookUp`
returns arc 1, then arc 2, then `INVALID`: arc 0 is never enumerated,
although `_next[0] = 1` (the chain exists but starts before the arc the
first query returns). -/
theorem C3_chain_misses_parallel_arc :
    ((allConstruct gPar st0 50).map
      (fun s => (allOp3 gPar s 0 1 (-1) 50, allOp3 gPar s 0 1 1 50,
                 allOp3 gPar s 0 1 2 50, s.next 0)))
      = some (some 1, some 2, some (-1), 1) := by
  rfl

/-- C5: the parent and child maps are not mutually consistent after
every operation.  On `gSeven`, after the erase notification for arc 1
(two children; its predecessor, arc 0, is its left child with no right
child), arc 0 occupies the left child slot of arc 3 while arc 0's parent
entry still names the erased arc 1. -/
theorem C5_parent_child_inconsistent_after_erase :
    ((refreshD gSeven st0).bind (fun s => remove gSeven 50 1 s)).map
        (fun s => (s.left 3, s.parent 0)) = some (0, 1) ∧
    1 ∉ outArcs ⟨gSeven.nodes, gSeven.arcs.filter (fun x => x.1 ≠ 1)⟩ 0 := by
  exact ⟨by rfl, by decide⟩

/-- C6: on `gA`, node 0 has no outgoing arcs, so after construction
`_head[0] = INVALID`; `DynArcLookUp::operator()(0,2)` and
`findFirst(0,2)` then read `_g.target(INVALID)` — the error branch of
the embedding is reached, no not-found sentinel is returned. -/
theorem C6_empty_tree_dereferences_invalid :
    (refreshD gA st0).map (fun s => s.head 0) = some (-1) ∧
    (refreshD gA st0).bind (fun s => dynLookup gA s 0 2 50) = none ∧
    (refreshD gA st0).bind (fun s => findFirst gA s 0 2 50) = none := by
  exact ⟨by rfl, by rfl, by rfl⟩

/-- C8: `AllArcLookUp::refresh()` runs `refresh(_head[n])`, passing the
head *arc* of `n` where a *node* is required.  On `gOne` (one node, no
arcs) the constructor leaves `_head[0] = INVALID`, so the full refresh
immediately uses an id that is no node of the graph: the embedding's
error branch is reached instead of the per-node rebuild the
documentation describes. -/
theorem C8_full_refresh_passes_arc_as_node :
    (allConstruct gOne st0 50).map (fun s => s.head 0) = some (-1) ∧
    (allConstruct gOne st0 50).bind (fun s => allRefreshFull gOne s 50) = none := by
  exact ⟨by rfl, by rfl⟩

/-- C10: for a non-`INVALID` `prev`, `AllArcLookUp::operator()(s,t,prev)`
returns exactly the stored `_next[prev]` and ignores both node
arguments. -/
theorem C10_op3_ignores_nodes (g g2 : Digraph) (s : St) (n t n2 t2 prev : Int)
    (f f2 : Nat) (h : prev ≠ -1) :
    allOp3 g s n t prev f = some (s.next prev) ∧
    allOp3 g s n t prev f = allOp3 g2 s n2 t2 prev f2 := by
  constructor
  · simp [allOp3, h]
  · simp [allOp3, h]

/-- C10 witness: the theorem applied at concrete arguments. -/
theorem C10_witness :
    allOp3 gPar st0 0 1 5 3 = some (st0.next 5) :=
  (C10_op3_ignores_nodes gPar gA st0 0 1 2 3 5 3 4 (by decide)).1

/-- C1 counterexample: on `gEmpty` no arc 0→1 exists, yet
`DynArcLookUp::operator()(0,1)` does not return the not-found sentinel:
`_head[0]` is `INVALID` and the descent dereferences it. -/
theorem C1_cex_dyn_lookup_empty_source :
    (refreshD gEmpty st0).bind (fun s => dynLookup gEmpty s 0 1 50) = none := by
  rfl

/-- C7 counterexample: on `gIso` there is no arc 5→5, yet
`DynArcLookUp::operator()(5,5)` does not return the not-found sentinel:
node 5 has no outgoing arcs and the descent dereferences the
`INVALID` head. -/
theorem C7_cex_lookup_without_out_arcs :
    (refreshD gIso st0).bind (fun s => dynLookup gIso s 5 5 50) = none := by
  rfl

/-- C4 counterexample.  Left subtrees are not strictly below the root
target: on the three parallel arcs of `gPar`, `refresh` roots node 0's
tree at arc 1 with arc 0 as left child and equal targets.  Moreover the
invariant does not survive every add/erase notification: on `gSeven`,
after the erase of arc 1 and the add of arc 7 the maps at `head 0` no
longer store any finite binary tree at all. -/
theorem C4_cex_left_subtree_not_strict :
    ((refreshD gPar st0).map (fun s => (s.head 0, s.left 1)) = some (1, 0) ∧
      tgtD gPar 0 = tgtD gPar 1) ∧
    ((refreshD gSeven st0).bind
        (fun s => runOps 60 gSeven s [.erase 1, .add 7 0 1])).map
      (fun x => inord x.2 150 (x.2.head 0)) = some none := by
  exact ⟨⟨by rfl, by rfl⟩, by rfl⟩

/-- C9 counterexample: with the non-order `ltBad` (never irreflexive:
`ltBad 0 0 = true`) supplied as the node order, the build of the index
over `gThree` completes normally — no error is signalled — and the
resulting tree is silently corrupt: the look-up for the existing arc
0→1 (arc id 0) answers the not-found sentinel. -/
theorem C9_cex_no_failfast_on_bad_order :
    ltBad 0 0 = true ∧
    (refreshOrd ltBad gThree st0).isSome = true ∧
    (refreshOrd ltBad gThree st0).bind
      (fun s => lookupArcOrd ltBad gThree s 0 1 50) = some (-1) ∧
    (0, 0, 1) ∈ gThree.arcs := by
  exact ⟨by rfl, by rfl, by rfl, by decide⟩

theorem zig_enc {s : St} {ctx : List (Bool × Int × Tr)} {w v : Int} {A B C : Tr}
    (hsub : enc s w v (Tr.node A v B) = true)
    (hctx : encCtx s ((true, w, C) :: ctx) v = true)
    (hnd : (keys (Tr.node A v B) ++ ctxKeys ((true, w, C) :: ctx)).Nodup) :
    enc (zig v s) (ctxPar ctx) v (Tr.node A v (Tr.node B w C)) = true ∧
    encCtx (zig v s) ctx v = true ∧
    (∀ k, k ∉ keys (Tr.node A v B) ++ ctxKeys ((true, w, C) :: ctx) →
      (zig v s).parent k = s.parent k ∧ (zig v s).left k = s.left k ∧
      (zig v s).right k = s.right k) := by
  have hsub' := hsub
  simp only [enc, Bool.and_eq_true, beq_iff_eq, decide_eq_true_eq] at hsub'
  obtain ⟨⟨⟨⟨-, hv0⟩, hpv⟩, hA⟩, hB⟩ := hsub'
  have hctx' := hctx
  simp only [encCtx, Bool.and_eq_true, beq_iff_eq, decide_eq_true_eq, if_true] at hctx'
  obtain ⟨⟨⟨hw0, hpw⟩, hlw, hC⟩, hctxT⟩ := hctx'
  simp only [keys, ctxKeys] at hnd
  rw [List.nodup_append] at hnd
  obtain ⟨hnd1, hnd2, hdisj⟩ := hnd
  have hnd2' := hnd2
  rw [List.nodup_cons] at hnd2'
  obtain ⟨hwCc, hndCc⟩ := hnd2'
  rw [List.nodup_append] at hndCc
  obtain ⟨hndC, hndCtx, hdisjC⟩ := hndCc
  have hnd1' := hnd1
  rw [List.nodup_append] at hnd1'
  obtain ⟨hndA, hndvB, hdisjA⟩ := hnd1'
  rw [List.nodup_cons] at hndvB
  obtain ⟨hvB, hndB⟩ := hndvB
  -- membership shorthands
  have hfst : ∀ k, k ∈ keys A ∨ k = v ∨ k ∈ keys B → k ∈ keys A ++ v :: keys B := by
    intro k hk
    simp only [List.mem_append, List.mem_cons]
    tauto
  have hsnd : ∀ k, k = w ∨ k ∈ keys C ∨ k ∈ ctxKeys ctx → k ∈ w :: (keys C ++ ctxKeys ctx) := by
    intro k hk
    simp only [List.mem_cons, List.mem_append]
    tauto
  have hne : ∀ k k2, k ∈ keys A ++ v :: keys B → k2 ∈ w :: (keys C ++ ctxKeys ctx) → k ≠ k2 := by
    intro k k2 h1 h2 he
    exact hdisj h1 (he ▸ h2)
  have hvw : v ≠ w := hne v w (hfst v (by tauto)) (hsnd w (by tauto))
  have hbLroot : s.right v = rootH B := enc_rootH hB
  have hbLv : s.right v ≠ v := by
    rw [hbLroot]
    rcases rootH_cases B with h | h
    · rw [h]; omega
    · intro he
      exact hvB (he ▸ h)
  have hbLw : s.right v ≠ w := by
    rw [hbLroot]
    rcases rootH_cases B with h | h
    · rw [h]; omega
    · exact hne _ w (hfst _ (Or.inr (Or.inr h))) (hsnd w (by tauto))
  have huw0 : ctxPar ctx ≠ w := by
    rcases ctxPar_cases ctx with h | h
    · rw [h]; omega
    · intro he
      rw [he] at h
      exact hwCc (by simp [h])
  have huv0 : ctxPar ctx ≠ v := by
    rcases ctxPar_cases ctx with h | h
    · rw [h]; omega
    · exact (hne v _ (hfst v (by tauto)) (hsnd _ (Or.inr (Or.inr h)))).symm
  have huw : s.parent w ≠ w := by rw [hpw]; exact huw0
  have huv : s.parent w ≠ v := by rw [hpw]; exact huv0
  -- the pointwise formulas
  have hP := fun k => zig_parent s hpv rfl hvw hbLv hbLw huw huv k
  have hL := fun k => zig_left s hpv rfl hvw hbLv hbLw huw huv k
  have hR := fun k => zig_right s hpv rfl hvw hbLv hbLw huw huv k
  -- basic result lookups
  have hPv : (zig v s).parent v = ctxPar ctx := by
    rw [hP v, if_neg (fun hx => hbLv hx.2.symm), if_neg hvw, if_pos rfl, hpw]
  have hPw : (zig v s).parent w = v := by
    rw [hP w, if_neg (fun hx => hbLw hx.2.symm), if_pos rfl]
  have hLv : (zig v s).left v = s.left v := by
    rw [hL v, if_neg (fun hx => huv hx.2.2.symm), if_neg hvw]
  have hRv : (zig v s).right v = w := by
    rw [hR v, if_neg (fun hx => huv hx.2.2.symm), if_pos rfl]
  have hLw : (zig v s).left w = s.right v := by
    rw [hL w, if_neg (fun hx => huw hx.2.2.symm), if_pos rfl]
  have hRw : (zig v s).right w = s.right w := by
    rw [hR w, if_neg (fun hx => huw hx.2.2.symm), if_neg (Ne.symm hvw)]
  -- frame on keys A
  have hfrA : ∀ k ∈ keys A,
      (zig v s).parent k = s.parent k ∧ (zig v s).left k = s.left k ∧
      (zig v s).right k = s.right k := by
    intro k hk
    have hkv : k ≠ v := fun he => (by rw [he] at hk; exact hdisjA hk (by simp) : False)
    have hkw : k ≠ w := hne k w (hfst k (by tauto)) (hsnd w (by tauto))
    have hkbL : ¬(s.right v ≠ -1 ∧ k = s.right v) := by
      rintro ⟨h1, h2⟩
      rw [hbLroot] at h1 h2
      rcases rootH_cases B with h | h
      · exact h1 h
      · rw [← h2] at h
        exact hdisjA hk (by simp [h])
    have hku : ¬(k = s.parent w) := by
      rw [hpw]
      rcases ctxPar_cases ctx with h | h
      · rw [h]
        intro he
        have := enc_keys_nonneg hA k hk
        omega
      · exact hne k _ (hfst k (by tauto)) (hsnd _ (Or.inr (Or.inr h)))
    refine ⟨?_, ?_, ?_⟩
    · rw [hP k, if_neg hkbL, if_neg hkw, if_neg hkv]
    · rw [hL k, if_neg (fun hx => hku hx.2.2), if_neg hkw]
    · rw [hR k, if_neg (fun hx => hku hx.2.2), if_neg hkv]
  -- frame on keys B
  have hfrB : ∀ k ∈ keys B, k ≠ s.right v →
      (zig v s).parent k = s.parent k := by
    intro k hk hkb
    have hkv : k ≠ v := fun he => hvB (he ▸ hk)
    have hkw : k ≠ w := hne k w (hfst k (by tauto)) (hsnd w (by tauto))
    rw [hP k, if_neg (fun hx => hkb hx.2), if_neg hkw, if_neg hkv]
  have hfrBlr : ∀ k ∈ keys B,
      (zig v s).left k = s.left k ∧ (zig v s).right k = s.right k := by
    intro k hk
    have hkv : k ≠ v := fun he => hvB (he ▸ hk)
    have hkw : k ≠ w := hne k w (hfst k (by tauto)) (hsnd w (by tauto))
    have hku : ¬(k = s.parent w) := by
      rw [hpw]
      rcases ctxPar_cases ctx with h | h
      · rw [h]
        intro he
        have := enc_keys_nonneg hB k hk
        omega
      · exact hne k _ (hfst k (by tauto)) (hsnd _ (Or.inr (Or.inr h)))
    constructor
    · rw [hL k, if_neg (fun hx => hku hx.2.2), if_neg hkw]
    · rw [hR k, if_neg (fun hx => hku hx.2.2), if_neg hkv]
  -- frame on keys C
  have hfrC : ∀ k ∈ keys C,
      (zig v s).parent k = s.parent k ∧ (zig v s).left k = s.left k ∧
      (zig v s).right k = s.right k := by
    intro k hk
    have hkv : k ≠ v := (hne v k (hfst v (by tauto)) (hsnd k (by tauto))).symm
    have hkw : k ≠ w := fun he => hwCc (by rw [← he]; simp [hk])
    have hkbL : ¬(s.right v ≠ -1 ∧ k = s.right v) := by
      rintro ⟨h1, h2⟩
      rw [hbLroot] at h1 h2
      rcases rootH_cases B with h | h
      · exact h1 h
      · rw [← h2] at h
        exact hne k k (hfst k (by tauto)) (hsnd k (by tauto)) rfl
    have hku : ¬(k = s.parent w) := by
      rw [hpw]
      rcases ctxPar_cases ctx with h | h
      · rw [h]
        intro he
        have := enc_keys_nonneg hC k hk
        omega
      · intro he
        rw [he] at hk
        exact hdisjC hk h
    refine ⟨?_, ?_, ?_⟩
    · rw [hP k, if_neg hkbL, if_neg hkw, if_neg hkv]
    · rw [hL k, if_neg (fun hx => hku hx.2.2), if_neg hkw]
    · rw [hR k, if_neg (fun hx => hku hx.2.2), if_neg hkv]
  -- frame on the context keys
  have hfrCtx : ∀ k ∈ ctxKeys ctx, k ≠ ctxPar ctx →
      (zig v s).parent k = s.parent k ∧ (zig v s).left k = s.left k ∧
      (zig v s).right k = s.right k := by
    intro k hk hkp
    have hkv : k ≠ v := (hne v k (hfst v (by tauto)) (hsnd k (by tauto))).symm
    have hkw : k ≠ w := fun he => hwCc (by rw [← he]; simp [hk])
    have hkbL : ¬(s.right v ≠ -1 ∧ k = s.right v) := by
      rintro ⟨h1, h2⟩
      rw [hbLroot] at h1 h2
      rcases rootH_cases B with h | h
      · exact h1 h
      · rw [← h2] at h
        exact hne k k (hfst k (by tauto)) (hsnd k (by tauto)) rfl
    have hku : ¬(k = s.parent w) := by
      rw [hpw]
      exact hkp
    refine ⟨?_, ?_, ?_⟩
    · rw [hP k, if_neg hkbL, if_neg hkw, if_neg hkv]
    · rw [hL k, if_neg (fun hx => hku hx.2.2), if_neg hkw]
    · rw [hR k, if_neg (fun hx => hku hx.2.2), if_neg hkv]
  -- conclusion (1): the rotated subtree is encoded at v
  have hencA2 : enc (zig v s) v ((zig v s).left v) A = true := by
    rw [hLv]
    exact enc_frame hA hfrA
  have hencC2 : enc (zig v s) w ((zig v s).right w) C = true := by
    rw [hRw]
    exact enc_frame hC hfrC
  have hencB2 : enc (zig v s) w ((zig v s).left w) B = true := by
    rw [hLw]
    cases hBc : B with
    | leaf =>
      rw [hbLroot, hBc]
      rfl
    | node bl ba br =>
      have hBne : s.right v ≠ -1 := by
        rw [hbLroot, hBc]
        have hmem : rootH B ∈ keys B := by rw [hBc]; simp [rootH, keys]
        have := enc_keys_nonneg hB _ hmem
        rw [hBc] at this
        simp only [rootH] at this ⊢
        omega
      have hPbL : (zig v s).parent (s.right v) = w := by
        rw [hP (s.right v), if_pos ⟨hBne, rfl⟩]
      rw [← hBc]
      refine encR_to_enc ?_ hPbL
      refine encR_frame (enc_to_encR hB) hfrBlr ?_ hndB
      intro k hk hkb
      exact hfrB k hk hkb
  have hgoal1 : enc (zig v s) (ctxPar ctx) v (Tr.node A v (Tr.node B w C)) = true := by
    simp only [enc, Bool.and_eq_true, beq_iff_eq, decide_eq_true_eq]
    exact ⟨⟨⟨⟨trivial, hv0⟩, hPv⟩, hencA2⟩, ⟨⟨⟨hRv, hw0⟩, hPw⟩, hencB2⟩, hencC2⟩
  -- conclusion (2): the remaining context is intact with hole v
  have hgoal2 : encCtx (zig v s) ctx v = true := by
    cases hctxc : ctx with
    | nil => rfl
    | cons e rest =>
      obtain ⟨side2, u, S2⟩ := e
      rw [hctxc] at hctxT
      have hctxu : ctxPar ctx = u := by rw [hctxc]; rfl
      have humem : u ∈ ctxKeys ctx := by rw [hctxc]; simp [ctxKeys]
      have hS2sub : ∀ k ∈ keys S2, k ∈ ctxKeys ctx := by
        intro k hk
        rw [hctxc]
        simp [ctxKeys, hk]
      have hrestsub : ∀ k ∈ ctxKeys rest, k ∈ ctxKeys ctx := by
        intro k hk
        rw [hctxc]
        simp [ctxKeys, hk]
      have hndctx2 : u ∉ keys S2 ++ ctxKeys rest ∧ (keys S2 ++ ctxKeys rest).Nodup := by
        have := hndCtx
        rw [hctxc] at this
        simp only [ctxKeys] at this
        rw [List.nodup_cons] at this
        exact this
      have hPu : (zig v s).parent u = s.parent u := by
        have hku : u ≠ v := by rw [← hctxu]; exact huv0
        have hkw : u ≠ w := by rw [← hctxu]; exact huw0
        have hkbL : ¬(s.right v ≠ -1 ∧ u = s.right v) := by
          rintro ⟨h1, h2⟩
          rw [hbLroot] at h1 h2
          rcases rootH_cases B with h | h
          · exact h1 h
          · rw [← h2] at h
            exact hne u u (hfst u (by tauto)) (hsnd u (Or.inr (Or.inr humem))) rfl
        rw [hP u, if_neg hkbL, if_neg hkw, if_neg hku]
      -- now split on the stored side
      rcases side2 with _ | _
      · -- hole is the right child of u : s.right u = w
        simp only [encCtx, Bool.and_eq_true, beq_iff_eq, decide_eq_true_eq,
          Bool.false_eq_true, if_false] at hctxT ⊢
        obtain ⟨⟨⟨hu0, hpu⟩, hru, hS2⟩, hrest⟩ := hctxT
        have hRu : (zig v s).right u = v := by
          rw [hR u]
          rw [hpw, hctxu]
          exact if_pos ⟨by omega, hru, rfl⟩
        have hLu : (zig v s).left u = s.left u := by
          rw [hL u, hpw, hctxu]
          rw [if_neg (fun hx => hx.2.1 hru), if_neg (by rw [← hctxu]; exact huw0)]
        refine ⟨⟨⟨hu0, ?_⟩, ?_, ?_⟩, ?_⟩
        · rw [hPu]
          exact hpu
        · rw [hRu]
        · rw [hLu]
          refine enc_frame hS2 ?_
          intro k hk
          have hkp : k ≠ ctxPar ctx := by
            rw [hctxu]
            intro he
            exact hndctx2.1 (by rw [← he]; simp [hk])
          exact hfrCtx k (hS2sub k hk) hkp
        · refine encCtx_frame hrest ?_
          intro k hk
          have hkp : k ≠ ctxPar ctx := by
            rw [hctxu]
            intro he
            exact hndctx2.1 (by rw [← he]; simp [hk])
          exact hfrCtx k (hrestsub k hk) hkp
      · -- hole is the left child of u : s.left u = w
        simp only [encCtx, Bool.and_eq_true, beq_iff_eq, decide_eq_true_eq,
          if_true] at hctxT ⊢
        obtain ⟨⟨⟨hu0, hpu⟩, hlu, hS2⟩, hrest⟩ := hctxT
        have hruw : s.right u ≠ w := by
          have hroot : s.right u = rootH S2 := enc_rootH hS2
          rw [hroot]
          rcases rootH_cases S2 with h | h
          · rw [h]; omega
          · intro he
            rw [he] at h
            exact hwCc (by simp [hS2sub w h])
        have hLu : (zig v s).left u = v := by
          rw [hL u, hpw, hctxu]
          exact if_pos ⟨by omega, hruw, rfl⟩
        have hRu : (zig v s).right u = s.right u := by
          rw [hR u, hpw, hctxu]
          rw [if_neg (fun hx => hruw hx.2.1), if_neg (by rw [← hctxu]; exact huv0)]
        refine ⟨⟨⟨hu0, ?_⟩, ?_, ?_⟩, ?_⟩
        · rw [hPu]
          exact hpu
        · rw [hLu]
        · rw [hRu]
          refine enc_frame hS2 ?_
          intro k hk
          have hkp : k ≠ ctxPar ctx := by
            rw [hctxu]
            intro he
            exact hndctx2.1 (by rw [← he]; simp [hk])
          exact hfrCtx k (hS2sub k hk) hkp
        · refine encCtx_frame hrest ?_
          intro k hk
          have hkp : k ≠ ctxPar ctx := by
            rw [hctxu]
            intro he
            exact hndctx2.1 (by rw [← he]; simp [hk])
          exact hfrCtx k (hrestsub k hk) hkp
  -- conclusion (3): nothing outside is touched
  have hgoal3 : ∀ k, k ∉ keys (Tr.node A v B) ++ ctxKeys ((true, w, C) :: ctx) →
      (zig v s).parent k = s.parent k ∧ (zig v s).left k = s.left k ∧
      (zig v s).right k = s.right k := by
    intro k hk
    simp only [keys, ctxKeys, List.mem_append, List.mem_cons, not_or] at hk
    obtain ⟨hk1, hk2⟩ := hk
    have hkv : k ≠ v := hk1.2.1
    have hkw : k ≠ w := hk2.1
    have hkB : k ∉ keys B := hk1.2.2
    have hkCc : k ∉ keys C ++ ctxKeys ctx := by
      intro hmem
      rcases List.mem_append.mp hmem with h | h
      · exact hk2.2.1 h
      · exact hk2.2.2 h
    have hkbL : ¬(s.right v ≠ -1 ∧ k = s.right v) := by
      rintro ⟨h1, h2⟩
      rw [hbLroot] at h1 h2
      rcases rootH_cases B with h | h
      · exact h1 h
      · rw [← h2] at h
        exact hkB h
    have hku : ¬(s.parent w ≠ -1 ∧ k = s.parent w) := by
      rw [hpw]
      rintro ⟨h1, h2⟩
      rcases ctxPar_cases ctx with h | h
      · exact h1 h
      · rw [h2] at hkCc
        exact hkCc (List.mem_append.mpr (Or.inr h))
    refine ⟨?_, ?_, ?_⟩
    · rw [hP k, if_neg hkbL, if_neg hkw, if_neg hkv]
    · rw [hL k, if_neg (fun hx => hku ⟨hx.1, hx.2.2⟩), if_neg hkw]
    · rw [hR k, if_neg (fun hx => hku ⟨hx.1, hx.2.2⟩), if_neg hkv]
  exact ⟨hgoal1, hgoal2, hgoal3⟩

theorem zag_enc {s : St} {ctx : List (Bool × Int × Tr)} {w v : Int} {A B C : Tr}
    (hsub : enc s w v (Tr.node A v B) = true)
    (hctx : encCtx s ((false, w, C) :: ctx) v = true)
    (hnd : (keys (Tr.node A v B) ++ ctxKeys ((false, w, C) :: ctx)).Nodup) :
    enc (zag v s) (ctxPar ctx) v (Tr.node (Tr.node C w A) v B) = true ∧
    encCtx (zag v s) ctx v = true ∧
    (∀ k, k ∉ keys (Tr.node A v B) ++ ctxKeys ((false, w, C) :: ctx) →
      (zag v s).parent k = s.parent k ∧ (zag v s).left k = s.left k ∧
      (zag v s).right k = s.right k) := by
  have hsub' := hsub
  simp only [enc, Bool.and_eq_true, beq_iff_eq, decide_eq_true_eq] at hsub'
  obtain ⟨⟨⟨⟨-, hv0⟩, hpv⟩, hA⟩, hB⟩ := hsub'
  have hctx' := hctx
  simp only [encCtx, Bool.and_eq_true, beq_iff_eq, decide_eq_true_eq,
    Bool.false_eq_true, if_false] at hctx'
  obtain ⟨⟨⟨hw0, hpw⟩, hrw, hC⟩, hctxT⟩ := hctx'
  simp only [keys, ctxKeys] at hnd
  rw [List.nodup_append] at hnd
  obtain ⟨hnd1, hnd2, hdisj⟩ := hnd
  have hnd2' := hnd2
  rw [List.nodup_cons] at hnd2'
  obtain ⟨hwCc, hndCc⟩ := hnd2'
  rw [List.nodup_append] at hndCc
  obtain ⟨hndC, hndCtx, hdisjC⟩ := hndCc
  have hnd1' := hnd1
  rw [List.nodup_append] at hnd1'
  obtain ⟨hndA, hndvB, hdisjA⟩ := hnd1'
  rw [List.nodup_cons] at hndvB
  obtain ⟨hvB, hndB⟩ := hndvB
  have hfst : ∀ k, k ∈ keys A ∨ k = v ∨ k ∈ keys B → k ∈ keys A ++ v :: keys B := by
    intro k hk
    simp only [List.mem_append, List.mem_cons]
    tauto
  have hsnd : ∀ k, k = w ∨ k ∈ keys C ∨ k ∈ ctxKeys ctx → k ∈ w :: (keys C ++ ctxKeys ctx) := by
    intro k hk
    simp only [List.mem_cons, List.mem_append]
    tauto
  have hne : ∀ k k2, k ∈ keys A ++ v :: keys B → k2 ∈ w :: (keys C ++ ctxKeys ctx) → k ≠ k2 := by
    intro k k2 h1 h2 he
    exact hdisj h1 (he ▸ h2)
  have hvw : v ≠ w := hne v w (hfst v (by tauto)) (hsnd w (by tauto))
  have hbRroot : s.left v = rootH A := enc_rootH hA
  have hbRv : s.left v ≠ v := by
    rw [hbRroot]
    rcases rootH_cases A with h | h
    · rw [h]; omega
    · intro he
      exact hdisjA h (by rw [he]; simp)
  have hbRw : s.left v ≠ w := by
    rw [hbRroot]
    rcases rootH_cases A with h | h
    · rw [h]; omega
    · exact hne _ w (hfst _ (Or.inl h)) (hsnd w (by tauto))
  have huw0 : ctxPar ctx ≠ w := by
    rcases ctxPar_cases ctx with h | h
    · rw [h]; omega
    · intro he
      rw [he] at h
      exact hwCc (by simp [h])
  have huv0 : ctxPar ctx ≠ v := by
    rcases ctxPar_cases ctx with h | h
    · rw [h]; omega
    · exact (hne v _ (hfst v (by tauto)) (hsnd _ (Or.inr (Or.inr h)))).symm
  have huw : s.parent w ≠ w := by rw [hpw]; exact huw0
  have huv : s.parent w ≠ v := by rw [hpw]; exact huv0
  have hP := fun k => zag_parent s hpv rfl hvw hbRv hbRw huw huv k
  have hR := fun k => zag_right s hpv rfl hvw hbRv hbRw huw huv k
  have hL := fun k => zag_left s hpv rfl hvw hbRv hbRw huw huv k
  have hPv : (zag v s).parent v = ctxPar ctx := by
    rw [hP v, if_neg (fun hx => hbRv hx.2.symm), if_neg hvw, if_pos rfl, hpw]
  have hPw : (zag v s).parent w = v := by
    rw [hP w, if_neg (fun hx => hbRw hx.2.symm), if_pos rfl]
  have hRv : (zag v s).right v = s.right v := by
    rw [hR v, if_neg (fun hx => huv hx.2.2.symm), if_neg hvw]
  have hLv : (zag v s).left v = w := by
    rw [hL v, if_neg (fun hx => huv hx.2.2.symm), if_pos rfl]
  have hRw : (zag v s).right w = s.left v := by
    rw [hR w, if_neg (fun hx => huw hx.2.2.symm), if_pos rfl]
  have hLw : (zag v s).left w = s.left w := by
    rw [hL w, if_neg (fun hx => huw hx.2.2.symm), if_neg (Ne.symm hvw)]
  have hfrB2 : ∀ k ∈ keys B,
      (zag v s).parent k = s.parent k ∧ (zag v s).left k = s.left k ∧
      (zag v s).right k = s.right k := by
    intro k hk
    have hkv : k ≠ v := fun he => hvB (he ▸ hk)
    have hkw : k ≠ w := hne k w (hfst k (by tauto)) (hsnd w (by tauto))
    have hkbR : ¬(s.left v ≠ -1 ∧ k = s.left v) := by
      rintro ⟨h1, h2⟩
      rw [hbRroot] at h1 h2
      rcases rootH_cases A with h | h
      · exact h1 h
      · rw [← h2] at h
        exact hdisjA h (by simp [hk])
    have hku : ¬(k = s.parent w) := by
      rw [hpw]
      rcases ctxPar_cases ctx with h | h
      · rw [h]
        intro he
        have := enc_keys_nonneg hB k hk
        omega
      · exact hne k _ (hfst k (by tauto)) (hsnd _ (Or.inr (Or.inr h)))
    refine ⟨?_, ?_, ?_⟩
    · rw [hP k, if_neg hkbR, if_neg hkw, if_neg hkv]
    · rw [hL k, if_neg (fun hx => hku hx.2.2), if_neg hkv]
    · rw [hR k, if_neg (fun hx => hku hx.2.2), if_neg hkw]
  have hfrA2p : ∀ k ∈ keys A, k ≠ s.left v →
      (zag v s).parent k = s.parent k := by
    intro k hk hkb
    have hkv : k ≠ v := fun he => hdisjA hk (by rw [he]; simp)
    have hkw : k ≠ w := hne k w (hfst k (by tauto)) (hsnd w (by tauto))
    rw [hP k, if_neg (fun hx => hkb hx.2), if_neg hkw, if_neg hkv]
  have hfrA2lr : ∀ k ∈ keys A,
      (zag v s).left k = s.left k ∧ (zag v s).right k = s.right k := by
    intro k hk
    have hkv : k ≠ v := fun he => hdisjA hk (by rw [he]; simp)
    have hkw : k ≠ w := hne k w (hfst k (by tauto)) (hsnd w (by tauto))
    have hku : ¬(k = s.parent w) := by
      rw [hpw]
      rcases ctxPar_cases ctx with h | h
      · rw [h]
        intro he
        have := enc_keys_nonneg hA k hk
        omega
      · exact hne k _ (hfst k (by tauto)) (hsnd _ (Or.inr (Or.inr h)))
    constructor
    · rw [hL k, if_neg (fun hx => hku hx.2.2), if_neg hkv]
    · rw [hR k, if_neg (fun hx => hku hx.2.2), if_neg hkw]
  have hfrC2 : ∀ k ∈ keys C,
      (zag v s).parent k = s.parent k ∧ (zag v s).left k = s.left k ∧
      (zag v s).right k = s.right k := by
    intro k hk
    have hkv : k ≠ v := (hne v k (hfst v (by tauto)) (hsnd k (by tauto))).symm
    have hkw : k ≠ w := fun he => hwCc (by rw [← he]; simp [hk])
    have hkbR : ¬(s.left v ≠ -1 ∧ k = s.left v) := by
      rintro ⟨h1, h2⟩
      rw [hbRroot] at h1 h2
      rcases rootH_cases A with h | h
      · exact h1 h
      · rw [← h2] at h
        exact hne k k (hfst k (by tauto)) (hsnd k (by tauto)) rfl
    have hku : ¬(k = s.parent w) := by
      rw [hpw]
      rcases ctxPar_cases ctx with h | h
      · rw [h]
        intro he
        have := enc_keys_nonneg hC k hk
        omega
      · intro he
        rw [he] at hk
        exact hdisjC hk h
    refine ⟨?_, ?_, ?_⟩
    · rw [hP k, if_neg hkbR, if_neg hkw, if_neg hkv]
    · rw [hL k, if_neg (fun hx => hku hx.2.2), if_neg hkv]
    · rw [hR k, if_neg (fun hx => hku hx.2.2), if_neg hkw]
  have hfrCtx2 : ∀ k ∈ ctxKeys ctx, k ≠ ctxPar ctx →
      (zag v s).parent k = s.parent k ∧ (zag v s).left k = s.left k ∧
      (zag v s).right k = s.right k := by
    intro k hk hkp
    have hkv : k ≠ v := (hne v k (hfst v (by tauto)) (hsnd k (by tauto))).symm
    have hkw : k ≠ w := fun he => hwCc (by rw [← he]; simp [hk])
    have hkbR : ¬(s.left v ≠ -1 ∧ k = s.left v) := by
      rintro ⟨h1, h2⟩
      rw [hbRroot] at h1 h2
      rcases rootH_cases A with h | h
      · exact h1 h
      · rw [← h2] at h
        exact hne k k (hfst k (by tauto)) (hsnd k (by tauto)) rfl
    have hku : ¬(k = s.parent w) := by
      rw [hpw]
      exact hkp
    refine ⟨?_, ?_, ?_⟩
    · rw [hP k, if_neg hkbR, if_neg hkw, if_neg hkv]
    · rw [hL k, if_neg (fun hx => hku hx.2.2), if_neg hkv]
    · rw [hR k, if_neg (fun hx => hku hx.2.2), if_neg hkw]
  have hencB2 : enc (zag v s) v ((zag v s).right v) B = true := by
    rw [hRv]
    exact enc_frame hB hfrB2
  have hencC2 : enc (zag v s) w ((zag v s).left w) C = true := by
    rw [hLw]
    exact enc_frame hC hfrC2
  have hencA2 : enc (zag v s) w ((zag v s).right w) A = true := by
    rw [hRw]
    cases hAc : A with
    | leaf =>
      rw [hbRroot, hAc]
      rfl
    | node al aa ar =>
      have hAne : s.left v ≠ -1 := by
        rw [hbRroot, hAc]
        have hmem : rootH A ∈ keys A := by rw [hAc]; simp [rootH, keys]
        have := enc_keys_nonneg hA _ hmem
        rw [hAc] at this
        simp only [rootH] at this ⊢
        omega
      have hPbR : (zag v s).parent (s.left v) = w := by
        rw [hP (s.left v), if_pos ⟨hAne, rfl⟩]
      rw [← hAc]
      refine encR_to_enc ?_ hPbR
      refine encR_frame (enc_to_encR hA) hfrA2lr ?_ hndA
      intro k hk hkb
      exact hfrA2p k hk hkb
  have hgoal1 : enc (zag v s) (ctxPar ctx) v (Tr.node (Tr.node C w A) v B) = true := by
    simp only [enc, Bool.and_eq_true, beq_iff_eq, decide_eq_true_eq]
    exact ⟨⟨⟨⟨trivial, hv0⟩, hPv⟩, ⟨⟨⟨hLv, hw0⟩, hPw⟩, hencC2⟩, hencA2⟩, hencB2⟩
  have hgoal2 : encCtx (zag v s) ctx v = true := by
    cases hctxc : ctx with
    | nil => rfl
    | cons e rest =>
      obtain ⟨side2, u, S2⟩ := e
      rw [hctxc] at hctxT
      have hctxu : ctxPar ctx = u := by rw [hctxc]; rfl
      have humem : u ∈ ctxKeys ctx := by rw [hctxc]; simp [ctxKeys]
      have hS2sub : ∀ k ∈ keys S2, k ∈ ctxKeys ctx := by
        intro k hk
        rw [hctxc]
        simp [ctxKeys, hk]
      have hrestsub : ∀ k ∈ ctxKeys rest, k ∈ ctxKeys ctx := by
        intro k hk
        rw [hctxc]
        simp [ctxKeys, hk]
      have hndctx2 : u ∉ keys S2 ++ ctxKeys rest ∧ (keys S2 ++ ctxKeys rest).Nodup := by
        have := hndCtx
        rw [hctxc] at this
        simp only [ctxKeys] at this
        rw [List.nodup_cons] at this
        exact this
      have hPu : (zag v s).parent u = s.parent u := by
        have hku : u ≠ v := by rw [← hctxu]; exact huv0
        have hkw : u ≠ w := by rw [← hctxu]; exact huw0
        have hkbR : ¬(s.left v ≠ -1 ∧ u = s.left v) := by
          rintro ⟨h1, h2⟩
          rw [hbRroot] at h1 h2
          rcases rootH_cases A with h | h
          · exact h1 h
          · rw [← h2] at h
            exact hne u u (hfst u (by tauto)) (hsnd u (Or.inr (Or.inr humem))) rfl
        rw [hP u, if_neg hkbR, if_neg hkw, if_neg hku]
      rcases side2 with _ | _
      · simp only [encCtx, Bool.and_eq_true, beq_iff_eq, decide_eq_true_eq,
          Bool.false_eq_true, if_false] at hctxT ⊢
        obtain ⟨⟨⟨hu0, hpu⟩, hru, hS2⟩, hrest⟩ := hctxT
        have hluw : s.left u ≠ w := by
          have hroot : s.left u = rootH S2 := enc_rootH hS2
          rw [hroot]
          rcases rootH_cases S2 with h | h
          · rw [h]; omega
          · intro he
            rw [he] at h
            exact hwCc (by simp [hS2sub w h])
        have hRu : (zag v s).right u = v := by
          rw [hR u, hpw, hctxu]
          exact if_pos ⟨by omega, hluw, rfl⟩
        have hLu : (zag v s).left u = s.left u := by
          rw [hL u, hpw, hctxu]
          rw [if_neg (fun hx => hluw hx.2.1), if_neg (by rw [← hctxu]; exact huv0)]
        refine ⟨⟨⟨hu0, ?_⟩, ?_, ?_⟩, ?_⟩
        · rw [hPu]
          exact hpu
        · rw [hRu]
        · rw [hLu]
          refine enc_frame hS2 ?_
          intro k hk
          have hkp : k ≠ ctxPar ctx := by
            rw [hctxu]
            intro he
            exact hndctx2.1 (by rw [← he]; simp [hk])
          exact hfrCtx2 k (hS2sub k hk) hkp
        · refine encCtx_frame hrest ?_
          intro k hk
          have hkp : k ≠ ctxPar ctx := by
            rw [hctxu]
            intro he
            exact hndctx2.1 (by rw [← he]; simp [hk])
          exact hfrCtx2 k (hrestsub k hk) hkp
      · simp only [encCtx, Bool.and_eq_true, beq_iff_eq, decide_eq_true_eq,
          if_true] at hctxT ⊢
        obtain ⟨⟨⟨hu0, hpu⟩, hlu, hS2⟩, hrest⟩ := hctxT
        have hLu : (zag v s).left u = v := by
          rw [hL u, hpw, hctxu]
          exact if_pos ⟨by omega, hlu, rfl⟩
        have hRu : (zag v s).right u = s.right u := by
          rw [hR u, hpw, hctxu]
          rw [if_neg (fun hx => hx.2.1 hlu), if_neg (by rw [← hctxu]; exact huw0)]
        refine ⟨⟨⟨hu0, ?_⟩, ?_, ?_⟩, ?_⟩
        · rw [hPu]
          exact hpu
        · rw [hLu]
        · rw [hRu]
          refine enc_frame hS2 ?_
          intro k hk
          have hkp : k ≠ ctxPar ctx := by
            rw [hctxu]
            intro he
            exact hndctx2.1 (by rw [← he]; simp [hk])
          exact hfrCtx2 k (hS2sub k hk) hkp
        · refine encCtx_frame hrest ?_
          intro k hk
          have hkp : k ≠ ctxPar ctx := by
            rw [hctxu]
            intro he
            exact hndctx2.1 (by rw [← he]; simp [hk])
          exact hfrCtx2 k (hrestsub k hk) hkp
  have hgoal3 : ∀ k, k ∉ keys (Tr.node A v B) ++ ctxKeys ((false, w, C) :: ctx) →
      (zag v s).parent k = s.parent k ∧ (zag v s).left k = s.left k ∧
      (zag v s).right k = s.right k := by
    intro k hk
    simp only [keys, ctxKeys, List.mem_append, List.mem_cons, not_or] at hk
    obtain ⟨hk1, hk2⟩ := hk
    have hkv : k ≠ v := hk1.2.1
    have hkw : k ≠ w := hk2.1
    have hkA : k ∉ keys A := hk1.1
    have hkCc : k ∉ keys C ++ ctxKeys ctx := by
      intro hmem
      rcases List.mem_append.mp hmem with h | h
      · exact hk2.2.1 h
      · exact hk2.2.2 h
    have hkbR : ¬(s.left v ≠ -1 ∧ k = s.left v) := by
      rintro ⟨h1, h2⟩
      rw [hbRroot] at h1 h2
      rcases rootH_cases A with h | h
      · exact h1 h
      · rw [← h2] at h
        exact hkA h
    have hku : ¬(s.parent w ≠ -1 ∧ k = s.parent w) := by
      rw [hpw]
      rintro ⟨h1, h2⟩
      rcases ctxPar_cases ctx with h | h
      · exact h1 h
      · rw [h2] at hkCc
        exact hkCc (List.mem_append.mpr (Or.inr h))
    refine ⟨?_, ?_, ?_⟩
    · rw [hP k, if_neg hkbR, if_neg hkw, if_neg hkv]
    · rw [hL k, if_neg (fun hx => hku ⟨hx.1, hx.2.2⟩), if_neg hkv]
    · rw [hR k, if_neg (fun hx => hku ⟨hx.1, hx.2.2⟩), if_neg hkw]
  exact ⟨hgoal1, hgoal2, hgoal3⟩

theorem keys_plug_pre_post : ∀ (ctx : List (Bool × Int × Tr)) (T : Tr),
    keys (plug ctx T) = ctxPre ctx ++ keys T ++ ctxPost ctx := by
  intro ctx
  induction ctx with
  | nil => intro T; simp [plug, ctxPre, ctxPost]
  | cons e rest ih =>
    intro T
    obtain ⟨side, w, sib⟩ := e
    cases side
    · simp [plug, ctxPre, ctxPost, ih, keys, List.append_assoc]
    · simp [plug, ctxPre, ctxPost, ih, keys, List.append_assoc]

theorem sorted_bstTgt {g : Digraph} : ∀ {T : Tr},
    List.Sorted (leTgt g) (keys T) → bstTgt g T := by
  intro T
  induction T with
  | leaf => intro h; trivial
  | node l a r ihl ihr =>
    intro hs
    rw [show keys (Tr.node l a r) = keys l ++ a :: keys r from rfl, List.Sorted,
      List.pairwise_append] at hs
    obtain ⟨hsl, hsar, hlar⟩ := hs
    rw [List.pairwise_cons] at hsar
    obtain ⟨har, hsr⟩ := hsar
    exact ⟨fun k hk => hlar k hk a (by simp), fun k hk => har k hk, ihl hsl, ihr hsr⟩

theorem enc_node_iff {s : St} {p h : Int} {l : Tr} {a : Int} {r : Tr} :
    enc s p h (Tr.node l a r) = true ↔
      h = a ∧ 0 ≤ a ∧ s.parent a = p ∧ enc s a (s.left a) l = true ∧
      enc s a (s.right a) r = true := by
  simp only [enc, Bool.and_eq_true, beq_iff_eq, decide_eq_true_eq]
  tauto

theorem encCtx_cons_true {s : St} {w h : Int} {sib : Tr}
    {rest : List (Bool × Int × Tr)} :
    encCtx s ((true, w, sib) :: rest) h = true ↔
      0 ≤ w ∧ s.parent w = ctxPar rest ∧ s.left w = h ∧
      enc s w (s.right w) sib = true ∧ encCtx s rest w = true := by
  simp only [encCtx, Bool.and_eq_true, beq_iff_eq, decide_eq_true_eq, if_true]
  tauto

theorem encCtx_cons_false {s : St} {w h : Int} {sib : Tr}
    {rest : List (Bool × Int × Tr)} :
    encCtx s ((false, w, sib) :: rest) h = true ↔
      0 ≤ w ∧ s.parent w = ctxPar rest ∧ s.right w = h ∧
      enc s w (s.left w) sib = true ∧ encCtx s rest w = true := by
  simp only [encCtx, Bool.and_eq_true, beq_iff_eq, decide_eq_true_eq,
    Bool.false_eq_true, if_false]
  tauto

theorem splayLoop_ok :
    ∀ (f : Nat) (ctx : List (Bool × Int × Tr)) (s : St) (v : Int) (A B : Tr),
      ctx.length < f →
      enc s (ctxPar ctx) v (Tr.node A v B) = true →
      encCtx s ctx v = true →
      (keys (Tr.node A v B) ++ ctxKeys ctx).Nodup →
      ∃ (s' : St) (A' B' : Tr),
        splayLoop f v s = some s' ∧
        enc s' (-1) v (Tr.node A' v B') = true ∧
        keys (Tr.node A' v B') = keys (plug ctx (Tr.node A v B)) ∧
        s'.head = s.head ∧ s'.next = s.next ∧
        (∀ k, k ∉ keys (Tr.node A v B) ++ ctxKeys ctx →
          s'.parent k = s.parent k ∧ s'.left k = s.left k ∧ s'.right k = s.right k) := by
  intro f
  induction f with
  | zero => intro ctx s v A B hf _ _ _; omega
  | succ f ih =>
    rintro (_ | ⟨⟨side, w, C⟩, rest⟩) s v A B hf henc hctx hnd
    · have hpv : s.parent v = -1 := (enc_node_iff.mp henc).2.2.1
      refine ⟨s, A, B, ?_, henc, rfl, rfl, rfl, fun k _ => ⟨rfl, rfl, rfl⟩⟩
      simp [splayLoop, hpv]
    · obtain ⟨-, hv0, hpv, hA, hB⟩ := enc_node_iff.mp henc
      have hpvw : s.parent v = w := hpv
      have hsub : enc s w v (Tr.node A v B) = true := henc
      rcases side with _ | _
      · -- v is the right child of w
        have hdec := hctx
        rw [encCtx_cons_false] at hdec
        obtain ⟨hw0, hpw, hrw, hC, hrest⟩ := hdec
        have hwne : ¬(w = -1) := by omega
        have hlwv : ¬(v = s.left w) := by
          have hroot : s.left w = rootH C := enc_rootH hC
          rw [hroot]
          rcases rootH_cases C with h | h
          · rw [h]; omega
          · intro he
            have hvC : v ∈ keys C := by rw [he]; exact h
            have hdisj := (List.nodup_append.mp hnd).2.2
            exact hdisj (show v ∈ keys (Tr.node A v B) by simp [keys])
              (show v ∈ ctxKeys ((false, w, C) :: rest) by simp [ctxKeys, hvC])
        rcases rest with _ | ⟨⟨side2, u, D⟩, rest2⟩
        · -- single zag
          obtain ⟨henc1, -, hfr1⟩ := zag_enc hsub hctx hnd
          have hperm1 : (keys (Tr.node (Tr.node C w A) v B) ++
              ctxKeys ([] : List (Bool × Int × Tr))).Perm
              (keys (Tr.node A v B) ++ ctxKeys ((false, w, C) ::
                ([] : List (Bool × Int × Tr)))) := by
            rw [List.perm_iff_count]
            intro x
            simp only [keys, ctxKeys, List.count_append, List.count_cons, List.count_nil]
            ring
          obtain ⟨s', A', B', heqI, hencI, hkeysI, hhI, hnI, hfrI⟩ :=
            ih [] (zag v s) v (Tr.node C w A) B
              (by simp only [List.length_cons, List.length_nil] at hf ⊢; omega)
              henc1 rfl (hperm1.symm.nodup hnd)
          refine ⟨s', A', B', ?_, hencI, ?_, ?_, ?_, ?_⟩
          · have hstep : splayLoop (f + 1) v s = splayLoop f v (zag v s) := by
              simp only [splayLoop]
              rw [hpvw]
              rw [if_neg hwne, if_neg hlwv]
              rw [show s.parent w = -1 from hpw, if_pos rfl]
            rw [hstep, heqI]
          · rw [hkeysI]
            simp [plug, keys, List.append_assoc, List.cons_append]
          · rw [hhI, zag_head]
          · rw [hnI, zag_next]
          · intro k hk
            obtain ⟨e1, e2, e3⟩ := hfrI k (fun hmem => hk (hperm1.mem_iff.mp hmem))
            obtain ⟨d1, d2, d3⟩ := hfr1 k hk
            exact ⟨e1.trans d1, e2.trans d2, e3.trans d3⟩
        · have hpwu : s.parent w = u := hpw
          rcases side2 with _ | _
          · -- zag-zag: w is the right child of u
            have hdec2 := hrest
            rw [encCtx_cons_false] at hdec2
            obtain ⟨hu0, hpu, hru, hD, hrest2⟩ := hdec2
            have hune : ¬(u = -1) := by omega
            have hluw : ¬(w = s.left u) := by
              have hroot : s.left u = rootH D := enc_rootH hD
              rw [hroot]
              rcases rootH_cases D with h | h
              · rw [h]; omega
              · intro he
                have hwD : w ∈ keys D := by rw [he]; exact h
                have hcnd : (ctxKeys ((false, w, C) :: (false, u, D) :: rest2)).Nodup :=
                  (List.nodup_append.mp hnd).2.1
                rw [show ctxKeys ((false, w, C) :: (false, u, D) :: rest2)
                    = w :: (keys C ++ (u :: (keys D ++ ctxKeys rest2))) from rfl,
                  List.nodup_cons] at hcnd
                exact hcnd.1 (by simp [hwD])
            have hsubW : enc s u w (Tr.node C w (Tr.node A v B)) = true := by
              rw [enc_node_iff]
              refine ⟨rfl, hw0, hpwu, hC, ?_⟩
              rw [hrw]
              exact henc
            have hpermW : (keys (Tr.node C w (Tr.node A v B)) ++
                ctxKeys ((false, u, D) :: rest2)).Perm
                (keys (Tr.node A v B) ++
                  ctxKeys ((false, w, C) :: (false, u, D) :: rest2)) := by
              rw [List.perm_iff_count]
              intro x
              simp only [keys, ctxKeys, List.count_append, List.count_cons, List.count_nil]
              ring
            obtain ⟨hencW, hctxW2, hfrW⟩ := zag_enc hsubW hrest (hpermW.symm.nodup hnd)
            obtain ⟨-, -, hpw1, hL1, hR1⟩ := enc_node_iff.mp hencW
            have hrw1 : (zag w s).right w = v := enc_rootH hR1
            have hsubV : enc (zag w s) w v (Tr.node A v B) = true := hrw1 ▸ hR1
            have hctxV : encCtx (zag w s) ((false, w, Tr.node D u C) :: rest2) v = true := by
              rw [encCtx_cons_false]
              exact ⟨hw0, hpw1, hrw1, hL1, hctxW2⟩
            have hpermV : (keys (Tr.node A v B) ++
                ctxKeys ((false, w, Tr.node D u C) :: rest2)).Perm
                (keys (Tr.node A v B) ++
                  ctxKeys ((false, w, C) :: (false, u, D) :: rest2)) := by
              rw [List.perm_iff_count]
              intro x
              simp only [keys, ctxKeys, List.count_append, List.count_cons, List.count_nil]
              ring
            obtain ⟨hencV, hctxV2, hfrV⟩ := zag_enc hsubV hctxV (hpermV.symm.nodup hnd)
            have hpermI : (keys (Tr.node (Tr.node (Tr.node D u C) w A) v B) ++
                ctxKeys rest2).Perm
                (keys (Tr.node A v B) ++
                  ctxKeys ((false, w, C) :: (false, u, D) :: rest2)) := by
              rw [List.perm_iff_count]
              intro x
              simp only [keys, ctxKeys, List.count_append, List.count_cons, List.count_nil]
              ring
            obtain ⟨s', A', B', heqI, hencI, hkeysI, hhI, hnI, hfrI⟩ :=
              ih rest2 (zag v (zag w s)) v (Tr.node (Tr.node D u C) w A) B
                (by simp only [List.length_cons] at hf; omega)
                hencV hctxV2 (hpermI.symm.nodup hnd)
            refine ⟨s', A', B', ?_, hencI, ?_, ?_, ?_, ?_⟩
            · have hstep : splayLoop (f + 1) v s = splayLoop f v (zag v (zag w s)) := by
                simp only [splayLoop]
                rw [hpvw]
                rw [if_neg hwne, if_neg hlwv]
                rw [hpwu, if_neg hune]
                rw [if_neg hluw]
              rw [hstep, heqI]
            · rw [hkeysI, keys_plug_pre_post, keys_plug_pre_post]
              simp [keys, ctxPre, ctxPost, List.append_assoc, List.cons_append]
            · rw [hhI, zag_head, zag_head]
            · rw [hnI, zag_next, zag_next]
            · intro k hk
              obtain ⟨e1, e2, e3⟩ := hfrI k (fun hmem => hk (hpermI.mem_iff.mp hmem))
              obtain ⟨f1, f2, f3⟩ := hfrV k (fun hmem => hk (hpermV.mem_iff.mp hmem))
              obtain ⟨g1, g2, g3⟩ := hfrW k (fun hmem => hk (hpermW.mem_iff.mp hmem))
              exact ⟨e1.trans (f1.trans g1), e2.trans (f2.trans g2), e3.trans (f3.trans g3)⟩
          · -- zag-zig: w is the left child of u
            have hdec2 := hrest
            rw [encCtx_cons_true] at hdec2
            obtain ⟨hu0, hpu, hlu, hD, hrest2⟩ := hdec2
            have hune : ¬(u = -1) := by omega
            obtain ⟨henc1, hctx1, hfr1⟩ := zag_enc hsub hctx hnd
            have hsub2 : enc (zag v s) u v (Tr.node (Tr.node C w A) v B) = true := henc1
            have hperm2 : (keys (Tr.node (Tr.node C w A) v B) ++
                ctxKeys ((true, u, D) :: rest2)).Perm
                (keys (Tr.node A v B) ++
                  ctxKeys ((false, w, C) :: (true, u, D) :: rest2)) := by
              rw [List.perm_iff_count]
              intro x
              simp only [keys, ctxKeys, List.count_append, List.count_cons, List.count_nil]
              ring
            obtain ⟨henc2, hctx2, hfr2⟩ := zig_enc hsub2 hctx1 (hperm2.symm.nodup hnd)
            have hpermI : (keys (Tr.node (Tr.node C w A) v (Tr.node B u D)) ++
                ctxKeys rest2).Perm
                (keys (Tr.node A v B) ++
                  ctxKeys ((false, w, C) :: (true, u, D) :: rest2)) := by
              rw [List.perm_iff_count]
              intro x
              simp only [keys, ctxKeys, List.count_append, List.count_cons, List.count_nil]
              ring
            obtain ⟨s', A', B', heqI, hencI, hkeysI, hhI, hnI, hfrI⟩ :=
              ih rest2 (zig v (zag v s)) v (Tr.node C w A) (Tr.node B u D)
                (by simp only [List.length_cons] at hf; omega)
                henc2 hctx2 (hpermI.symm.nodup hnd)
            refine ⟨s', A', B', ?_, hencI, ?_, ?_, ?_, ?_⟩
            · have hstep : splayLoop (f + 1) v s = splayLoop f v (zig v (zag v s)) := by
                simp only [splayLoop]
                rw [hpvw]
                rw [if_neg hwne, if_neg hlwv]
                rw [hpwu, if_neg hune]
                rw [hlu, if_pos rfl]
              rw [hstep, heqI]
            · rw [hkeysI, keys_plug_pre_post, keys_plug_pre_post]
              simp [keys, ctxPre, ctxPost, List.append_assoc, List.cons_append]
            · rw [hhI, zig_head, zag_head]
            · rw [hnI, zig_next, zag_next]
            · intro k hk
              obtain ⟨e1, e2, e3⟩ := hfrI k (fun hmem => hk (hpermI.mem_iff.mp hmem))
              obtain ⟨f1, f2, f3⟩ := hfr2 k (fun hmem => hk (hperm2.mem_iff.mp hmem))
              obtain ⟨g1, g2, g3⟩ := hfr1 k hk
              exact ⟨e1.trans (f1.trans g1), e2.trans (f2.trans g2), e3.trans (f3.trans g3)⟩
      · -- v is the left child of w
        have hdec := hctx
        rw [encCtx_cons_true] at hdec
        obtain ⟨hw0, hpw, hlw, hC, hrest⟩ := hdec
        have hwne : ¬(w = -1) := by omega
        rcases rest with _ | ⟨⟨side2, u, D⟩, rest2⟩
        · -- single zig
          obtain ⟨henc1, -, hfr1⟩ := zig_enc hsub hctx hnd
          have hperm1 : (keys (Tr.node A v (Tr.node B w C)) ++
              ctxKeys ([] : List (Bool × Int × Tr))).Perm
              (keys (Tr.node A v B) ++ ctxKeys ((true, w, C) ::
                ([] : List (Bool × Int × Tr)))) := by
            rw [List.perm_iff_count]
            intro x
            simp only [keys, ctxKeys, List.count_append, List.count_cons, List.count_nil]
            ring
          obtain ⟨s', A', B', heqI, hencI, hkeysI, hhI, hnI, hfrI⟩ :=
            ih [] (zig v s) v A (Tr.node B w C)
              (by simp only [List.length_cons, List.length_nil] at hf ⊢; omega)
              henc1 rfl (hperm1.symm.nodup hnd)
          refine ⟨s', A', B', ?_, hencI, ?_, ?_, ?_, ?_⟩
          · have hstep : splayLoop (f + 1) v s = splayLoop f v (zig v s) := by
              simp only [splayLoop]
              rw [hpvw, hlw]
              rw [if_neg hwne, if_pos rfl]
              rw [show s.parent w = -1 from hpw, if_pos rfl]
            rw [hstep, heqI]
          · rw [hkeysI]
            simp [plug, keys, List.append_assoc, List.cons_append]
          · rw [hhI, zig_head]
          · rw [hnI, zig_next]
          · intro k hk
            obtain ⟨e1, e2, e3⟩ := hfrI k (fun hmem => hk (hperm1.mem_iff.mp hmem))
            obtain ⟨d1, d2, d3⟩ := hfr1 k hk
            exact ⟨e1.trans d1, e2.trans d2, e3.trans d3⟩
        · have hpwu : s.parent w = u := hpw
          rcases side2 with _ | _
          · -- zig-zag: w is the right child of u
            have hdec2 := hrest
            rw [encCtx_cons_false] at hdec2
            obtain ⟨hu0, hpu, hru, hD, hrest2⟩ := hdec2
            have hune : ¬(u = -1) := by omega
            have hluw : ¬(w = s.left u) := by
              have hroot : s.left u = rootH D := enc_rootH hD
              rw [hroot]
              rcases rootH_cases D with h | h
              · rw [h]; omega
              · intro he
                have hwD : w ∈ keys D := by rw [he]; exact h
                have hcnd : (ctxKeys ((true, w, C) :: (false, u, D) :: rest2)).Nodup :=
                  (List.nodup_append.mp hnd).2.1
                rw [show ctxKeys ((true, w, C) :: (false, u, D) :: rest2)
                    = w :: (keys C ++ (u :: (keys D ++ ctxKeys rest2))) from rfl,
                  List.nodup_cons] at hcnd
                exact hcnd.1 (by simp [hwD])
            obtain ⟨henc1, hctx1, hfr1⟩ := zig_enc hsub hctx hnd
            have hsub2 : enc (zig v s) u v (Tr.node A v (Tr.node B w C)) = true := henc1
            have hperm2 : (keys (Tr.node A v (Tr.node B w C)) ++
                ctxKeys ((false, u, D) :: rest2)).Perm
                (keys (Tr.node A v B) ++
                  ctxKeys ((true, w, C) :: (false, u, D) :: rest2)) := by
              rw [List.perm_iff_count]
              intro x
              simp only [keys, ctxKeys, List.count_append, List.count_cons, List.count_nil]
              ring
            obtain ⟨henc2, hctx2, hfr2⟩ := zag_enc hsub2 hctx1 (hperm2.symm.nodup hnd)
            have hpermI : (keys (Tr.node (Tr.node D u A) v (Tr.node B w C)) ++
                ctxKeys rest2).Perm
                (keys (Tr.node A v B) ++
                  ctxKeys ((true, w, C) :: (false, u, D) :: rest2)) := by
              rw [List.perm_iff_count]
              intro x
              simp only [keys, ctxKeys, List.count_append, List.count_cons, List.count_nil]
              ring
            obtain ⟨s', A', B', heqI, hencI, hkeysI, hhI, hnI, hfrI⟩ :=
              ih rest2 (zag v (zig v s)) v (Tr.node D u A) (Tr.node B w C)
                (by simp only [List.length_cons] at hf; omega)
                henc2 hctx2 (hpermI.symm.nodup hnd)
            refine ⟨s', A', B', ?_, hencI, ?_, ?_, ?_, ?_⟩
            · have hstep : splayLoop (f + 1) v s = splayLoop f v (zag v (zig v s)) := by
                simp only [splayLoop]
                rw [hpvw, hlw]
                rw [if_neg hwne, if_pos rfl]
                rw [hpwu, if_neg hune]
                rw [if_neg hluw]
              rw [hstep, heqI]
            · rw [hkeysI, keys_plug_pre_post, keys_plug_pre_post]
              simp [keys, ctxPre, ctxPost, List.append_assoc, List.cons_append]
            · rw [hhI, zag_head, zig_head]
            · rw [hnI, zag_next, zig_next]
            · intro k hk
              obtain ⟨e1, e2, e3⟩ := hfrI k (fun hmem => hk (hpermI.mem_iff.mp hmem))
              obtain ⟨f1, f2, f3⟩ := hfr2 k (fun hmem => hk (hperm2.mem_iff.mp hmem))
              obtain ⟨g1, g2, g3⟩ := hfr1 k hk
              exact ⟨e1.trans (f1.trans g1), e2.trans (f2.trans g2), e3.trans (f3.trans g3)⟩
          · -- zig-zig: w is the left child of u
            have hdec2 := hrest
            rw [encCtx_cons_true] at hdec2
            obtain ⟨hu0, hpu, hlu, hD, hrest2⟩ := hdec2
            have hune : ¬(u = -1) := by omega
            have hsubW : enc s u w (Tr.node (Tr.node A v B) w C) = true := by
              rw [enc_node_iff]
              refine ⟨rfl, hw0, hpwu, ?_, hC⟩
              rw [hlw]
              exact henc
            have hpermW : (keys (Tr.node (Tr.node A v B) w C) ++
                ctxKeys ((true, u, D) :: rest2)).Perm
                (keys (Tr.node A v B) ++
                  ctxKeys ((true, w, C) :: (true, u, D) :: rest2)) := by
              rw [List.perm_iff_count]
              intro x
              simp only [keys, ctxKeys, List.count_append, List.count_cons, List.count_nil]
              ring
            obtain ⟨hencW, hctxW2, hfrW⟩ := zig_enc hsubW hrest (hpermW.symm.nodup hnd)
            obtain ⟨-, -, hpw1, hL1, hR1⟩ := enc_node_iff.mp hencW
            have hlw1 : (zig w s).left w = v := enc_rootH hL1
            have hsubV : enc (zig w s) w v (Tr.node A v B) = true := hlw1 ▸ hL1
            have hctxV : encCtx (zig w s) ((true, w, Tr.node C u D) :: rest2) v = true := by
              rw [encCtx_cons_true]
              exact ⟨hw0, hpw1, hlw1, hR1, hctxW2⟩
            have hpermV : (keys (Tr.node A v B) ++
                ctxKeys ((true, w, Tr.node C u D) :: rest2)).Perm
                (keys (Tr.node A v B) ++
                  ctxKeys ((true, w, C) :: (true, u, D) :: rest2)) := by
              rw [List.perm_iff_count]
              intro x
              simp only [keys, ctxKeys, List.count_append, List.count_cons, List.count_nil]
              ring
            obtain ⟨hencV, hctxV2, hfrV⟩ := zig_enc hsubV hctxV (hpermV.symm.nodup hnd)
            have hpermI : (keys (Tr.node A v (Tr.node B w (Tr.node C u D))) ++
                ctxKeys rest2).Perm
                (keys (Tr.node A v B) ++
                  ctxKeys ((true, w, C) :: (true, u, D) :: rest2)) := by
              rw [List.perm_iff_count]
              intro x
              simp only [keys, ctxKeys, List.count_append, List.count_cons, List.count_nil]
              ring
            obtain ⟨s', A', B', heqI, hencI, hkeysI, hhI, hnI, hfrI⟩ :=
              ih rest2 (zig v (zig w s)) v A (Tr.node B w (Tr.node C u D))
                (by simp only [List.length_cons] at hf; omega)
                hencV hctxV2 (hpermI.symm.nodup hnd)
            refine ⟨s', A', B', ?_, hencI, ?_, ?_, ?_, ?_⟩
            · have hstep : splayLoop (f + 1) v s = splayLoop f v (zig v (zig w s)) := by
                simp only [splayLoop]
                rw [hpvw, hlw]
                rw [if_neg hwne, if_pos rfl]
                rw [hpwu, if_neg hune]
                rw [hlu, if_pos rfl]
              rw [hstep, heqI]
            · rw [hkeysI, keys_plug_pre_post, keys_plug_pre_post]
              simp [keys, ctxPre, ctxPost, List.append_assoc, List.cons_append]
            · rw [hhI, zig_head, zig_head]
            · rw [hnI, zig_next, zig_next]
            · intro k hk
              obtain ⟨e1, e2, e3⟩ := hfrI k (fun hmem => hk (hpermI.mem_iff.mp hmem))
              obtain ⟨f1, f2, f3⟩ := hfrV k (fun hmem => hk (hpermV.mem_iff.mp hmem))
              obtain ⟨g1, g2, g3⟩ := hfrW k (fun hmem => hk (hpermW.mem_iff.mp hmem))
              exact ⟨e1.trans (f1.trans g1), e2.trans (f2.trans g2), e3.trans (f3.trans g3)⟩

theorem dynLookupLoop_ok (g : Digraph) (n t : Int) (sfuel : Nat)
    (hsrc : ∀ k ∈ outArcs g n, srcOf g k = some n ∧ ∃ tk, tgtOf g k = some tk) :
    ∀ (f : Nat) (A B : Tr) (a : Int) (ctx : List (Bool × Int × Tr)) (s : St),
      enc s (ctxPar ctx) a (Tr.node A a B) = true →
      encCtx s ctx a = true →
      (keys (Tr.node A a B) ++ ctxKeys ctx).Nodup →
      (∀ k ∈ keys (Tr.node A a B) ++ ctxKeys ctx, k ∈ outArcs g n) →
      List.Sorted (leTgt g) (keys (Tr.node A a B)) →
      (∀ k ∈ ctxKeys ctx, tgtD g k ≠ t) →
      (keys (Tr.node A a B)).length ≤ f →
      ctx.length + (keys (Tr.node A a B)).length < sfuel →
      ∃ (s' : St) (r x : Int) (A' B' : Tr),
        dynLookupLoop g sfuel f a t s = some (s', r) ∧
        enc s' (-1) x (Tr.node A' x B') = true ∧
        keys (Tr.node A' x B') = keys (plug ctx (Tr.node A a B)) ∧
        s'.head = upd s.head n x ∧ s'.next = s.next ∧
        (∀ k, k ∉ keys (Tr.node A a B) ++ ctxKeys ctx →
          s'.parent k = s.parent k ∧ s'.left k = s.left k ∧ s'.right k = s.right k) ∧
        (r ≠ -1 → r ∈ keys (Tr.node A a B) ∧ tgtD g r = t) ∧
        (r = -1 → ∀ k ∈ keys (Tr.node A a B), tgtD g k ≠ t) := by
  intro f
  induction f with
  | zero =>
    intro A B a ctx s _ _ _ _ _ _ hlen _
    simp only [keys, List.length_append, List.length_cons] at hlen
    omega
  | succ f ih =>
    intro A B a ctx s henc hctx hnd hmem hsort hout hlen hsf
    obtain ⟨-, ha0, hpa, hA, hB⟩ := enc_node_iff.mp henc
    have hamem : a ∈ outArcs g n := hmem a (by simp [keys])
    obtain ⟨hsrca, ta, hta⟩ := hsrc a hamem
    have htaD : tgtD g a = ta := by simp [tgtD, hta]
    have hsortD := hsort
    rw [show keys (Tr.node A a B) = keys A ++ a :: keys B from rfl, List.Sorted,
      List.pairwise_append] at hsortD
    obtain ⟨hsA, hsaB, hAB⟩ := hsortD
    rw [List.pairwise_cons] at hsaB
    obtain ⟨haB, hsB⟩ := hsaB
    have hsctx : ctx.length < sfuel := by
      simp only [keys, List.length_append, List.length_cons] at hsf
      omega
    by_cases hfound : ta = t
    · obtain ⟨s1, A', B', heqS, hencS, hkeysS, hhS, hnS, hfrS⟩ :=
        splayLoop_ok sfuel ctx s a A B hsctx henc hctx hnd
      refine ⟨{ s1 with head := upd s1.head n a }, a, a, A', B', ?_, ?_, hkeysS, ?_, hnS,
        ?_, ?_, ?_⟩
      · have hstep : dynLookupLoop g sfuel (f + 1) a t s = (do
            let s1 ← splay g sfuel a s
            pure (s1, a)) := by
          simp only [dynLookupLoop, hta, Option.bind_eq_bind, Option.some_bind]
          rw [if_pos hfound]
        rw [hstep]
        simp only [splay, heqS, hsrca, Option.bind_eq_bind, Option.some_bind, Option.pure_def]
      · exact enc_frame hencS (fun k _ => ⟨rfl, rfl, rfl⟩)
      · show upd s1.head n a = upd s.head n a
        rw [hhS]
      · exact fun k hk => hfrS k hk
      · intro _
        exact ⟨by simp [keys], htaD.trans hfound⟩
      · intro h
        exact absurd h (by omega)
    · by_cases hlt : t < ta
      · by_cases hla : s.left a = -1
        · have hAleaf : A = Tr.leaf := by
            cases hAc : A with
            | leaf => rfl
            | node Al ax Ar =>
              rw [hAc] at hA
              obtain ⟨hx, hax0, -, -, -⟩ := enc_node_iff.mp hA
              omega
          subst hAleaf
          obtain ⟨s1, A', B', heqS, hencS, hkeysS, hhS, hnS, hfrS⟩ :=
            splayLoop_ok sfuel ctx s a Tr.leaf B hsctx henc hctx hnd
          refine ⟨{ s1 with head := upd s1.head n a }, -1, a, A', B', ?_, ?_, hkeysS, ?_, hnS,
            ?_, ?_, ?_⟩
          · have hstep : dynLookupLoop g sfuel (f + 1) a t s = (do
                let s1 ← splay g sfuel a s
                pure (s1, -1)) := by
              simp only [dynLookupLoop, hta, Option.bind_eq_bind, Option.some_bind]
              rw [if_neg hfound, if_pos hlt, if_pos hla]
            rw [hstep]
            simp only [splay, heqS, hsrca, Option.bind_eq_bind, Option.some_bind,
              Option.pure_def]
          · exact enc_frame hencS (fun k _ => ⟨rfl, rfl, rfl⟩)
          · show upd s1.head n a = upd s.head n a
            rw [hhS]
          · exact fun k hk => hfrS k hk
          · intro h
            exact absurd rfl h
          · intro _ k hk
            rcases (by simpa [keys] using hk : k = a ∨ k ∈ keys B) with h1 | h2
            · subst h1
              rw [htaD]
              exact hfound
            · have hle := haB k h2
              simp only [leTgt] at hle
              rw [htaD] at hle
              omega
        · cases hAc : A with
          | leaf =>
            rw [hAc] at hA
            exact absurd (by simpa [enc] using hA) hla
          | node Al ax Ar =>
            subst hAc
            obtain ⟨hlax, hax0, hpax, hAl, hAr⟩ := enc_node_iff.mp hA
            have hsub2 : enc s (ctxPar ((true, a, B) :: ctx)) ax (Tr.node Al ax Ar)
                = true := by
              have h2 := hA
              rw [hlax] at h2
              exact h2
            have hctx2 : encCtx s ((true, a, B) :: ctx) ax = true := by
              rw [encCtx_cons_true]
              exact ⟨ha0, hpa, hlax, hB, hctx⟩
            have hpermL : (keys (Tr.node Al ax Ar) ++ ctxKeys ((true, a, B) :: ctx)).Perm
                (keys (Tr.node (Tr.node Al ax Ar) a B) ++ ctxKeys ctx) := by
              rw [List.perm_iff_count]
              intro x
              simp only [keys, ctxKeys, List.count_append, List.count_cons, List.count_nil]
              ring
            obtain ⟨s', r, x, A', B', heqI, hencI, hkeysI, hhI, hnI, hfrI, hrne, hreq⟩ :=
              ih Al Ar ax ((true, a, B) :: ctx) s hsub2 hctx2 (hpermL.symm.nodup hnd)
                (fun k hk => hmem k (hpermL.mem_iff.mp hk)) hsA
                (by
                  intro k hk
                  rcases (by simpa [ctxKeys] using hk :
                      k = a ∨ k ∈ keys B ∨ k ∈ ctxKeys ctx) with h1 | h2 | h3
                  · subst h1
                    rw [htaD]
                    exact hfound
                  · have hle := haB k h2
                    simp only [leTgt] at hle
                    rw [htaD] at hle
                    omega
                  · exact hout k h3)
                (by simp only [keys, List.length_append, List.length_cons] at hlen ⊢; omega)
                (by simp only [keys, List.length_append, List.length_cons,
                      List.length_nil] at hsf ⊢
                    omega)
            refine ⟨s', r, x, A', B', ?_, hencI, hkeysI, hhI, hnI, ?_, ?_, ?_⟩
            · have hstep : dynLookupLoop g sfuel (f + 1) a t s
                  = dynLookupLoop g sfuel f (s.left a) t s := by
                simp only [dynLookupLoop, hta, Option.bind_eq_bind, Option.some_bind]
                rw [if_neg hfound, if_pos hlt, if_neg hla]
              rw [hstep, hlax]
              exact heqI
            · exact fun k hk => hfrI k (fun hm => hk (hpermL.mem_iff.mp hm))
            · intro hr
              obtain ⟨h1, h2⟩ := hrne hr
              exact ⟨List.mem_append.mpr (Or.inl h1), h2⟩
            · intro hr k hk
              rcases (by simpa [keys] using hk :
                  k ∈ keys Al ∨ k = ax ∨ k ∈ keys Ar ∨ k = a ∨ k ∈ keys B)
                  with h1 | h2 | h3 | h4 | h5
              · exact hreq hr k (by simp [keys, h1])
              · exact hreq hr k (by simp [keys, h2])
              · exact hreq hr k (by simp [keys, h3])
              · subst h4
                rw [htaD]
                exact hfound
              · have hle := haB k h5
                simp only [leTgt] at hle
                rw [htaD] at hle
                omega
      · by_cases hra : s.right a = -1
        · have hBleaf : B = Tr.leaf := by
            cases hBc : B with
            | leaf => rfl
            | node Bl bx Br =>
              rw [hBc] at hB
              obtain ⟨hx, hbx0, -, -, -⟩ := enc_node_iff.mp hB
              omega
          subst hBleaf
          obtain ⟨s1, A', B', heqS, hencS, hkeysS, hhS, hnS, hfrS⟩ :=
            splayLoop_ok sfuel ctx s a A Tr.leaf hsctx henc hctx hnd
          refine ⟨{ s1 with head := upd s1.head n a }, -1, a, A', B', ?_, ?_, hkeysS, ?_, hnS,
            ?_, ?_, ?_⟩
          · have hstep : dynLookupLoop g sfuel (f + 1) a t s = (do
                let s1 ← splay g sfuel a s
                pure (s1, -1)) := by
              simp only [dynLookupLoop, hta, Option.bind_eq_bind, Option.some_bind]
              rw [if_neg hfound, if_neg hlt, if_pos hra]
            rw [hstep]
            simp only [splay, heqS, hsrca, Option.bind_eq_bind, Option.some_bind,
              Option.pure_def]
          · exact enc_frame hencS (fun k _ => ⟨rfl, rfl, rfl⟩)
          · show upd s1.head n a = upd s.head n a
            rw [hhS]
          · exact fun k hk => hfrS k hk
          · intro h
            exact absurd rfl h
          · intro _ k hk
            rcases (by simpa [keys] using hk : k ∈ keys A ∨ k = a) with h1 | h2
            · have hle := hAB k h1 a (by simp)
              simp only [leTgt] at hle
              rw [htaD] at hle
              omega
            · subst h2
              rw [htaD]
              exact hfound
        · cases hBc : B with
          | leaf =>
            rw [hBc] at hB
            exact absurd (by simpa [enc] using hB) hra
          | node Bl bx Br =>
            subst hBc
            obtain ⟨hrax, hbx0, hpbx, hBl, hBr⟩ := enc_node_iff.mp hB
            have hsub2 : enc s (ctxPar ((false, a, A) :: ctx)) bx (Tr.node Bl bx Br)
                = true := by
              have h2 := hB
              rw [hrax] at h2
              exact h2
            have hctx2 : encCtx s ((false, a, A) :: ctx) bx = true := by
              rw [encCtx_cons_false]
              exact ⟨ha0, hpa, hrax, hA, hctx⟩
            have hpermL : (keys (Tr.node Bl bx Br) ++ ctxKeys ((false, a, A) :: ctx)).Perm
                (keys (Tr.node A a (Tr.node Bl bx Br)) ++ ctxKeys ctx) := by
              rw [List.perm_iff_count]
              intro x
              simp only [keys, ctxKeys, List.count_append, List.count_cons, List.count_nil]
              ring
            obtain ⟨s', r, x, A', B', heqI, hencI, hkeysI, hhI, hnI, hfrI, hrne, hreq⟩ :=
              ih Bl Br bx ((false, a, A) :: ctx) s hsub2 hctx2 (hpermL.symm.nodup hnd)
                (fun k hk => hmem k (hpermL.mem_iff.mp hk)) hsB
                (by
                  intro k hk
                  rcases (by simpa [ctxKeys] using hk :
                      k = a ∨ k ∈ keys A ∨ k ∈ ctxKeys ctx) with h1 | h2 | h3
                  · subst h1
                    rw [htaD]
                    exact hfound
                  · have hle := hAB k h2 a (by simp)
                    simp only [leTgt] at hle
                    rw [htaD] at hle
                    omega
                  · exact hout k h3)
                (by simp only [keys, List.length_append, List.length_cons] at hlen ⊢; omega)
                (by simp only [keys, List.length_append, List.length_cons,
                      List.length_nil] at hsf ⊢
                    omega)
            refine ⟨s', r, x, A', B', ?_, hencI, hkeysI, hhI, hnI, ?_, ?_, ?_⟩
            · have hstep : dynLookupLoop g sfuel (f + 1) a t s
                  = dynLookupLoop g sfuel f (s.right a) t s := by
                simp only [dynLookupLoop, hta, Option.bind_eq_bind, Option.some_bind]
                rw [if_neg hfound, if_neg hlt, if_neg hra]
              rw [hstep, hrax]
              exact heqI
            · exact fun k hk => hfrI k (fun hm => hk (hpermL.mem_iff.mp hm))
            · intro hr
              obtain ⟨h1, h2⟩ := hrne hr
              refine ⟨?_, h2⟩
              show r ∈ keys A ++ a :: keys (Tr.node Bl bx Br)
              simp only [List.mem_append, List.mem_cons]
              right
              right
              exact h1
            · intro hr k hk
              rcases (by simpa [keys] using hk :
                  k ∈ keys A ∨ k = a ∨ k ∈ keys Bl ∨ k = bx ∨ k ∈ keys Br)
                  with h1 | h2 | h3 | h4 | h5
              · have hle := hAB k h1 a (by simp)
                simp only [leTgt] at hle
                rw [htaD] at hle
                omega
              · subst h2
                rw [htaD]
                exact hfound
              · exact hreq hr k (by simp [keys, h3])
              · exact hreq hr k (by simp [keys, h4])
              · exact hreq hr k (by simp [keys, h5])

/-- `DynArcLookUp::operator()(s,t)` on a state satisfying the dynamic
invariant, for a source node with at least one outgoing arc: the call
succeeds, preserves the invariant, and answers the not-found sentinel
exactly when no arc from `n` to `t` exists. -/
theorem dynLookup_ok (g : Digraph) (hg : WFg g) (s : St) (hinv : InvD g s)
    (n : Int) (hn : n ∈ g.nodes) (hne : outArcs g n ≠ []) (t : Int) :
    ∃ (s' : St) (r : Int), dynLookup g s n t (g.arcs.length + 1) = some (s', r) ∧
      InvD g s' ∧
      (r ≠ -1 ↔ ∃ a ∈ outArcs g n, tgtD g a = t) ∧
      (r ≠ -1 → r ∈ outArcs g n ∧ srcOf g r = some n ∧ tgtOf g r = some t) := by
  obtain ⟨T, hencT, hpermT, hsortT⟩ := hinv n hn
  cases hTc : T with
  | leaf =>
    rw [hTc] at hpermT
    exact absurd (List.Perm.eq_nil hpermT.symm) hne
  | node A a B =>
    subst hTc
    have hhead : s.head n = a := (enc_node_iff.mp hencT).1
    have hsrcF : ∀ k ∈ outArcs g n, srcOf g k = some n ∧ ∃ tk, tgtOf g k = some tk :=
      fun k hk => ⟨outArcs_src hg hk, outArcs_tgt hg hk⟩
    have hndT : (keys (Tr.node A a B)).Nodup := hpermT.nodup_iff.mpr (outArcs_nodup hg n)
    have henc0 : enc s (ctxPar []) a (Tr.node A a B) = true := by
      rw [hhead] at hencT
      exact hencT
    have hlenT : (keys (Tr.node A a B)).length ≤ g.arcs.length := by
      have h1 := hpermT.length_eq
      have h2 := outArcs_length_le g n
      omega
    obtain ⟨s', r, x, A', B', heq, hencF, hkeysF, hhF, hnF, hfrF, hrne, hreq⟩ :=
      dynLookupLoop_ok g n t (g.arcs.length + 1) hsrcF (g.arcs.length + 1)
        A B a [] s henc0 rfl (by simpa [ctxKeys] using hndT)
        (fun k hk => hpermT.mem_iff.mp (by simpa [ctxKeys] using hk)) hsortT
        (fun k hk => absurd hk (List.not_mem_nil k))
        (by omega)
        (by simp only [List.length_nil]; omega)
    refine ⟨s', r, ?_, ?_, ?_, ?_⟩
    · simp only [dynLookup, hhead]
      exact heq
    · intro n2 hn2
      by_cases hn2n : n2 = n
      · subst hn2n
        refine ⟨Tr.node A' x B', ?_, ?_, ?_⟩
        · rw [hhF, upd_same]
          exact hencF
        · rw [hkeysF]
          exact hpermT
        · rw [hkeysF]
          exact hsortT
      · obtain ⟨T2, henc2, hperm2, hsort2⟩ := hinv n2 hn2
        refine ⟨T2, ?_, hperm2, hsort2⟩
        have hh2 : s'.head n2 = s.head n2 := by
          rw [hhF]
          exact upd_other _ _ hn2n
        rw [hh2]
        refine enc_frame henc2 (fun k hk => ?_)
        refine hfrF k (fun hmem => ?_)
        have hk2 : k ∈ outArcs g n2 := hperm2.mem_iff.mp hk
        have hk1 : k ∈ outArcs g n := hpermT.mem_iff.mp (by simpa [ctxKeys] using hmem)
        exact outArcs_disjoint hg (fun hh => hn2n hh.symm) hk1 hk2
    · constructor
      · intro hr
        obtain ⟨h1, h2⟩ := hrne hr
        exact ⟨r, hpermT.mem_iff.mp h1, h2⟩
      · rintro ⟨a2, hmem2, hta2⟩ hr
        exact hreq hr a2 (hpermT.mem_iff.mpr hmem2) hta2
    · intro hr
      obtain ⟨h1, h2⟩ := hrne hr
      have hout : r ∈ outArcs g n := hpermT.mem_iff.mp h1
      obtain ⟨tr2, htr2⟩ := outArcs_tgt hg hout
      have : tr2 = t := by
        rw [tgtD, htr2] at h2
        simpa using h2
      exact ⟨hout, outArcs_src hg hout, this ▸ htr2⟩

theorem enc_leaf_iff {s : St} {p h : Int} : enc s p h Tr.leaf = true ↔ h = -1 := by
  simp [enc]

theorem encR_node_iff {s : St} {h : Int} {l : Tr} {a : Int} {r : Tr} :
    encR s h (Tr.node l a r) = true ↔
      h = a ∧ 0 ≤ a ∧ enc s a (s.left a) l = true ∧ enc s a (s.right a) r = true := by
  simp only [encR, Bool.and_eq_true, beq_iff_eq, decide_eq_true_eq]
  tauto

theorem encR_root_mem {s : St} {h : Int} {T : Tr} (he : encR s h T = true)
    (h0 : 0 ≤ h) : h ∈ keys T := by
  cases T with
  | leaf =>
    have : h = -1 := by simpa [encR] using he
    omega
  | node l a r =>
    obtain ⟨h1, -, -, -⟩ := encR_node_iff.mp he
    simp [keys, h1]

theorem refreshRecD_ok (v : List Int) (hnd : v.Nodup) (hpos : ∀ x ∈ v, 0 ≤ x) :
    ∀ (f a b : Nat) (s : St), a ≤ b → b < v.length → b + 1 - a ≤ f →
    ∃ (s' : St) (me : Int) (T : Tr),
      refreshRecD v f a b s = some (s', me) ∧
      v.get? ((a + b) / 2) = some me ∧
      encR s' me T = true ∧
      keys T = slice v a b ∧
      s'.head = s.head ∧ s'.next = s.next ∧
      (∀ k, k ∉ slice v a b → s'.parent k = s.parent k ∧ s'.left k = s.left k ∧
        s'.right k = s.right k) := by
  intro f
  induction f with
  | zero => intro a b s hab hb hf; omega
  | succ f ih =>
    intro a b s hab hb hf
    have hm1 : a ≤ (a + b) / 2 := by omega
    have hm2 : (a + b) / 2 ≤ b := by omega
    have hmlen : (a + b) / 2 < v.length := by omega
    obtain ⟨me, hme⟩ : ∃ me, v.get? ((a + b) / 2) = some me := by
      rw [List.get?_eq_get hmlen]
      exact ⟨_, rfl⟩
    have hme0 : 0 ≤ me := hpos me (List.get?_mem hme)
    have hsplit := slice_split v hm1 hm2 hb hme
    have hndab : (slice v a b).Nodup := slice_nodup hnd a b
    rw [hsplit, List.nodup_append] at hndab
    obtain ⟨hndL, hndR0, hdisj⟩ := hndab
    rw [List.nodup_cons] at hndR0
    obtain ⟨hmeR, hndR⟩ := hndR0
    have hmeL : me ∉ (v.drop a).take ((a + b) / 2 - a) :=
      fun h => hdisj h (List.mem_cons_self _ _)
    have hLR : ∀ k ∈ (v.drop a).take ((a + b) / 2 - a), k ∉ slice v ((a + b) / 2 + 1) b :=
      fun k hk hk2 => hdisj hk (List.mem_cons_of_mem _ hk2)
    by_cases ham : a < (a + b) / 2
    · have hkL := slice_left v ham
      obtain ⟨s1, me1, T1, heq1, hme1g, henc1, hkeys1, hh1, hn1, hfr1⟩ :=
        ih a ((a + b) / 2 - 1) s (by omega) (by omega) (by omega)
      have hkeys1' : keys T1 = (v.drop a).take ((a + b) / 2 - a) := by rw [hkeys1, hkL]
      have hndT1 : (keys T1).Nodup := by rw [hkeys1']; exact hndL
      have hT1me : me ∉ keys T1 := by rw [hkeys1']; exact hmeL
      have hT1R : ∀ k ∈ keys T1, k ∉ slice v ((a + b) / 2 + 1) b := by
        rw [hkeys1']
        exact hLR
      have hme10 : 0 ≤ me1 := hpos me1 (List.get?_mem hme1g)
      have hme1T : me1 ∈ keys T1 := encR_root_mem henc1 hme10
      have hencP : enc { { s1 with left := upd s1.left me me1 } with
          parent := upd { s1 with left := upd s1.left me me1 }.parent me1 me }
          me me1 T1 = true := by
        refine encR_to_enc (encR_frame henc1 ?_ ?_ hndT1) (upd_same _ _ _)
        · intro k hk
          refine ⟨?_, rfl⟩
          show upd s1.left me me1 k = s1.left k
          exact upd_other _ _ (fun (he : k = me) => hT1me (show me ∈ keys T1 from he ▸ hk))
        · intro k hk hkme1
          exact upd_other _ _ hkme1
      by_cases hmb : (a + b) / 2 < b
      · obtain ⟨s3, me2, T2, heq2, hme2g, henc2, hkeys2, hh2a, hn2a, hfr2a⟩ :=
          ih ((a + b) / 2 + 1) b { { s1 with left := upd s1.left me me1 } with
            parent := upd { s1 with left := upd s1.left me me1 }.parent me1 me }
            (by omega) (by omega) (by omega)
        have hh2 : s3.head = s1.head := hh2a
        have hn2 : s3.next = s1.next := hn2a
        have hfr2 : ∀ k, k ∉ slice v ((a + b) / 2 + 1) b →
            s3.parent k = upd s1.parent me1 me k ∧ s3.left k = upd s1.left me me1 k ∧
            s3.right k = s1.right k := hfr2a
        have hme20 : 0 ≤ me2 := hpos me2 (List.get?_mem hme2g)
        have hme2T : me2 ∈ keys T2 := encR_root_mem henc2 hme20
        have hme2S : me2 ∈ slice v ((a + b) / 2 + 1) b := by rw [← hkeys2]; exact hme2T
        have hT2me : me ∉ keys T2 := by rw [hkeys2]; exact hmeR
        have hT1me2 : ∀ k ∈ keys T1, k ≠ me2 := fun k hk he =>
          hT1R k hk (show k ∈ slice v ((a + b) / 2 + 1) b by rw [he]; exact hme2S)
        refine ⟨{ { s3 with right := upd s3.right me me2 } with
            parent := upd { s3 with right := upd s3.right me me2 }.parent me2 me },
            me, .node T1 me T2, ?_, hme, ?_, ?_, ?_, ?_, ?_⟩
        · simp only [refreshRecD, hme, Option.bind_eq_bind, Option.some_bind,
            Option.pure_def, if_pos ham, if_pos hmb, heq1, heq2]
        · refine encR_node_iff.mpr ⟨rfl, hme0, ?_, ?_⟩
          · have hXl : upd s3.right me me2 = upd s3.right me me2 := rfl
            have hlme : ({ { s3 with right := upd s3.right me me2 } with
                parent := upd { s3 with right := upd s3.right me me2 }.parent me2 me } :
                St).left me = me1 := by
              show s3.left me = me1
              rw [(hfr2 me hmeR).2.1]
              exact upd_same _ _ _
            rw [hlme]
            refine enc_frame hencP (fun k hk => ⟨?_, ?_, ?_⟩)
            · show upd s3.parent me2 me k = _
              rw [upd_other _ _ (hT1me2 k hk), (hfr2 k (hT1R k hk)).1]
            · show s3.left k = _
              exact (hfr2 k (hT1R k hk)).2.1
            · show upd s3.right me me2 k = _
              rw [upd_other _ _ (fun (he : k = me) => hT1me (show me ∈ keys T1 from he ▸ hk)), (hfr2 k (hT1R k hk)).2.2]
          · have hrme : ({ { s3 with right := upd s3.right me me2 } with
                parent := upd { s3 with right := upd s3.right me me2 }.parent me2 me } :
                St).right me = me2 := by
              show upd s3.right me me2 me = me2
              exact upd_same _ _ _
            rw [hrme]
            refine encR_to_enc (encR_frame henc2 ?_ ?_ ?_) (upd_same _ _ _)
            · intro k hk
              refine ⟨rfl, ?_⟩
              show upd s3.right me me2 k = s3.right k
              exact upd_other _ _ (fun (he : k = me) => hT2me (show me ∈ keys T2 from he ▸ hk))
            · intro k hk hkme2
              show upd s3.parent me2 me k = s3.parent k
              exact upd_other _ _ hkme2
            · rw [hkeys2]
              exact hndR
        · simp only [keys]
          rw [hkeys1', hkeys2, hsplit]
        · show s3.head = s.head
          rw [hh2, hh1]
        · show s3.next = s.next
          rw [hn2, hn1]
        · intro k hk
          rw [hsplit] at hk
          simp only [List.mem_append, List.mem_cons, not_or] at hk
          obtain ⟨hk1, hk2, hk3⟩ := hk
          have hkT1 : k ∉ keys T1 := by rw [hkeys1']; exact hk1
          have hkme1 : k ≠ me1 := fun he => hkT1 (show k ∈ keys T1 by rw [he]; exact hme1T)
          have hkme2 : k ≠ me2 := fun he => hk3 (show k ∈ slice v ((a + b) / 2 + 1) b by rw [he]; exact hme2S)
          have e1 := hfr1 k (by rw [← hkL]; exact hk1)
          have e2 := hfr2 k hk3
          refine ⟨?_, ?_, ?_⟩
          · show upd s3.parent me2 me k = s.parent k
            rw [upd_other _ _ hkme2, e2.1, upd_other _ _ hkme1, e1.1]
          · show s3.left k = s.left k
            rw [e2.2.1, upd_other _ _ hk2, e1.2.1]
          · show upd s3.right me me2 k = s.right k
            rw [upd_other _ _ hk2, e2.2.2, e1.2.2]
      · have hRnil : slice v ((a + b) / 2 + 1) b = [] := slice_nil v (by omega)
        refine ⟨{ { { s1 with left := upd s1.left me me1 } with
            parent := upd { s1 with left := upd s1.left me me1 }.parent me1 me } with
            right := upd { { s1 with left := upd s1.left me me1 } with
              parent := upd { s1 with left := upd s1.left me me1 }.parent me1 me }.right
              me (-1) }, me, .node T1 me .leaf, ?_, hme, ?_, ?_, ?_, ?_, ?_⟩
        · simp only [refreshRecD, hme, Option.bind_eq_bind, Option.some_bind,
            Option.pure_def, if_pos ham, if_neg hmb, heq1]
        · refine encR_node_iff.mpr ⟨rfl, hme0, ?_, ?_⟩
          · have hlme : ({ { { s1 with left := upd s1.left me me1 } with
                parent := upd { s1 with left := upd s1.left me me1 }.parent me1 me } with
                right := upd { { s1 with left := upd s1.left me me1 } with
                  parent := upd { s1 with left := upd s1.left me me1 }.parent me1 me }.right
                  me (-1) } : St).left me = me1 := by
              show upd s1.left me me1 me = me1
              exact upd_same _ _ _
            rw [hlme]
            refine enc_frame hencP (fun k hk => ⟨rfl, rfl, ?_⟩)
            show upd s1.right me (-1) k = s1.right k
            exact upd_other _ _ (fun (he : k = me) => hT1me (show me ∈ keys T1 from he ▸ hk))
          · rw [enc_leaf_iff]
            show upd s1.right me (-1) me = -1
            exact upd_same _ _ _
        · simp only [keys]
          rw [hkeys1', hsplit, hRnil]
        · exact hh1
        · exact hn1
        · intro k hk
          rw [hsplit, hRnil] at hk
          simp only [List.mem_append, List.mem_cons, not_or, List.not_mem_nil] at hk
          obtain ⟨hk1, hk2, -⟩ := hk
          have hkT1 : k ∉ keys T1 := by rw [hkeys1']; exact hk1
          have hkme1 : k ≠ me1 := fun he => hkT1 (show k ∈ keys T1 by rw [he]; exact hme1T)
          have e1 := hfr1 k (by rw [← hkL]; exact hk1)
          refine ⟨?_, ?_, ?_⟩
          · show upd s1.parent me1 me k = s.parent k
            rw [upd_other _ _ hkme1, e1.1]
          · show upd s1.left me me1 k = s.left k
            rw [upd_other _ _ hk2, e1.2.1]
          · show upd s1.right me (-1) k = s.right k
            rw [upd_other _ _ hk2, e1.2.2]
    · have hLnil : (v.drop a).take ((a + b) / 2 - a) = [] := by
        rw [show (a + b) / 2 - a = 0 from by omega]
        exact List.take_zero _
      by_cases hmb : (a + b) / 2 < b
      · obtain ⟨s3, me2, T2, heq2, hme2g, henc2, hkeys2, hh2a, hn2a, hfr2a⟩ :=
          ih ((a + b) / 2 + 1) b { s with left := upd s.left me (-1) }
            (by omega) (by omega) (by omega)
        have hh2 : s3.head = s.head := hh2a
        have hn2 : s3.next = s.next := hn2a
        have hfr2 : ∀ k, k ∉ slice v ((a + b) / 2 + 1) b →
            s3.parent k = s.parent k ∧ s3.left k = upd s.left me (-1) k ∧
            s3.right k = s.right k := hfr2a
        have hme20 : 0 ≤ me2 := hpos me2 (List.get?_mem hme2g)
        have hme2T : me2 ∈ keys T2 := encR_root_mem henc2 hme20
        have hme2S : me2 ∈ slice v ((a + b) / 2 + 1) b := by rw [← hkeys2]; exact hme2T
        have hT2me : me ∉ keys T2 := by rw [hkeys2]; exact hmeR
        refine ⟨{ { s3 with right := upd s3.right me me2 } with
            parent := upd { s3 with right := upd s3.right me me2 }.parent me2 me },
            me, .node .leaf me T2, ?_, hme, ?_, ?_, ?_, ?_, ?_⟩
        · simp only [refreshRecD, hme, Option.bind_eq_bind, Option.some_bind,
            Option.pure_def, if_neg ham, if_pos hmb, heq2]
        · refine encR_node_iff.mpr ⟨rfl, hme0, ?_, ?_⟩
          · rw [enc_leaf_iff]
            show s3.left me = -1
            rw [(hfr2 me hmeR).2.1]
            exact upd_same _ _ _
          · have hrme : ({ { s3 with right := upd s3.right me me2 } with
                parent := upd { s3 with right := upd s3.right me me2 }.parent me2 me } :
                St).right me = me2 := by
              show upd s3.right me me2 me = me2
              exact upd_same _ _ _
            rw [hrme]
            refine encR_to_enc (encR_frame henc2 ?_ ?_ ?_) (upd_same _ _ _)
            · intro k hk
              refine ⟨rfl, ?_⟩
              show upd s3.right me me2 k = s3.right k
              exact upd_other _ _ (fun (he : k = me) => hT2me (show me ∈ keys T2 from he ▸ hk))
            · intro k hk hkme2
              show upd s3.parent me2 me k = s3.parent k
              exact upd_other _ _ hkme2
            · rw [hkeys2]
              exact hndR
        · simp only [keys]
          rw [hkeys2, hsplit, hLnil]
        · exact hh2
        · exact hn2
        · intro k hk
          rw [hsplit, hLnil] at hk
          simp only [List.nil_append, List.mem_cons, not_or] at hk
          obtain ⟨hk2, hk3⟩ := hk
          have hkme2 : k ≠ me2 := fun he => hk3 (show k ∈ slice v ((a + b) / 2 + 1) b by rw [he]; exact hme2S)
          have e2 := hfr2 k hk3
          refine ⟨?_, ?_, ?_⟩
          · show upd s3.parent me2 me k = s.parent k
            rw [upd_other _ _ hkme2, e2.1]
          · show s3.left k = s.left k
            rw [e2.2.1, upd_other _ _ hk2]
          · show upd s3.right me me2 k = s.right k
            rw [upd_other _ _ hk2, e2.2.2]
      · have hRnil : slice v ((a + b) / 2 + 1) b = [] := slice_nil v (by omega)
        refine ⟨{ { s with left := upd s.left me (-1) } with
            right := upd { s with left := upd s.left me (-1) }.right me (-1) },
            me, .node .leaf me .leaf, ?_, hme, ?_, ?_, rfl, rfl, ?_⟩
        · simp only [refreshRecD, hme, Option.bind_eq_bind, Option.some_bind,
            Option.pure_def, if_neg ham, if_neg hmb]
        · refine encR_node_iff.mpr ⟨rfl, hme0, ?_, ?_⟩
          · rw [enc_leaf_iff]
            show upd s.left me (-1) me = -1
            exact upd_same _ _ _
          · rw [enc_leaf_iff]
            show upd s.right me (-1) me = -1
            exact upd_same _ _ _
        · simp only [keys]
          rw [hsplit, hLnil, hRnil]
        · intro k hk
          rw [hsplit, hLnil, hRnil] at hk
          simp only [List.nil_append, List.mem_cons, List.not_mem_nil, or_false] at hk
          refine ⟨rfl, ?_, ?_⟩
          · show upd s.left me (-1) k = s.left k
            exact upd_other _ _ hk
          · show upd s.right me (-1) k = s.right k
            exact upd_other _ _ hk

/-- Correctness of one node of `DynArcLookUp::refresh()`. -/
theorem refreshNodeD_ok (g : Digraph) (hg : WFg g) (n : Int) (s : St) :
    ∃ s', refreshNodeD g n s = some s' ∧
      (∃ T, enc s' (-1) (s'.head n) T = true ∧ (keys T).Perm (outArcs g n) ∧
        List.Sorted (leTgt g) (keys T)) ∧
      (∀ k, k ≠ n → s'.head k = s.head k) ∧
      s'.next = s.next ∧
      (∀ k, k ∉ outArcs g n → s'.parent k = s.parent k ∧ s'.left k = s.left k ∧
        s'.right k = s.right k) := by
  by_cases hv : (sortArcs g (outArcs g n)).isEmpty
  · refine ⟨{ s with head := upd s.head n (-1) }, ?_, ?_, ?_, rfl, ?_⟩
    · simp only [refreshNodeD, hv, if_pos]
    · refine ⟨.leaf, ?_, ?_, List.sorted_nil⟩
      · rw [enc_leaf_iff]
        show upd s.head n (-1) n = -1
        exact upd_same _ _ _
      · show List.Perm [] (outArcs g n)
        have : sortArcs g (outArcs g n) = [] := List.isEmpty_iff.mp hv
        have hp := sortArcs_perm g (outArcs g n)
        rw [this] at hp
        exact hp
    · intro k hk
      exact upd_other _ _ hk
    · intro k _
      exact ⟨rfl, rfl, rfl⟩
  · have hvne : sortArcs g (outArcs g n) ≠ [] := fun h => hv (by simp [h, List.isEmpty])
    have hlen : 0 < (sortArcs g (outArcs g n)).length := List.length_pos.mpr hvne
    have hnd : (sortArcs g (outArcs g n)).Nodup :=
      ((sortArcs_perm g (outArcs g n)).nodup_iff).mpr (outArcs_nodup hg n)
    have hpos : ∀ x ∈ sortArcs g (outArcs g n), 0 ≤ x := fun x hx =>
      outArcs_nonneg hg ((sortArcs_perm g (outArcs g n)).mem_iff.mp hx)
    obtain ⟨s1, me, T, heq, hmeg, henc, hkeys, hh, hn, hfr⟩ :=
      refreshRecD_ok (sortArcs g (outArcs g n)) hnd hpos
        (sortArcs g (outArcs g n)).length 0 ((sortArcs g (outArcs g n)).length - 1) s
        (by omega) (by omega) (by omega)
    have hkv : keys T = sortArcs g (outArcs g n) := by
      rw [hkeys]
      exact slice_full _ hvne
    have hndT : (keys T).Nodup := by rw [hkv]; exact hnd
    have hme0 : 0 ≤ me := hpos me (List.get?_mem hmeg)
    have hmeT : me ∈ keys T := encR_root_mem henc hme0
    refine ⟨{ { s1 with head := upd s1.head n me } with
        parent := upd { s1 with head := upd s1.head n me }.parent me (-1) }, ?_, ?_, ?_,
        hn, ?_⟩
    · simp only [refreshNodeD, hv, if_neg, Bool.false_eq_true, not_false_iff,
        Option.bind_eq_bind, Option.some_bind, Option.pure_def, heq]
    · refine ⟨T, ?_, ?_, ?_⟩
      · have hhd : ({ { s1 with head := upd s1.head n me } with
            parent := upd { s1 with head := upd s1.head n me }.parent me (-1) } :
            St).head n = me := by
          show upd s1.head n me n = me
          exact upd_same _ _ _
        rw [hhd]
        refine encR_to_enc (encR_frame henc (fun k _ => ⟨rfl, rfl⟩) ?_ hndT)
          (upd_same _ _ _)
        intro k _ hkme
        show upd s1.parent me (-1) k = s1.parent k
        exact upd_other _ _ hkme
      · rw [hkv]
        exact sortArcs_perm g (outArcs g n)
      · rw [hkv]
        exact sortArcs_sorted g (outArcs g n)
    · intro k hk
      show upd s1.head n me k = s.head k
      rw [upd_other _ _ hk, hh]
    · intro k hk
      have hkS : k ∉ slice (sortArcs g (outArcs g n)) 0
          ((sortArcs g (outArcs g n)).length - 1) := by
        rw [slice_full _ hvne]
        intro hmem
        exact hk ((sortArcs_perm g (outArcs g n)).mem_iff.mp hmem)
      have hkme : k ≠ me := by
        intro he
        apply hk
        rw [he]
        exact (sortArcs_perm g (outArcs g n)).mem_iff.mp (by rw [← hkv]; exact hmeT)
      obtain ⟨e1, e2, e3⟩ := hfr k hkS
      refine ⟨?_, e2, e3⟩
      show upd s1.parent me (-1) k = s.parent k
      rw [upd_other _ _ hkme, e1]

/-- Correctness of `DynArcLookUp::refresh()` run over any node list. -/
theorem refreshD_go (g : Digraph) (hg : WFg g) :
    ∀ (ns : List Int) (s : St), ∃ s',
      ns.foldlM (fun s n => refreshNodeD g n s) s = some s' ∧
      (∀ n ∈ ns, ∃ T, enc s' (-1) (s'.head n) T = true ∧ (keys T).Perm (outArcs g n) ∧
        List.Sorted (leTgt g) (keys T)) ∧
      (∀ k, k ∉ ns → s'.head k = s.head k) ∧
      s'.next = s.next ∧
      (∀ k, (∀ n ∈ ns, k ∉ outArcs g n) → s'.parent k = s.parent k ∧
        s'.left k = s.left k ∧ s'.right k = s.right k) := by
  intro ns
  induction ns with
  | nil =>
    intro s
    exact ⟨s, rfl, by simp, fun k _ => rfl, rfl, fun k _ => ⟨rfl, rfl, rfl⟩⟩
  | cons n rest ih =>
    intro s
    obtain ⟨s1, heq1, ⟨T1, henc1, hperm1, hsort1⟩, hh1, hn1, hfr1⟩ :=
      refreshNodeD_ok g hg n s
    obtain ⟨s', heq2, hall2, hh2, hn2, hfr2⟩ := ih s1
    refine ⟨s', ?_, ?_, ?_, hn2.trans hn1, ?_⟩
    · simp only [List.foldlM_cons, Option.bind_eq_bind, heq1, Option.some_bind]
      exact heq2
    · intro n2 hn2m
      rcases List.mem_cons.mp hn2m with he | hmem
      · subst he
        by_cases hrest : n2 ∈ rest
        · exact hall2 n2 hrest
        · refine ⟨T1, ?_, hperm1, hsort1⟩
          rw [hh2 n2 hrest]
          refine enc_frame henc1 (fun k hk => ?_)
          have hkout : k ∈ outArcs g n2 := hperm1.mem_iff.mp hk
          refine hfr2 k (fun n3 hn3mem => ?_)
          intro hk2
          by_cases he2 : n2 = n3
          · subst he2
            exact hrest hn3mem
          · exact outArcs_disjoint hg he2 hkout hk2
      · exact hall2 n2 hmem
    · intro k hk
      have hkn : k ≠ n := fun he => hk (he ▸ List.mem_cons_self n rest)
      have hkrest : k ∉ rest := fun hmem => hk (List.mem_cons_of_mem n hmem)
      rw [hh2 k hkrest, hh1 k hkn]
    · intro k hk
      have h1 := hfr1 k (hk n (List.mem_cons_self n rest))
      have h2 := hfr2 k (fun n3 hn3mem => hk n3 (List.mem_cons_of_mem n hn3mem))
      exact ⟨h2.1.trans h1.1, h2.2.1.trans h1.2.1, h2.2.2.trans h1.2.2⟩

/-- `DynArcLookUp::refresh()` (the constructor and the `build` callback)
establishes the dynamic invariant. -/
theorem refreshD_ok (g : Digraph) (hg : WFg g) (s0 : St) :
    ∃ s, refreshD g s0 = some s ∧ InvD g s := by
  obtain ⟨s, heq, hall, -, -, -⟩ := refreshD_go g hg g.nodes s0
  exact ⟨s, heq, hall⟩

/-- C1 (corrected): after a build, `ArcLookUp::operator()(s,t)` — also
the inherited two-argument `AllArcLookUp::operator()` — answers a
non-sentinel arc iff an arc s→t exists in the graph captured by the
build, and any returned arc has source s and target t.  The same holds
for `DynArcLookUp::operator()(s,t)` over the current graph *provided
the source node has at least one outgoing arc*: with an empty out-arc
set the dynamic look-up dereferences the `INVALID` head
(`C1_cex_dyn_lookup_empty_source`) instead of returning the sentinel. -/
theorem C1_lookup_iff (g : Digraph) (hg : WFg g) (s0 : St) :
    (∃ s, refreshS g s0 = some s ∧ ∀ n ∈ g.nodes, ∀ t, ∃ r,
        lookupArc g s n t (g.arcs.length + 1) = some r ∧
        allOp3 g s n t (-1) (g.arcs.length + 1) = some r ∧
        (r ≠ -1 ↔ ∃ a ∈ outArcs g n, tgtD g a = t) ∧
        (r ≠ -1 → r ∈ outArcs g n ∧ srcOf g r = some n ∧ tgtOf g r = some t)) ∧
    (∃ s, refreshD g s0 = some s ∧ ∀ n ∈ g.nodes, outArcs g n ≠ [] → ∀ t,
        ∃ (s' : St) (r : Int), dynLookup g s n t (g.arcs.length + 1) = some (s', r) ∧
        (r ≠ -1 ↔ ∃ a ∈ outArcs g n, tgtD g a = t) ∧
        (r ≠ -1 → r ∈ outArcs g n ∧ srcOf g r = some n ∧ tgtOf g r = some t)) := by
  constructor
  · obtain ⟨s, heq, hall⟩ := staticLookup_ok g hg s0
    refine ⟨s, heq, ?_⟩
    intro n hn t
    obtain ⟨r, hr, hiff, hprops⟩ := hall n hn t
    refine ⟨r, hr, ?_, hiff, hprops⟩
    simpa [allOp3] using hr
  · obtain ⟨s, heq, hinv⟩ := refreshD_ok g hg s0
    refine ⟨s, heq, ?_⟩
    intro n hn hne t
    obtain ⟨s', r, hr, -, hiff, hprops⟩ := dynLookup_ok g hg s hinv n hn hne t
    exact ⟨s', r, hr, hiff, hprops⟩

/-- C1 witness: the corrected look-up equivalence instantiated on `gA`. -/
theorem C1_witness :
    (∃ s, refreshS gA st0 = some s ∧ ∀ n ∈ gA.nodes, ∀ t, ∃ r,
        lookupArc gA s n t (gA.arcs.length + 1) = some r ∧
        allOp3 gA s n t (-1) (gA.arcs.length + 1) = some r ∧
        (r ≠ -1 ↔ ∃ a ∈ outArcs gA n, tgtD gA a = t) ∧
        (r ≠ -1 → r ∈ outArcs gA n ∧ srcOf gA r = some n ∧ tgtOf gA r = some t)) ∧
    (∃ s, refreshD gA st0 = some s ∧ ∀ n ∈ gA.nodes, outArcs gA n ≠ [] → ∀ t,
        ∃ (s' : St) (r : Int), dynLookup gA s n t (gA.arcs.length + 1) = some (s', r) ∧
        (r ≠ -1 ↔ ∃ a ∈ outArcs gA n, tgtD gA a = t) ∧
        (r ≠ -1 → r ∈ outArcs gA n ∧ srcOf gA r = some n ∧ tgtOf gA r = some t)) :=
  C1_lookup_iff gA ⟨by decide, by decide, by decide⟩ st0

/-- C4 (corrected): after construction and after every build/refresh,
every node's tree is a binary search tree ordered by target identity in
the weak sense: every arc in a left subtree has target less than *or
equal to* its subtree root's target, and every arc in a right subtree
has target greater than or equal to it.  Left-strictness fails on
parallel arcs, and an erase notification can destroy the tree structure
outright (`C4_cex_left_subtree_not_strict`), so the property is
asserted for the states produced by construction and build/refresh. -/
theorem C4_refresh_weak_bst (g : Digraph) (hg : WFg g) (s0 : St) :
    (∃ s, refreshS g s0 = some s ∧ ∀ n ∈ g.nodes, ∃ T,
      encS s (s.head n) T = true ∧ (keys T).Perm (outArcs g n) ∧ bstTgt g T) ∧
    (∃ s, refreshD g s0 = some s ∧ ∀ n ∈ g.nodes, ∃ T,
      enc s (-1) (s.head n) T = true ∧ (keys T).Perm (outArcs g n) ∧ bstTgt g T) := by
  constructor
  · obtain ⟨s, heq, hall, -, -, -, -⟩ := refreshS_go g hg g.nodes s0
    refine ⟨s, heq, ?_⟩
    intro n hn
    obtain ⟨T, henc, hperm, hsort⟩ := hall n hn
    exact ⟨T, henc, hperm, sorted_bstTgt hsort⟩
  · obtain ⟨s, heq, hinv⟩ := refreshD_ok g hg s0
    refine ⟨s, heq, ?_⟩
    intro n hn
    obtain ⟨T, henc, hperm, hsort⟩ := hinv n hn
    exact ⟨T, henc, hperm, sorted_bstTgt hsort⟩

/-- C4 witness: the weak search-tree property instantiated on the
parallel-arc graph `gPar`. -/
theorem C4_witness :
    (∃ s, refreshS gPar st0 = some s ∧ ∀ n ∈ gPar.nodes, ∃ T,
      encS s (s.head n) T = true ∧ (keys T).Perm (outArcs gPar n) ∧ bstTgt gPar T) ∧
    (∃ s, refreshD gPar st0 = some s ∧ ∀ n ∈ gPar.nodes, ∃ T,
      enc s (-1) (s.head n) T = true ∧ (keys T).Perm (outArcs gPar n) ∧
      bstTgt gPar T) :=
  C4_refresh_weak_bst gPar ⟨by decide, by decide, by decide⟩ st0

/-- C7 (corrected): a look-up for a pair (s,t) with no arc s→t returns
the not-found sentinel, and the arc set stored in every node's tree is
unchanged — the look-up only reshapes node s's tree by splaying — and
the graph itself is untouched, *provided the source node has at least
one outgoing arc*: with no out-arc the descent dereferences the
`INVALID` head instead (`C7_cex_lookup_without_out_arcs`). -/
theorem C7_notfound_frame (g : Digraph) (hg : WFg g) (s0 : St) :
    ∃ s, refreshD g s0 = some s ∧ InvD g s ∧
      ∀ n ∈ g.nodes, outArcs g n ≠ [] → ∀ t,
        (∀ a ∈ outArcs g n, tgtD g a ≠ t) →
        ∃ s', dynLookup g s n t (g.arcs.length + 1) = some (s', -1) ∧ InvD g s' := by
  obtain ⟨s, heq, hinv⟩ := refreshD_ok g hg s0
  refine ⟨s, heq, hinv, ?_⟩
  intro n hn hne t hnone
  obtain ⟨s', r, hr, hinv2, hiff, -⟩ := dynLookup_ok g hg s hinv n hn hne t
  have hr1 : r = -1 := by
    by_contra hne2
    obtain ⟨a, ha, hta⟩ := hiff.mp hne2
    exact hnone a ha hta
  subst hr1
  exact ⟨s', hr, hinv2⟩

/-- C7 witness: the not-found frame property instantiated on `gThree`. -/
theorem C7_witness :
    ∃ s, refreshD gThree st0 = some s ∧ InvD gThree s ∧
      ∀ n ∈ gThree.nodes, outArcs gThree n ≠ [] → ∀ t,
        (∀ a ∈ outArcs gThree n, tgtD gThree a ≠ t) →
        ∃ s', dynLookup gThree s n t (gThree.arcs.length + 1) = some (s', -1) ∧
          InvD gThree s' :=
  C7_notfound_frame gThree ⟨by decide, by decide, by decide⟩ st0

end Lookup
